import Mathlib

/-!
# Anchor IPAM: range sets, allocator

A shallow embedding of `pkg/utils/range_set.go`, `pkg/allocator/anchor/anchor.go`,
`pkg/store/etcd/etcd.go` and `pkg/monkey/handler.go`.

Conventions of the embedding.

* A Go `string` is a list of characters.
* A Go `net.IP` is a byte slice; the type `IP` names the slices that occur: nil, an IPv4
  address (held in four bytes or in the sixteen bytes of its IPv4-in-IPv6 form, which no
  operation used here tells apart), another sixteen-byte address, and the big-endian bytes
  of a number that are neither four nor sixteen in count, as `ip.NextIP` can return them.
* The library calls `ip.Cmp`, `ip.NextIP`, `net.IP.Equal`, `net.IPNet.Contains`,
  `net.ParseIP`, `net.ParseCIDR`, `strings.Split`, `strings.TrimSpace` and `sort.Sort` are
  embedded by what they do on every input, IPv6 text included.
* A run-time panic (index out of range, nil dereference) is an error value of its own,
  distinct from every error the code returns.
-/

deriving instance DecidableEq for Except

namespace Anchor

/-! ## Strings -/

/-- Go `strings.Split(s, sep)` for a one-character separator: the pieces of `s` between
occurrences of `sep`; always at least one piece. -/
def Split (sep : Char) : List Char → List (List Char)
  | [] => [[]]
  | c :: cs =>
    if c = sep then [] :: Split sep cs
    else
      match Split sep cs with
      | [] => [[c]]
      | h :: t => (c :: h) :: t

/-- Go `unicode.IsSpace`. -/
def isSpace (c : Char) : Bool :=
  let n := c.toNat
  n = 0x20 || (0x09 ≤ n && n ≤ 0x0d) || n = 0x85 || n = 0xa0 || n = 0x1680 ||
    (0x2000 ≤ n && n ≤ 0x200a) || n = 0x2028 || n = 0x2029 || n = 0x202f ||
    n = 0x205f || n = 0x3000

/-- Go `strings.TrimSpace`: drop leading and trailing white space. -/
def TrimSpace (s : List Char) : List Char :=
  ((s.dropWhile isSpace).reverse.dropWhile isSpace).reverse

/-- Go `strings.HasSuffix(s, suffix)` for a one-character suffix. -/
def HasSuffix (s : List Char) (c : Char) : Bool :=
  s.getLast? == some c

/-- Go `strings.TrimSuffix(s, suffix)` for a one-character suffix. -/
def TrimSuffix (s : List Char) (c : Char) : List Char :=
  if HasSuffix s c then s.dropLast else s

/-- Go `strings.Join(elems, sep)` for a one-character separator. -/
def Join (sep : Char) : List (List Char) → List Char
  | [] => []
  | [a] => a
  | a :: b :: l => a ++ sep :: Join sep (b :: l)

/-! ## Addresses -/

/-- A Go `net.IP`. `nil` is the nil slice; `v4 n` is the IPv4 address whose four bytes spell
`n` big-endian, held in four bytes or in sixteen (`To4`, `Equal`, `String`, `Contains` and
`ipToInt` give the same for both); `v6 n` is a slice of sixteen bytes spelling `n` that is
no IPv4 address; `big m` is the slice `big.Int(m).Bytes()` when it has neither four nor
sixteen bytes. -/
inductive IP where
  | nil
  | v4 (n : Nat)
  | v6 (n : Nat)
  | big (m : Nat)

deriving DecidableEq, Repr

/-- The sixteen bytes that spell `x`: an IPv4 address behind the prefix of ten zero bytes
and two bytes `0xff`, another address otherwise. -/
def of16 (x : Nat) : IP :=
  if x / 2 ^ 32 = 0xffff then .v4 (x % 2 ^ 32) else .v6 x

/-- CNI `intToIP`, `net.IP(i.Bytes())`: the bytes of the number `m`, as few as spell it.
Four bytes are an IPv4 address, sixteen an IPv6 address with a first byte that is not zero;
any other count is no address. -/
def ofBig (m : Nat) : IP :=
  if 2 ^ 24 ≤ m ∧ m < 2 ^ 32 then .v4 m
  else if 2 ^ 120 ≤ m ∧ m < 2 ^ 128 then .v6 m
  else .big m

/-- The digit test `'0' <= c && c <= '9'` of Go `net.dtoi`. -/
def isDigit (c : Char) : Bool := '0'.toNat ≤ c.toNat && c.toNat ≤ '9'.toNat

/-- The digits loop of Go `net.dtoi`: accumulate decimal digits, failing once the number
reaches `0xFFFFFF`; returns the number and the unread rest. -/
def dtoiLoop (n : Nat) : List Char → Option (Nat × List Char)
  | [] => some (n, [])
  | c :: cs =>
    if isDigit c then
      let m := n * 10 + (c.toNat - '0'.toNat)
      if m ≥ 0xFFFFFF then none else dtoiLoop m cs
    else some (n, c :: cs)

/-- Go `net.dtoi`: decimal to integer; fails when no digit is read. -/
def dtoi (s : List Char) : Option (Nat × List Char) :=
  match s with
  | [] => none
  | c :: _ => if isDigit c then dtoiLoop 0 s else none

/-- The value of a hexadecimal digit, in either case, as Go `net.xtoi` reads it. -/
def hexVal (c : Char) : Option Nat :=
  if '0'.toNat ≤ c.toNat ∧ c.toNat ≤ '9'.toNat then some (c.toNat - '0'.toNat)
  else if 'a'.toNat ≤ c.toNat ∧ c.toNat ≤ 'f'.toNat then some (c.toNat - 'a'.toNat + 10)
  else if 'A'.toNat ≤ c.toNat ∧ c.toNat ≤ 'F'.toNat then some (c.toNat - 'A'.toNat + 10)
  else none

/-- The digits loop of Go `net.xtoi`: accumulate hexadecimal digits, failing once the number
reaches `0xFFFFFF`; returns the number and the unread rest. -/
def xtoiLoop (n : Nat) : List Char → Option (Nat × List Char)
  | [] => some (n, [])
  | c :: cs =>
    match hexVal c with
    | some d => if n * 16 + d ≥ 0xFFFFFF then none else xtoiLoop (n * 16 + d) cs
    | none => some (n, c :: cs)

/-- Go `net.xtoi`: hexadecimal to integer; fails when no digit is read. -/
def xtoi (s : List Char) : Option (Nat × List Char) :=
  match s with
  | [] => none
  | c :: _ => if (hexVal c).isSome then xtoiLoop 0 s else none

/-- One round of the loop of Go `net.parseIPv4`: a dot unless this is the first octet,
then a decimal number of at most 255. -/
def parseOctet (first : Bool) (s : List Char) : Option (Nat × List Char) :=
  match s with
  | [] => none
  | c :: cs =>
    let body : Option (List Char) :=
      if first then some (c :: cs) else if c = '.' then some cs else none
    match body with
    | none => none
    | some t =>
      match dtoi t with
      | none => none
      | some (n, rest) => if n > 0xFF then none else some (n, rest)

/-- Go `net.parseIPv4`: four octets separated by dots and nothing after them. -/
def parseIPv4 (s : List Char) : IP :=
  match parseOctet true s with
  | none => .nil
  | some (a, s1) =>
    match parseOctet false s1 with
    | none => .nil
    | some (b, s2) =>
      match parseOctet false s2 with
      | none => .nil
      | some (c, s3) =>
        match parseOctet false s3 with
        | none => .nil
        | some (d, s4) =>
          if s4 = [] then .v4 (((a * 256 + b) * 256 + c) * 256 + d) else .nil

/-- The number that a list of bytes spells big-endian. -/
def bytesToNat (bs : List Nat) : Nat := bs.foldl (fun acc b => acc * 256 + b) 0

/-- The loop of Go `net.parseIPv6` on the text left, the bytes written so far and the
position of the ellipsis `::`, if one was met: hexadecimal groups of two bytes separated by
colons, or a trailing dotted quad. `none` is the return of nil from inside the loop; one
unit of fuel per round, and eight rounds fill the sixteen bytes. -/
def parseIPv6Loop : Nat → List Char → List Nat → Option Nat →
    Option (List Char × List Nat × Option Nat)
  | 0, s, ip, ellipsis => some (s, ip, ellipsis)
  | fuel + 1, s, ip, ellipsis =>
    if ip.length ≥ 16 then some (s, ip, ellipsis)
    else
      match xtoi s with
      | none => none
      | some (n, rest) =>
        if n > 0xFFFF then none
        else if rest.head? = some '.' then
          if ellipsis = none ∧ ip.length ≠ 12 then none
          else if ip.length + 4 > 16 then none
          else
            match parseIPv4 s with
            | .v4 a =>
              some ([], ip ++ [a / 2 ^ 24 % 256, a / 2 ^ 16 % 256, a / 2 ^ 8 % 256, a % 256],
                ellipsis)
            | _ => none
        else
          match rest with
          | [] => some ([], ip ++ [n / 256, n % 256], ellipsis)
          | c :: rest1 =>
            if c ≠ ':' ∨ rest1 = [] then none
            else
              match rest1 with
              | ':' :: rest2 =>
                if ellipsis ≠ none then none
                else if rest2 = [] then
                  some ([], ip ++ [n / 256, n % 256], some (ip.length + 2))
                else
                  parseIPv6Loop fuel rest2 (ip ++ [n / 256, n % 256]) (some (ip.length + 2))
              | _ => parseIPv6Loop fuel rest1 (ip ++ [n / 256, n % 256]) ellipsis

/-- Go `net.parseIPv6`, the leading ellipsis: a text that starts with `::` has the two
colons taken off and the ellipsis placed at byte 0. -/
def parseIPv6Lead (s : List Char) : List Char × Option Nat :=
  match s with
  | ':' :: ':' :: t => (t, some 0)
  | _ => (s, none)

/-- Go `net.parseIPv6` without a zone: the number that the sixteen bytes spell, `none` for
the return of nil. A leading `::` is an ellipsis at position 0; after the loop the whole
text must be used, and the ellipsis, which stands for at least one group, is filled with
zero bytes. -/
def parseIPv6Num (s : List Char) : Option Nat :=
  match s with
  | [':', ':'] => some 0
  | _ =>
    match parseIPv6Loop 8 (parseIPv6Lead s).1 [] (parseIPv6Lead s).2 with
    | none => none
    | some (rest, ip, ellipsis) =>
      if rest ≠ [] then none
      else if ip.length < 16 then
        match ellipsis with
        | none => none
        | some e =>
          some (bytesToNat (ip.take e ++ List.replicate (16 - ip.length) 0 ++ ip.drop e))
      else if ellipsis ≠ none then none
      else some (bytesToNat ip)

/-- Go `net.parseIPv6`: the sixteen bytes as an address, nil for a text that is none. -/
def parseIPv6 (s : List Char) : IP :=
  match parseIPv6Num s with
  | none => .nil
  | some x => of16 x

/-- Go `net.ParseIP`: the first dot or colon of the text selects the family. -/
def ParseIP (s : List Char) : IP :=
  match s.find? (fun c => c = '.' || c = ':') with
  | some c => if c = '.' then parseIPv4 s else parseIPv6 s
  | none => .nil

/-- CNI `ipToInt`: the number that the four bytes of `To4` spell, or else the sixteen bytes
of `To16`; a slice of another length has neither and the number is 0. -/
def ipToInt : IP → Nat
  | .v4 n => n
  | .v6 n => n
  | _ => 0

/-- CNI `ip.Cmp`: the usual three-way comparison, of the numbers of `ipToInt`. -/
def Cmp (a b : IP) : Int :=
  if ipToInt a < ipToInt b then -1 else if ipToInt a = ipToInt b then 0 else 1

/-- CNI `ip.NextIP`: `intToIP` of the number of `ipToInt` incremented by one. -/
def NextIP (a : IP) : IP := ofBig (ipToInt a + 1)

/-- Go `net.IP.Equal`: slices of the same length are equal when their bytes are, an IPv4
address equals its sixteen-byte form, and slices of other lengths are not equal. The nil
slice and the empty slice `big 0` have the same length and no byte. -/
def Equal : IP → IP → Bool
  | .nil, .nil => true
  | .nil, .big m => m == 0
  | .big m, .nil => m == 0
  | .v4 a, .v4 b => a == b
  | .v6 a, .v6 b => a == b
  | .big a, .big b => a == b
  | _, _ => false

/-- A Go `net.IPMask`: the number its bytes spell, and whether they are sixteen bytes
(`wide`) or four. -/
structure IPMask where
  val : Nat
  wide : Bool

deriving DecidableEq, Repr

/-- A Go `net.IPNet` as `net.ParseCIDR` and the literals of the code make it: the network
number and the mask. With a mask of four bytes `IP` is the number of an IPv4 address; with a
mask of sixteen bytes `IP` is the number of the sixteen bytes of the address, an IPv4
address in its IPv4-in-IPv6 form included. -/
structure IPNet where
  IP : Nat
  Mask : IPMask

deriving DecidableEq, Repr

/-- Go `net.networkNumberAndMask`: whether the network is of the IPv4 family, its number
and its mask; for a sixteen-byte network whose number is an IPv4 address, the last four
bytes of both. -/
def networkNumberAndMask (n : IPNet) : Bool × Nat × Nat :=
  if n.Mask.wide then
    if n.IP / 2 ^ 32 = 0xffff then (true, n.IP % 2 ^ 32, n.Mask.val % 2 ^ 32)
    else (false, n.IP, n.Mask.val)
  else (true, n.IP, n.Mask.val)

/-- Go `net.IPNet.Contains`: the address, in four bytes if it is an IPv4 address, has as
many bytes as the network number and agrees with it under the mask; nil and the slices that
are no address are not contained. -/
def IPNet.Contains (n : IPNet) (a : Anchor.IP) : Bool :=
  match networkNumberAndMask n, a with
  | (true, nn, m), .v4 x => decide (x < 2 ^ 32) && (x &&& m == nn &&& m)
  | (false, nn, m), .v6 x => decide (x < 2 ^ 128) && (x &&& m == nn &&& m)
  | _, _ => false
/-! ## Ranges and range sets -/

/-- Modelled from the spec: the `Range` type declaration (`range.go` is missing from the
sources): a closed interval `[RangeStart, RangeEnd]` of addresses with the subnet and the
gateway address of that subnet. -/
structure Range where
  RangeStart : IP
  RangeEnd : IP
  Subnet : IPNet
  Gateway : IP
deriving DecidableEq, Repr

/-- A `RangeSet` is an array of `Range`. -/
abbrev RangeSet := List Range

/-- What a call can fail with: the error `Concat` returns for a token, or a run-time panic
of an index expression. -/
inductive ConcatError where
  | invalidRange (token : List Char)
  | indexOutOfRange
deriving DecidableEq, Repr

/-- The body of the token loop of `Concat` for one (untrimmed) token `r0`: the range set
after the round, or the error that ends the call. -/
def concatToken (subnet : IPNet) (rs : RangeSet) (r0 : List Char) :
    Except ConcatError RangeSet :=
  let r := TrimSpace r0
  if HasSuffix r ']' then
    let segments := Split '[' (TrimSuffix r ']')
    match segments[1]? with
    | none => .error .indexOutOfRange
    | some seg1 =>
      let suffixs := Split '-' seg1
      let start := ParseIP (segments.headD [] ++ suffixs.headD [])
      if !subnet.Contains start then .ok rs
      else
        match suffixs[1]? with
        | none => .error .indexOutOfRange
        | some suf1 =>
          let stop := ParseIP (segments.headD [] ++ suf1)
          if start = .nil ∨ stop = .nil then .error (.invalidRange r)
          else .ok (rs ++ [{ RangeStart := start, RangeEnd := stop, Subnet := subnet,
                             Gateway := .nil }])
  else
    let current := ParseIP r
    if current = .nil then .error (.invalidRange r)
    else if !subnet.Contains current then .ok rs
    else .ok (rs ++ [{ RangeStart := current, RangeEnd := current, Subnet := subnet,
                       Gateway := .nil }])

/-- The token loop of `Concat` (lines 163-201). -/
def concatTokens (subnet : IPNet) : RangeSet → List (List Char) → Except ConcatError RangeSet
  | rs, [] => .ok rs
  | rs, r :: rest =>
    match concatToken subnet rs r with
    | .error e => .error e
    | .ok rs1 => concatTokens subnet rs1 rest

/-- The order `RangeSet.Less`: by start, then by end. -/
def Less (a b : Range) : Bool :=
  if Cmp a.RangeStart b.RangeStart ≠ 0 then decide (Cmp a.RangeStart b.RangeStart < 0)
  else decide (Cmp a.RangeEnd b.RangeEnd < 0)

/-- Insertion of one range into a list sorted by `Less`. -/
def insertRange (a : Range) : RangeSet → RangeSet
  | [] => [a]
  | b :: l => if Less b a then b :: insertRange a l else a :: b :: l

/-- Go `sort.Sort(rs)`: the ranges in ascending `Less` order. Ranges that `Less` does not
tell apart keep their order here; `sort.Sort` promises no order among them, and they differ
at most in subnet and gateway. -/
def sortRanges : RangeSet → RangeSet
  | [] => []
  | a :: l => insertRange a (sortRanges l)

/-- The merge loop of `Concat` (lines 204-223) on the state `rs, cursor, i, l`; one unit
of fuel per round. Returns the final `rs`, `cursor` and `i`. -/
def mergeLoop : Nat → RangeSet → Nat → Nat → Nat → Except ConcatError (RangeSet × Nat × Nat)
  | 0, rs, cursor, i, _ => .ok (rs, cursor, i)
  | fuel + 1, rs, cursor, i, l =>
    if i < l then
      match rs[cursor]?, rs[i]? with
      | some rc, some ri =>
        if Cmp rc.RangeEnd ri.RangeStart < 0 ∧ ¬ Equal ri.RangeStart (NextIP rc.RangeEnd) then
          if i > cursor + 1 then
            let gap := i - cursor - 1
            mergeLoop fuel (rs.take (cursor + 1) ++ rs.drop i) (cursor + 1) (i - gap + 1)
              (l - gap)
          else mergeLoop fuel rs (cursor + 1) (i + 1) l
        else if Cmp ri.RangeEnd rc.RangeEnd > 0 then
          mergeLoop fuel (rs.set cursor { rc with RangeEnd := ri.RangeEnd }) cursor (i + 1) l
        else mergeLoop fuel rs cursor (i + 1) l
      | _, _ => .error .indexOutOfRange
    else .ok (rs, cursor, i)

/-- Lines 202-228 of `Concat`: sort, merge, cut the tail. The loop runs fewer rounds than
the set has ranges, so fuel never runs out. -/
def sortMerge (rs0 : RangeSet) : Except ConcatError RangeSet :=
  let rs := sortRanges rs0
  match mergeLoop rs.length rs 0 1 rs.length with
  | .error e => .error e
  | .ok (rs1, cursor, i) =>
    if i > cursor + 1 then .ok (rs1.take (cursor + 1) ++ rs1.drop i) else .ok rs1

/-- The method `RangeSet.Concat`: the receiver `rs`, the pool text `s` and the subnet. -/
def Concat (rs : RangeSet) (s : List Char) (subnet : IPNet) : Except ConcatError RangeSet :=
  if s = [] ∨ TrimSpace s = [] then .ok rs
  else
    match concatTokens subnet rs (Split ',' s) with
    | .error e => .error e
    | .ok rs1 => sortMerge rs1

/-! ## Predicates and functions of the statements on `Concat` -/

/-- The gap test of the merge loop (line 209). -/
def isGap (c r : Range) : Prop :=
  Cmp c.RangeEnd r.RangeStart < 0 ∧ ¬ Equal r.RangeStart (NextIP c.RangeEnd)

instance (c r : Range) : Decidable (isGap c r) := by unfold isGap; infer_instance

/-- The update of the cursor range in the overlap branch of the merge loop (lines 219-221). -/
def absorb (c r : Range) : Range :=
  if Cmp r.RangeEnd c.RangeEnd > 0 then { c with RangeEnd := r.RangeEnd } else c

/-- The merge loop as a function of the cursor range and the ranges not yet visited. -/
def coalesce : Range → List Range → List Range
  | c, [] => [c]
  | c, r :: rest => if isGap c r then c :: coalesce r rest else coalesce (absorb c r) rest

/-- The cut after the merge loop (lines 225-227). -/
def finish (st : RangeSet × Nat × Nat) : RangeSet :=
  if st.2.2 > st.2.1 + 1 then st.1.take (st.2.1 + 1) ++ st.1.drop st.2.2 else st.1

/-- Sort and merge as a function: the sorted ranges, coalesced from the first on. -/
def canon (rs0 : RangeSet) : RangeSet :=
  match sortRanges rs0 with
  | [] => []
  | c :: rest => coalesce c rest

/-- The order behind `Less`: not greater, by start and then by end. -/
def keyLE (a b : Range) : Prop :=
  ipToInt a.RangeStart < ipToInt b.RangeStart ∨
    (ipToInt a.RangeStart = ipToInt b.RangeStart ∧ ipToInt a.RangeEnd ≤ ipToInt b.RangeEnd)

/-- A range whose start is not after its end. -/
def Range.wf (r : Range) : Prop := ipToInt r.RangeStart ≤ ipToInt r.RangeEnd

/-- The range `b` starts after the successor of the end of `a`: the two neither overlap nor
touch. -/
def gapBefore (a b : Range) : Prop := ipToInt a.RangeEnd + 1 < ipToInt b.RangeStart

/-- Order by start address. -/
def startLE (a b : Range) : Prop := ipToInt a.RangeStart ≤ ipToInt b.RangeStart

/-- The network 10.0.1.0/24. -/
def net24 : IPNet := { IP := 0x0a000100, Mask := { val := 0xffffff00, wide := false } }

/-- A character of a dotted quad: a decimal digit or the dot. -/
def quadChar (c : Char) : Prop := isDigit c = true ∨ c = '.'

/-- A character of the text of an address: a hexadecimal digit, the dot or the colon. -/
def ipChar (c : Char) : Prop := (hexVal c).isSome = true ∨ c = '.' ∨ c = ':'

/-- A token of a pool text: a single address `a`, or a span `p[x-y]` from `p ++ x` to
`p ++ y`. -/
inductive Token where
  | single (a : List Char)
  | span (p x y : List Char)

deriving DecidableEq, Repr

/-- The text of a token. -/
def Token.text : Token → List Char
  | .single a => a
  | .span p x y => p ++ '[' :: (x ++ '-' :: (y ++ [']']))

/-- The start address of a token. -/
def Token.start : Token → IP
  | .single a => ParseIP a
  | .span p x _ => ParseIP (p ++ x)

/-- The end address of a token. -/
def Token.stop : Token → IP
  | .single a => ParseIP a
  | .span p _ y => ParseIP (p ++ y)

/-- A well-formed token: the text of an address, or a span whose start and end texts are
texts of addresses. -/
def Token.wellFormed (t : Token) : Prop := t.start ≠ .nil ∧ t.stop ≠ .nil

/-- An entry of a pool text: a token with white space around it. -/
structure Entry where
  lead : List Char
  token : Token
  trail : List Char

deriving DecidableEq, Repr

/-- The text of an entry. -/
def Entry.text (e : Entry) : List Char := e.lead ++ e.token.text ++ e.trail

/-- A well-formed entry: a well-formed token between runs of white space. -/
def Entry.wellFormed (e : Entry) : Prop :=
  (∀ c ∈ e.lead, isSpace c = true) ∧ (∀ c ∈ e.trail, isSpace c = true) ∧ e.token.wellFormed

/-- The range an entry stands for in a subnet. -/
def Entry.range (subnet : IPNet) (e : Entry) : Range :=
  { RangeStart := e.token.start, RangeEnd := e.token.stop, Subnet := subnet, Gateway := .nil }

/-- The pool text of a list of entries: their texts joined by commas. -/
def poolText (es : List Entry) : List Char := Join ',' (es.map Entry.text)

/-- The ranges of the entries whose start address lies in the subnet, in text order. -/
def kept (subnet : IPNet) (es : List Entry) : List Range :=
  (es.filter (fun e => subnet.Contains e.token.start)).map (Entry.range subnet)

instance (t : Token) : Decidable t.wellFormed := by unfold Token.wellFormed; infer_instance

instance (e : Entry) : Decidable e.wellFormed := by unfold Entry.wellFormed; infer_instance

/-- The Range invariants of the data model, for a range of a given subnet: start <= end and
both ends within the subnet. -/
def RangeInvariant (subnet : IPNet) (r : Range) : Prop :=
  ipToInt r.RangeStart ≤ ipToInt r.RangeEnd ∧ subnet.Contains r.RangeStart = true ∧
    subnet.Contains r.RangeEnd = true

instance (subnet : IPNet) (r : Range) : Decidable (RangeInvariant subnet r) := by
  unfold RangeInvariant; infer_instance

/-- What the token loop guarantees of a range it appends: the start lies in the subnet,
the end is an address, the subnet is the one passed and the gateway is nil. -/
def Added (subnet : IPNet) (r : Range) : Prop :=
  subnet.Contains r.RangeStart = true ∧ r.RangeEnd ≠ .nil ∧ r.Subnet = subnet ∧
    r.Gateway = .nil

/-- The network 10.0.1.0/25. -/
def net25 : IPNet := { IP := 0x0a000100, Mask := { val := 0xffffff80, wide := false } }

/-- The address number `x` lies in the range `r`. -/
def Range.covers (r : Range) (x : Nat) : Prop :=
  ipToInt r.RangeStart ≤ x ∧ x ≤ ipToInt r.RangeEnd

/-- The address number `x` lies in some range of the set. -/
def covered (l : RangeSet) (x : Nat) : Prop := ∃ r ∈ l, r.covers x

/-! ## Store and allocator -/

/-- The errors of the allocator and of the store, one constructor per place that makes one;
`panic` is a run-time panic. -/
inductive Error where
  | invalidSubnet
  | notImplemented
  | invalidGateway
  | gatewayMissing
  | gatewayNotInNetwork
  | invalidRoute
  | invalidServiceRange
  | exhausted (pod : List Char)
  | concat (e : ConcatError)
  | noPool (ns : List Char)
  | transport
  | canonicalize
  | panic

deriving DecidableEq, Repr

/-- The interface `store.Store` over a store state `σ`: every method takes the state and
returns the state after the call. -/
structure Store (σ : Type) where
  Lock : σ → σ
  Unlock : σ → σ
  Reserve : List Char → IP → List Char → List Char → List Char → σ → (Bool × Option Error) × σ
  Release : List Char → σ → Option Error × σ
  RetrieveGateway : Option IPNet → σ → IP × σ
  RetrieveAllocated : List Char → IPNet → σ → Except Error RangeSet × σ
  RetrieveUsed : List Char → IPNet → σ → Except Error RangeSet × σ

/-- A Go `map[string]string`: looking up a missing key gives the empty string. -/
abbrev StringMap := List (List Char × List Char)

/-- Map lookup `m[k]`. -/
def StringMap.get (m : StringMap) (k : List Char) : List Char := (m.lookup k).getD []

/-- The struct `Allocator`, without its store, which the functions take as an argument. -/
structure Allocator where
  pod : List Char
  namespace_ : List Char
  customized : StringMap
  subnet : IPNet
  gateway : IP

deriving DecidableEq, Repr

/-- The struct `current.IPConfig` with the address flattened into address and mask. -/
structure IPConfig where
  Version : List Char
  AddressIP : IP
  AddressMask : IPMask
  Gateway : IP

deriving DecidableEq, Repr

/-- The loops at lines 185-190 and 196-201 of `Allocate`: every range gets the gateway of
the allocator, in a copy, and is canonicalized; the first error ends the call.
`canonicalize` is `Range.Canonicalize`, whose source (`range.go`) is missing. -/
def checkRanges (canonicalize : Range → Option Error) (gateway : IP) :
    RangeSet → Option Error
  | [] => none
  | r :: rs =>
    match canonicalize { r with Gateway := gateway } with
    | some e => some e
    | none => checkRanges canonicalize gateway rs

/-- The loop at lines 209-214 over one used range, from `u` until `stop`, the successor of
the end of the range: `avail` becomes false when `iter` is met. -/
def usedScan : Nat → IP → IP → IP → Bool → Option Bool
  | 0, _, _, _, _ => none
  | fuel + 1, iter, u, stop, avail =>
    if Equal u stop then some avail
    else if Equal iter u then some false
    else usedScan fuel iter (NextIP u) stop avail

/-- The loop at lines 207-215 over the used ranges. -/
def availLoop (fuel : Nat) (iter : IP) : RangeSet → Bool → Option Bool
  | [], avail => some avail
  | usedRange :: rest, avail =>
    match usedScan fuel iter usedRange.RangeStart (NextIP usedRange.RangeEnd) avail with
    | none => none
    | some avail1 => availLoop fuel iter rest avail1

/-- The controller name of the binding (lines 228-231): the value of the key
`cni.anchor.org/controller`, or `unknown` when it is empty. -/
def controllerName (a : Allocator) : List Char :=
  if a.customized.get "cni.anchor.org/controller".toList = [] then "unknown".toList
  else a.customized.get "cni.anchor.org/controller".toList

/-- The loop at lines 204-243 over the addresses of one pool range, from `iter` until
`stop`: `some cfg` when the function returns from inside the loop, `none` when the loop
ends; with the value of `err` and the store state. -/
def candidateLoop {σ : Type} (S : Store σ) (a : Allocator) (id : List Char) (used : RangeSet) :
    Nat → IP → IP → Option Error → σ → Option (Option IPConfig × Option Error × σ)
  | 0, _, _, _, _ => none
  | fuel + 1, iter, stop, err, st =>
    if Equal iter stop then some (none, err, st)
    else
      match availLoop fuel iter used true with
      | none => none
      | some avail =>
        if avail then
          if err ≠ none then candidateLoop S a id used fuel (NextIP iter) stop err st
          else if Equal iter a.gateway then
            candidateLoop S a id used fuel (NextIP iter) stop err st
          else
            let res := S.Reserve id iter a.pod a.namespace_ (controllerName a) st
            if res.1.2 ≠ none then
              candidateLoop S a id used fuel (NextIP iter) stop res.1.2 res.2
            else
              some (some { Version := "4".toList, AddressIP := iter,
                           AddressMask := a.subnet.Mask, Gateway := a.gateway },
                    res.1.2, res.2)
        else candidateLoop S a id used fuel (NextIP iter) stop err st

/-- The loop at lines 202-244 over the pool ranges. -/
def poolLoop {σ : Type} (S : Store σ) (a : Allocator) (id : List Char) (used : RangeSet)
    (fuel : Nat) : RangeSet → Option Error → σ → Option (Option IPConfig × Option Error × σ)
  | [], err, st => some (none, err, st)
  | r :: rest, err, st =>
    match candidateLoop S a id used fuel r.RangeStart (NextIP r.RangeEnd) err st with
    | none => none
    | some (some cfg, err1, st1) => some (some cfg, err1, st1)
    | some (none, err1, st1) => poolLoop S a id used fuel rest err1 st1

/-- The method `Allocator.Allocate`, between `Lock` and the deferred `Unlock`. `none`
stands for a run that needs more than `fuel` rounds of one of its loops. -/
def allocateLocked {σ : Type} (S : Store σ) (canonicalize : Range → Option Error)
    (a : Allocator) (id : List Char) (fuel : Nat) (st : σ) : Option (Except Error IPConfig × σ) :=
  match S.RetrieveAllocated a.namespace_ a.subnet st with
  | (.error e, st1) => some (.error e, st1)
  | (.ok ips, st1) =>
    match checkRanges canonicalize a.gateway ips with
    | some e => some (.error e, st1)
    | none =>
      match S.RetrieveUsed a.namespace_ a.subnet st1 with
      | (.error e, st2) => some (.error e, st2)
      | (.ok used, st2) =>
        match checkRanges canonicalize a.gateway used with
        | some e => some (.error e, st2)
        | none =>
          match poolLoop S a id used fuel ips none st2 with
          | none => none
          | some (some cfg, _, st3) => some (.ok cfg, st3)
          | some (none, _, st3) => some (.error (.exhausted a.pod), st3)

/-- The method `Allocator.Allocate`: lock, allocate, unlock on every way out. -/
def Allocate {σ : Type} (S : Store σ) (canonicalize : Range → Option Error)
    (a : Allocator) (id : List Char) (fuel : Nat) (st : σ) : Option (Except Error IPConfig × σ) :=
  match allocateLocked S canonicalize a id fuel (S.Lock st) with
  | none => none
  | some (res, st1) => some (res, S.Unlock st1)

/-! ## The etcd store -/

/-- The key prefix of the bindings. -/
def ipsPrefix : List Char := "/anchor/cn/".toList

/-- The key prefix of the gateway map. -/
def gatewayPrefix : List Char := "/anchor/gw/".toList

/-- The key prefix of the pools. -/
def userPrefix : List Char := "/anchor/ns/".toList

/-- Go `uitoa`: the decimal digits of a number. -/
def uitoa (n : Nat) : List Char := Nat.toDigits 10 n

/-- Go `hexString` of the bytes that spell `n`, at least `width` bytes: two digits a byte. -/
def hexString (width : Nat) (n : Nat) : List Char :=
  let ds := Nat.toDigits 16 n
  let ds := if ds.length % 2 = 1 then '0' :: ds else ds
  List.replicate (2 * width - ds.length) '0' ++ ds

/-- The eight groups of two bytes of a number of sixteen bytes. -/
def groups16 (n : Nat) : List Nat :=
  (List.range 8).map (fun j => n / 2 ^ (16 * (7 - j)) % 2 ^ 16)

/-- The number of zero groups at the head of a list of groups. -/
def zeroRun : List Nat → Nat
  | [] => 0
  | g :: gs => if g = 0 then zeroRun gs + 1 else 0

/-- The scan of Go `net.IP.String` for the longest run of zero groups, from the group `i`
on: a run longer than the best so far replaces it and the scan skips to its end. -/
def longestZeros (gs : List Nat) : Nat → Nat → Nat × Nat → Nat × Nat
  | 0, _, best => best
  | fuel + 1, i, best =>
    if i ≥ 8 then best
    else if zeroRun (gs.drop i) > 0 ∧ zeroRun (gs.drop i) > best.2 - best.1 then
      longestZeros gs fuel (i + zeroRun (gs.drop i) + 1) (i, i + zeroRun (gs.drop i))
    else longestZeros gs fuel (i + 1) best

/-- Go `net.appendHex`: the hexadecimal digits of a group, in lower case, without leading
zeros. -/
def appendHex (g : Nat) : List Char := Nat.toDigits 16 g

/-- The printing loop of Go `net.IP.String` from the group `i` on: groups separated by
colons, with `::` in place of the run of zero groups from `e0` up to `e1`. -/
def printGroups (gs : List Nat) (e0 e1 : Nat) (ellipsis : Bool) : Nat → Nat → List Char
  | 0, _ => []
  | fuel + 1, i =>
    if i ≥ 8 then []
    else if ellipsis ∧ i = e0 then
      ':' :: ':' ::
        (if e1 ≥ 8 then [] else appendHex (gs.getD e1 0) ++ printGroups gs e0 e1 ellipsis fuel (e1 + 1))
    else
      (if i > 0 then [':'] else []) ++ appendHex (gs.getD i 0) ++
        printGroups gs e0 e1 ellipsis fuel (i + 1)

/-- The text of a sixteen-byte address that is no IPv4 address, as Go `net.IP.String`
prints it: the longest run of two or more zero groups, the first of them among equals, is
shortened to `::`. -/
def IPv6String (n : Nat) : List Char :=
  let gs := groups16 n
  let best := longestZeros gs 8 0 (0, 0)
  printGroups gs best.1 best.2 (decide (best.2 - best.1 > 1)) 8 0

/-- Go `net.IP.String`: `<nil>` for a slice without bytes, the dotted quad of an IPv4
address, the groups of another sixteen-byte address, and a question mark with the bytes in
hexadecimal for a slice that is no address. -/
def IPString : IP → List Char
  | .nil => "<nil>".toList
  | .v4 n =>
    uitoa (n / 2 ^ 24) ++ '.' :: (uitoa (n / 2 ^ 16 % 256) ++ '.' ::
      (uitoa (n / 2 ^ 8 % 256) ++ '.' :: uitoa (n % 256)))
  | .v6 n => IPv6String n
  | .big m => if m = 0 then "<nil>".toList else '?' :: hexString 0 m

/-- Go `net.simpleMaskLength` for a mask of `bits` bits: the number of leading ones of a
mask made of ones followed by zeros. -/
def simpleMaskLength (bits m : Nat) : Option Nat :=
  (List.range (bits + 1)).find? (fun n => m = 2 ^ bits - 2 ^ (bits - n))

/-- Go `net.IPNet.String`: the network number, a slash and the length of the mask, or the
mask in hexadecimal when it is not a run of ones followed by zeros. -/
def IPNet.String (n : IPNet) : List Char :=
  match networkNumberAndMask n with
  | (true, nn, m) =>
    match simpleMaskLength 32 m with
    | some l => IPString (.v4 nn) ++ '/' :: uitoa l
    | none => IPString (.v4 nn) ++ '/' :: hexString 4 m
  | (false, nn, m) =>
    match simpleMaskLength 128 m with
    | some l => IPString (of16 nn) ++ '/' :: uitoa l
    | none => IPString (of16 nn) ++ '/' :: hexString 16 m

/-- The etcd client of the store: the key-value pairs in key order, whether the lock is
held, and whether reads and writes of the cluster fail. -/
structure Etcd where
  kvs : List (List Char × List Char)
  locked : Bool
  getFails : Bool
  putFails : Bool

deriving DecidableEq, Repr

/-- The pairs after a put: the value of `k` replaced, or the pair inserted in key order. -/
def putKV (k v : List Char) : List (List Char × List Char) → List (List Char × List Char)
  | [] => [(k, v)]
  | (k1, v1) :: l =>
    if k = k1 then (k, v) :: l
    else if k < k1 then (k, v) :: (k1, v1) :: l
    else (k1, v1) :: putKV k v l

/-- The call `kv.Get(key)`. -/
def Etcd.Get (e : Etcd) (key : List Char) : Except Error (List (List Char × List Char)) :=
  if e.getFails then .error .transport else .ok (e.kvs.filter (fun kv => kv.1 = key))

/-- The call `kv.Get(key, clientv3.WithPrefix())`. -/
def Etcd.GetWithPrefix (e : Etcd) (key : List Char) :
    Except Error (List (List Char × List Char)) :=
  if e.getFails then .error .transport
  else .ok (e.kvs.filter (fun kv => key.isPrefixOf kv.1))

/-- The call `kv.Put(key, value)`. -/
def Etcd.Put (e : Etcd) (key value : List Char) : Except Error Etcd :=
  if e.putFails then .error .transport else .ok { e with kvs := putKV key value e.kvs }

/-- The call `kv.Delete(key)`. -/
def Etcd.Delete (e : Etcd) (key : List Char) : Except Error Etcd :=
  if e.putFails then .error .transport
  else .ok { e with kvs := e.kvs.filter (fun kv => kv.1 ≠ key) }

/-- The method `Etcd.Lock`. -/
def Etcd.Lock (e : Etcd) : Etcd := { e with locked := true }

/-- The method `Etcd.Unlock`. -/
def Etcd.Unlock (e : Etcd) : Etcd := { e with locked := false }

/-- The method `Etcd.RetrieveGateway`; a nil subnet prints as `<nil>`. -/
def Etcd.RetrieveGateway (e : Etcd) (subnet : Option IPNet) : IP :=
  let name := match subnet with
    | some n => n.String
    | none => "<nil>".toList
  match e.Get (gatewayPrefix ++ name) with
  | .error _ => .nil
  | .ok [] => .nil
  | .ok (kv :: _) => ParseIP kv.2

/-- The method `Etcd.RetrieveAllocated`. -/
def Etcd.RetrieveAllocated (e : Etcd) (ns : List Char) (subnet : IPNet) :
    Except Error RangeSet :=
  match e.Get (userPrefix ++ ns) with
  | .error err => .error err
  | .ok [] => .error (.noPool ns)
  | .ok (kv :: _) =>
    match Concat [] kv.2 subnet with
    | .error err => .error (.concat err)
    | .ok rs => .ok rs

/-- The loop of `Etcd.RetrieveUsed` (lines 132-138): the addresses of the bindings of the
namespace; a binding with fewer than three fields panics. -/
def usedAddresses (ns : List Char) :
    List (List Char × List Char) → Except Error (List (List Char))
  | [] => .ok []
  | item :: rest =>
    let row := Split ',' item.2
    match row[2]? with
    | none => .error .panic
    | some f2 =>
      match usedAddresses ns rest with
      | .error err => .error err
      | .ok s => if f2 = ns then .ok (row.headD [] :: s) else .ok s

/-- The method `Etcd.RetrieveUsed`. -/
def Etcd.RetrieveUsed (e : Etcd) (ns : List Char) (subnet : IPNet) : Except Error RangeSet :=
  match e.GetWithPrefix ipsPrefix with
  | .error err => .error err
  | .ok items =>
    match usedAddresses ns items with
    | .error err => .error err
    | .ok s =>
      match Concat [] (Join ',' s) subnet with
      | .error err => .error (.concat err)
      | .ok rs => .ok rs

/-- The method `Etcd.Reserve`: false, with a nil error, when the write fails. -/
def Etcd.Reserve (e : Etcd) (id : List Char) (ip : IP) (podName podNamespace
    controllerName : List Char) : (Bool × Option Error) × Etcd :=
  match e.Put (ipsPrefix ++ id)
      (IPString ip ++ ',' :: (podName ++ ',' :: (podNamespace ++ ',' :: controllerName))) with
  | .error _ => ((false, none), e)
  | .ok e1 => ((true, none), e1)

/-- The method `Etcd.Release`. -/
def Etcd.Release (e : Etcd) (id : List Char) : Option Error × Etcd :=
  match e.Delete (ipsPrefix ++ id) with
  | .error err => (some err, e)
  | .ok e1 => (none, e1)

/-- The etcd store as a `Store`. -/
def etcdStore : Store Etcd where
  Lock := Etcd.Lock
  Unlock := Etcd.Unlock
  Reserve := fun id ip pod ns ctrl e => e.Reserve id ip pod ns ctrl
  Release := fun id e => e.Release id
  RetrieveGateway := fun subnet e => (e.RetrieveGateway subnet, e)
  RetrieveAllocated := fun ns subnet e => (e.RetrieveAllocated ns subnet, e)
  RetrieveUsed := fun ns subnet e => (e.RetrieveUsed ns subnet, e)

/-- The allocator of the first-fit scenario: subnet 10.0.1.0/24, gateway 10.0.1.1. -/
def alloc24 : Allocator :=
  { pod := "web".toList, namespace_ := "default".toList, customized := [],
    subnet := net24, gateway := .v4 0x0a000101 }

/-- The store of the first-fit scenario: pool [10.0.1.2, 10.0.1.10] for the namespace
default, and bindings of 10.0.1.2 and 10.0.1.3. -/
def etcdFirstFit : Etcd :=
  { kvs := [("/anchor/cn/c1".toList, "10.0.1.2,p1,default,unknown".toList),
            ("/anchor/cn/c2".toList, "10.0.1.3,p2,default,unknown".toList),
            ("/anchor/ns/default".toList, "10.0.1.[2-10]".toList)],
    locked := false, getFails := false, putFails := false }

/-! ## Predicates of the statements on `Allocate` -/

/-- The number of addresses of a range with start <= end: the rounds of a loop over it. -/
def Range.size (r : Range) : Nat := ipToInt r.RangeEnd + 1 - ipToInt r.RangeStart

/-- A range over which `ip.NextIP` steps from each address to the next, up to the successor
of the end: start not after end, and both ends IPv4 addresses from 1.0.0.0 on, or both IPv6
addresses whose first byte is not zero. The number of every address of such a range, turned
into bytes by `intToIP`, is an address of as many bytes as the ends. -/
def Range.walkable (r : Range) : Prop :=
  match r.RangeStart, r.RangeEnd with
  | .v4 s, .v4 e => 2 ^ 24 ≤ s ∧ s ≤ e ∧ e < 2 ^ 32
  | .v6 s, .v6 e => 2 ^ 120 ≤ s ∧ s ≤ e ∧ e < 2 ^ 128
  | _, _ => False

instance (r : Range) (x : Nat) : Decidable (r.covers x) := by
  unfold Range.covers; infer_instance

/-- An address, by its number `v`, that `Allocate` may hand out: in no used range and not
the gateway. -/
def freeAddr (a : Allocator) (used : RangeSet) (v : Nat) : Prop :=
  ¬ covered used v ∧ a.gateway ≠ ofBig v

/-- The result of `Allocate` for the address of number `v`. -/
def ipConfig (a : Allocator) (v : Nat) : IPConfig :=
  { Version := "4".toList, AddressIP := ofBig v, AddressMask := a.subnet.Mask,
    Gateway := a.gateway }

/-- The greatest size of a range of the set. -/
def maxSize : RangeSet → Nat
  | [] => 0
  | r :: rest => max r.size (maxSize rest)

instance (a b : Range) : Decidable (gapBefore a b) := by unfold gapBefore; infer_instance

instance (r : Range) : Decidable r.wf := by unfold Range.wf; infer_instance

instance (r : Range) : Decidable r.walkable := by
  unfold Range.walkable; split <;> infer_instance

instance (l : RangeSet) (x : Nat) : Decidable (covered l x) := by
  unfold covered; infer_instance

/-- The store of the failing-write scenario: the store of the first-fit scenario with
writes failing. -/
def etcdReadOnly : Etcd := { etcdFirstFit with putFails := true }

/-! ## NewAllocator -/

/-- The annotation key of the gateway. -/
def customizeGatewayKey : List Char := "cni.anchor.org/gateway".toList

/-- The annotation key of the routes. -/
def customizeRoutesKey : List Char := "cni.anchor.org/routes".toList

/-- The annotation key of the subnet. -/
def customizeSubnetKey : List Char := "cni.anchor.org/subnet".toList

/-- The annotation key of the range. -/
def customizeRangeKey : List Char := "cni.anchor.org/range".toList

/-- Go `net.CIDRMask(ones, bits)`. -/
def CIDRMask (ones bits : Nat) : Nat := 2 ^ bits - 2 ^ (bits - ones)

/-- The text before and after the first occurrence of `c`, if there is one. -/
def cutAt (c : Char) : List Char → Option (List Char × List Char)
  | [] => none
  | d :: ds =>
    if d = c then some ([], ds)
    else
      match cutAt c ds with
      | none => none
      | some (l, r) => some (d :: l, r)

/-- Go `net.ParseCIDR`: the network of the text `address/length`. The address is read as a
dotted quad first and as IPv6 text if it is none; the length is a decimal number of at most
32 or 128; the network number is the address under the mask of that length. -/
def ParseCIDR (s : List Char) : Option IPNet :=
  match cutAt '/' s with
  | none => none
  | some (addr, mask) =>
    match parseIPv4 addr with
    | .v4 ip =>
      match dtoi mask with
      | some (n, []) =>
        if n > 32 then none
        else some { IP := ip &&& CIDRMask n 32, Mask := { val := CIDRMask n 32, wide := false } }
      | _ => none
    | _ =>
      match parseIPv6Num addr, dtoi mask with
      | some ip, some (n, []) =>
        if n > 128 then none
        else some { IP := ip &&& CIDRMask n 128,
                    Mask := { val := CIDRMask n 128, wide := true } }
      | _, _ => none

/-- Lines 74-84 of `NewAllocator`: the gateway must lie in the subnet; a nil subnet is
dereferenced. -/
def checkGateway (pod ns : List Char) (customized : StringMap) (subnet : Option IPNet)
    (gw : IP) : Except Error Allocator :=
  match subnet with
  | none => .error .panic
  | some n =>
    if !n.Contains gw then .error .gatewayNotInNetwork
    else .ok { pod := pod, namespace_ := ns, customized := customized, subnet := n,
               gateway := gw }

/-- The function `NewAllocator`. -/
def NewAllocator {σ : Type} (S : Store σ) (pod ns : List Char) (customized : StringMap)
    (st : σ) : Except Error Allocator × σ :=
  let parsed : Except Error (Option IPNet) :=
    if customized.get customizeSubnetKey ≠ [] then
      match ParseCIDR (customized.get customizeSubnetKey) with
      | none => .error .invalidSubnet
      | some n => .ok (some n)
    else .ok none
  match parsed with
  | .error e => (.error e, st)
  | .ok subnet =>
    if customized.get customizeRangeKey ≠ [] then (.error .notImplemented, st)
    else if customized.get customizeGatewayKey ≠ [] then
      let gw := ParseIP (customized.get customizeSubnetKey)
      if gw = .nil then (.error .invalidGateway, st)
      else (checkGateway pod ns customized subnet gw, st)
    else
      let st1 := S.Lock st
      let got := S.RetrieveGateway subnet st1
      if got.1 = .nil then (.error .gatewayMissing, S.Unlock got.2)
      else (checkGateway pod ns customized subnet got.1, S.Unlock got.2)

/-- The annotations of the gateway scenario: subnet 10.0.1.0/24 and gateway 10.0.1.1. -/
def gatewayAnnotations : StringMap :=
  [(customizeSubnetKey, "10.0.1.0/24".toList), (customizeGatewayKey, "10.0.1.1".toList)]

/-! ## The range iterator -/

/-- The struct `RangeIter`: the range set, the current range index, the current position,
and the address and range index where the iteration started. -/
structure RangeIter where
  rangeset : RangeSet
  rangeIdx : Nat
  cur : IP
  startIP : IP
  startRange : Nat

deriving DecidableEq, Repr

/-- What a call of `Next` returns: an address with its mask and gateway, or nil for an
exhausted iterator; `panic` is an index out of range. -/
inductive NextResult where
  | addr (ip : IP) (mask : IPMask) (gateway : IP)
  | exhausted
  | panic

deriving DecidableEq, Repr

/-- Where lines 39-69 of `Next` leave the call: returned already, or at the gateway test
of lines 46 and 71 with the updated iterator and the range `r`. -/
inductive Step where
  | stop (res : NextResult) (i : RangeIter)
  | test (i : RangeIter) (r : Range)

/-- Lines 39-69 of `Next`: the first call starts at the start of the range; a later call
moves to the next address or to the start of the next range, and stops when it is back
where the iteration started. -/
def step (i : RangeIter) : Step :=
  match i.rangeset[i.rangeIdx]? with
  | none => .stop .panic i
  | some r =>
    if i.cur = .nil then
      .test { i with cur := r.RangeStart, startIP := r.RangeStart } r
    else if Equal i.cur r.RangeEnd then
      let idx := (i.rangeIdx + 1) % i.rangeset.length
      match i.rangeset[idx]? with
      | none => .stop .panic i
      | some r1 =>
        if i.startIP = .nil then
          .test { i with rangeIdx := idx, cur := r1.RangeStart, startIP := r1.RangeStart } r1
        else if idx = i.startRange ∧ Equal r1.RangeStart i.startIP then
          .stop .exhausted { i with rangeIdx := idx, cur := r1.RangeStart }
        else .test { i with rangeIdx := idx, cur := r1.RangeStart } r1
    else
      if i.startIP = .nil then
        .test { i with cur := NextIP i.cur, startIP := NextIP i.cur } r
      else if i.rangeIdx = i.startRange ∧ Equal (NextIP i.cur) i.startIP then
        .stop .exhausted { i with cur := NextIP i.cur }
      else .test { i with cur := NextIP i.cur } r

/-- The method `RangeIter.Next`; one unit of fuel per call, the recursive calls that skip
a gateway included. -/
def Next : Nat → RangeIter → Option (NextResult × RangeIter)
  | 0, _ => none
  | fuel + 1, i =>
    match step i with
    | .stop res i1 => some (res, i1)
    | .test i1 r =>
      if Equal i1.cur r.Gateway then Next fuel i1
      else some (.addr i1.cur r.Subnet.Mask r.Gateway, i1)

/-- A fresh iterator over a range set. -/
def RangeIter.fresh (rs : RangeSet) : RangeIter :=
  { rangeset := rs, rangeIdx := 0, cur := .nil, startIP := .nil, startRange := 0 }

/-- The results of `n` successive calls of `Next`, and the iterator after them. -/
def drain (fuel : Nat) : Nat → RangeIter → Option (List NextResult × RangeIter)
  | 0, i => some ([], i)
  | n + 1, i =>
    match Next fuel i with
    | none => none
    | some (res, i1) =>
      match drain fuel n i1 with
      | none => none
      | some (l, i2) => some (res :: l, i2)

/-! ## The results expected of the iterator -/

/-- The results `Next` gives for the addresses of the range `r` with the numbers `l`: those
equal to the gateway of the range are skipped. -/
def itemsOf (r : Range) (l : List Nat) : List NextResult :=
  (l.filter (fun v => !(Equal (ofBig v) r.Gateway))).map
    (fun v => NextResult.addr (ofBig v) r.Subnet.Mask r.Gateway)

/-- The results for one range: its addresses from start to end, the gateway skipped. -/
def rangeItems (r : Range) : List NextResult :=
  itemsOf r (List.range' (ipToInt r.RangeStart) r.size)

/-- The results for a range set: range after range. -/
def expected : RangeSet → List NextResult
  | [] => []
  | r :: rest => rangeItems r ++ expected rest

/-- The number of addresses of the ranges of a set, counted range by range. -/
def totalSize : RangeSet → Nat
  | [] => 0
  | r :: rest => r.size + totalSize rest


/-- The iterator at the address of number `v` of the range with index `k`, started at the
address of number `s0` in range 0. -/
def itState (rs : RangeSet) (k v s0 : Nat) : RangeIter :=
  { rangeset := rs, rangeIdx := k, cur := ofBig v, startIP := ofBig s0, startRange := 0 }

/-- The results still to come after the address `v` of the range `r`, with the ranges
`post` after it. -/
def itemsAfter (r : Range) (v : Nat) (post : RangeSet) : List NextResult :=
  itemsOf r (List.range' (v + 1) (ipToInt r.RangeEnd - v)) ++ expected post

/-- The address of a result of `Next`, nil for the other results. -/
def NextResult.ip : NextResult → IP
  | .addr a _ _ => a
  | _ => .nil

/-- The pool of the gateway-skip scenario: [10.0.1.1, 10.0.1.3] with gateway 10.0.1.1. -/
def gatewayPool : RangeSet :=
  [{ RangeStart := .v4 0x0a000101, RangeEnd := .v4 0x0a000103, Subnet := net24,
     Gateway := .v4 0x0a000101 }]

instance (a b : Range) : Decidable (keyLE a b) := by unfold keyLE; infer_instance

instance (a b : Range) : Decidable (startLE a b) := by unfold startLE; infer_instance

instance (c : Char) : Decidable (quadChar c) := by unfold quadChar; infer_instance

instance (subnet : IPNet) (r : Range) : Decidable (Added subnet r) := by
  unfold Added; infer_instance

instance (a : Allocator) (used : RangeSet) (v : Nat) : Decidable (freeAddr a used v) := by
  unfold freeAddr; infer_instance

/-- The store of the exhaustion scenario: pool [10.0.1.2, 10.0.1.3] for the namespace
default, and bindings of 10.0.1.2 and 10.0.1.3. -/
def etcdFull : Etcd :=
  { kvs := [("/anchor/cn/c1".toList, "10.0.1.2,p1,default,unknown".toList),
            ("/anchor/cn/c2".toList, "10.0.1.3,p2,default,unknown".toList),
            ("/anchor/ns/default".toList, "10.0.1.[2-3]".toList)],
    locked := false, getFails := false, putFails := false }

/-! ## Routes -/

/-- The struct `types.Route`: destination network and gateway. -/
structure Route where
  Dst : IPNet
  GW : IP

deriving DecidableEq, Repr

/-- The struct `current.Result`, of which the allocator touches the routes only. -/
structure Result where
  Routes : List Route

deriving DecidableEq, Repr

/-- The default route of line 111: 0.0.0.0/0 through the gateway of the allocator. -/
def defaultRoute (a : Allocator) : Route :=
  { Dst := { IP := 0, Mask := { val := 0, wide := false } }, GW := a.gateway }

/-- The loop at lines 121-138 of `CustomizeRoutes` over the entries of the annotation: the
result with the routes appended so far, and the error or panic that ended the loop. -/
def routesLoop (a : Allocator) : List (List Char) → Result → Result × Option Error
  | [], ret => (ret, none)
  | r :: rest, ret =>
    match ParseCIDR ((Split ',' r).headD []) with
    | none => (ret, some .invalidRoute)
    | some dst =>
      match (Split ',' r)[1]? with
      | none => (ret, some .panic)
      | some g =>
        if ParseIP g = .nil then (ret, some .invalidRoute)
        else if !a.subnet.Contains (ParseIP g) then (ret, some .gatewayNotInNetwork)
        else routesLoop a rest { ret with Routes := ret.Routes ++ [{ Dst := dst, GW := ParseIP g }] }

/-- The method `Allocator.CustomizeRoutes`: the result as the call leaves it, and the error
it returns, if any. -/
def CustomizeRoutes (a : Allocator) (ret : Result) : Result × Option Error :=
  let ret1 : Result := { ret with Routes := ret.Routes ++ [defaultRoute a] }
  if a.customized.get customizeRoutesKey ≠ [] then
    routesLoop a (Split ';' (a.customized.get customizeRoutesKey)) ret1
  else (ret1, none)

/-- The loop at lines 163-172 of `AddServiceRoute`: the route through the first node
address within the subnet is appended, and the loop ends there. -/
def serviceLoop (a : Allocator) (dst : IPNet) : List (List Char) → Result → Result
  | [], ret => ret
  | nodeIP :: rest, ret =>
    if a.subnet.Contains (ParseIP nodeIP) then
      { ret with Routes := ret.Routes ++ [{ Dst := dst, GW := ParseIP nodeIP }] }
    else serviceLoop a dst rest ret

/-- The method `Allocator.AddServiceRoute`. -/
def AddServiceRoute (a : Allocator) (ret : Result) (serviceClusterIPRange : List Char)
    (nodeIPs : List (List Char)) : Result × Option Error :=
  if serviceClusterIPRange = [] then (ret, none)
  else
    match ParseCIDR serviceClusterIPRange with
    | none => (ret, some .invalidServiceRange)
    | some dst => (serviceLoop a dst nodeIPs ret, none)

/-- An entry of the routes annotation: the text of the destination and the text of the
gateway. -/
structure RouteEntry where
  cidr : List Char
  gw : List Char

deriving DecidableEq, Repr

/-- The text of an entry: `dst_cidr,gw_ip`. -/
def RouteEntry.text (e : RouteEntry) : List Char := e.cidr ++ ',' :: e.gw

/-- A well-formed entry for an allocator: the destination is a CIDR, the gateway an address
within the subnet of the allocator. -/
def RouteEntry.wellFormed (a : Allocator) (e : RouteEntry) : Prop :=
  ParseCIDR e.cidr ≠ none ∧ ParseIP e.gw ≠ .nil ∧ a.subnet.Contains (ParseIP e.gw) = true

instance (a : Allocator) (e : RouteEntry) : Decidable (e.wellFormed a) := by
  unfold RouteEntry.wellFormed; infer_instance

/-- The routes annotation of a list of entries: their texts joined by semicolons. -/
def routesText (es : List RouteEntry) : List Char := Join ';' (es.map RouteEntry.text)

/-- The routes of a list of entries, in order. -/
def routesOf (es : List RouteEntry) : List Route :=
  es.filterMap (fun e => (ParseCIDR e.cidr).map (fun d => { Dst := d, GW := ParseIP e.gw }))

/-- The allocator of the routes scenario, with two routes through 10.0.1.7 and 10.0.1.8. -/
def allocRoutes : Allocator :=
  { alloc24 with
    customized := [(customizeRoutesKey, "10.0.5.0/24,10.0.1.7;10.0.6.0/24,10.0.1.8".toList)] }

/-- The allocator of the missing-gateway scenario: one route entry without a gateway. -/
def allocRouteNoGateway : Allocator :=
  { alloc24 with customized := [(customizeRoutesKey, "10.0.5.0/24".toList)] }

/-- The store of the gateway scenario: the gateway map gives 10.0.1.1 for 10.0.1.0/24. -/
def etcdGateway : Etcd :=
  { kvs := [("/anchor/gw/10.0.1.0/24".toList, "10.0.1.1".toList)],
    locked := false, getFails := false, putFails := false }

/-- The store of the rebinding scenario: the container c1 is bound to 10.0.1.2. -/
def etcdBound : Etcd :=
  { kvs := [("/anchor/cn/c1".toList, "10.0.1.2,p1,default,unknown".toList)],
    locked := false, getFails := false, putFails := false }

/-- The dotted quad of four bytes. -/
def dotted (a b c d : Nat) : List Char :=
  uitoa a ++ '.' :: (uitoa b ++ '.' :: (uitoa c ++ '.' :: uitoa d))

/-- The result of `Allocate` for the candidate `it`. -/
def ipConfigOf (a : Allocator) (it : IP) : IPConfig :=
  { Version := "4".toList, AddressIP := it, AddressMask := a.subnet.Mask, Gateway := a.gateway }

/-- The store of the single-address scenario: the pool [10.0.1.2, 10.0.1.2] for the
namespace default and no binding. -/
def etcdSingle : Etcd :=
  { kvs := [("/anchor/ns/default".toList, "10.0.1.2".toList)],
    locked := false, getFails := false, putFails := false }

/-- The store of the first-fit scenario after the allocation of 10.0.1.4 to c3. -/
def etcdAfterC3 : Etcd :=
  { etcdFirstFit with
    kvs := putKV "/anchor/cn/c3".toList "10.0.1.4,web,default,unknown".toList etcdFirstFit.kvs }

/-- The store of the first-fit scenario after the allocation of 10.0.1.5 to c4 as well. -/
def etcdAfterC4 : Etcd :=
  { etcdFirstFit with
    kvs := putKV "/anchor/cn/c4".toList "10.0.1.5,web,default,unknown".toList etcdAfterC3.kvs }

/-! ## The text of a range set -/

/-- The dotted prefix `A.B.C.` of the address number `n`. -/
def quadPrefix (n : Nat) : List Char :=
  uitoa (n / 2 ^ 24) ++ '.' :: (uitoa (n / 2 ^ 16 % 256) ++ '.' ::
    (uitoa (n / 2 ^ 8 % 256) ++ ['.']))

/-- Modelled from the spec: the token of the pool text that stands for a range, in the
grammar that `parse` accepts: the address itself for a single address, the span
`A.B.C.[X-Y]` for two IPv4 addresses `A.B.C.X` and `A.B.C.Y` that share their first three
bytes, and otherwise the span `[S-E]` with an empty prefix and the whole addresses between
the brackets, which `Concat` reads as the range from `S` to `E`. -/
def Range.token (r : Range) : Token :=
  if r.RangeStart = r.RangeEnd then .single (IPString r.RangeStart)
  else
    match r.RangeStart, r.RangeEnd with
    | .v4 s, .v4 e =>
      if s / 256 = e / 256 then .span (quadPrefix s) (uitoa (s % 256)) (uitoa (e % 256))
      else .span [] (IPString (.v4 s)) (IPString (.v4 e))
    | a, b => .span [] (IPString a) (IPString b)

/-- Modelled from the spec: the method `Range.String` (`range.go` is missing from the
sources), as a text that `parse` reads back as the range: a singleton `A.B.C.D`, a bracketed
span `A.B.C.[X-Y]` meaning start `A.B.C.X`, end `A.B.C.Y`, or the bracketed span `[S-E]` of
two whole addresses when the ends do not share their first three bytes. -/
def Range.String (r : Range) : List Char := r.token.text

/-- The method `RangeSet.String` (lines 145-152): the texts of the ranges, joined by
commas. -/
def RangeSet.String (rs : RangeSet) : List Char := Join ',' (rs.map Range.String)

/-- The entry of a rendered range: its token with no white space around it. -/
def Range.entry (r : Range) : Entry := { lead := [], token := r.token, trail := [] }

/-- A range with a gateway: the single address 10.0.1.2 of 10.0.1.0/24, gateway 10.0.1.1. -/
def gatewayRange : Range :=
  { RangeStart := .v4 0x0a000102, RangeEnd := .v4 0x0a000102, Subnet := net24,
    Gateway := .v4 0x0a000101 }

/-- The network 10.0.0.0/16. -/
def net16 : IPNet := { IP := 0x0a000000, Mask := { val := 0xffff0000, wide := false } }

/-! ## Scenarios of the merge and of the loops -/

/-- The receiver of the merge scenario: the range [10.0.1.2, 10.0.1.4] of 10.0.1.0/24. -/
def mergeReceiver : RangeSet :=
  [{ RangeStart := .v4 0x0a000102, RangeEnd := .v4 0x0a000104, Subnet := net24,
     Gateway := .nil }]

/-- The text of the merge scenario. -/
def mergeText : List Char := "10.0.1.5,10.0.2.3, 10.0.1.9".toList

/-- The result of the merge scenario: [10.0.1.2, 10.0.1.5] and [10.0.1.9, 10.0.1.9]. -/
def mergeResult : RangeSet :=
  [{ RangeStart := .v4 0x0a000102, RangeEnd := .v4 0x0a000105, Subnet := net24,
     Gateway := .nil },
   { RangeStart := .v4 0x0a000109, RangeEnd := .v4 0x0a000109, Subnet := net24,
     Gateway := .nil }]

/-- The store of the inverted scenario: the pool [10.0.1.2, 10.0.1.10] for the namespace
default, and a binding whose address field is the span from 10.0.1.5 to 10.0.1.2. -/
def etcdInverted : Etcd :=
  { kvs := [("/anchor/cn/c1".toList, "10.0.1.[5-2],p1,default,unknown".toList),
            ("/anchor/ns/default".toList, "10.0.1.[2-10]".toList)],
    locked := false, getFails := false, putFails := false }

/-! ## The record of the store calls -/

/-- A call of a method of the store. -/
inductive Call where
  | lock
  | unlock
  | reserve (id : List Char) (ip : IP)
  | release (id : List Char)
  | retrieveGateway
  | retrieveAllocated
  | retrieveUsed

deriving DecidableEq, Repr

/-- The store `S` with a record of the calls made on it, in order: every method does what
it does in `S` and appends its call to the record. -/
def traced {σ : Type} (S : Store σ) : Store (σ × List Call) where
  Lock := fun s => (S.Lock s.1, s.2 ++ [.lock])
  Unlock := fun s => (S.Unlock s.1, s.2 ++ [.unlock])
  Reserve := fun id ip pod ns ctrl s =>
    ((S.Reserve id ip pod ns ctrl s.1).1, ((S.Reserve id ip pod ns ctrl s.1).2,
      s.2 ++ [.reserve id ip]))
  Release := fun id s => ((S.Release id s.1).1, ((S.Release id s.1).2, s.2 ++ [.release id]))
  RetrieveGateway := fun subnet s =>
    ((S.RetrieveGateway subnet s.1).1, ((S.RetrieveGateway subnet s.1).2,
      s.2 ++ [.retrieveGateway]))
  RetrieveAllocated := fun ns subnet s =>
    ((S.RetrieveAllocated ns subnet s.1).1, ((S.RetrieveAllocated ns subnet s.1).2,
      s.2 ++ [.retrieveAllocated]))
  RetrieveUsed := fun ns subnet s =>
    ((S.RetrieveUsed ns subnet s.1).1, ((S.RetrieveUsed ns subnet s.1).2,
      s.2 ++ [.retrieveUsed]))

/-- The method `Cleaner.Clean` (lines 267-272): lock, release the binding of the container,
unlock on the way out. -/
def Clean {σ : Type} (S : Store σ) (id : List Char) (st : σ) : Option Error × σ :=
  ((S.Release id (S.Lock st)).1, S.Unlock (S.Release id (S.Lock st)).2)

/-- A record of calls under a scoped lock: `Lock` first, `Unlock` last, and neither of them
in between. -/
def lockScoped (tr : List Call) : Prop :=
  ∃ mid, tr = Call.lock :: (mid ++ [Call.unlock]) ∧ Call.lock ∉ mid ∧ Call.unlock ∉ mid

/-- The record `tr1` extends `tr` by calls other than `Lock` and `Unlock`. -/
def extendsInner (tr tr1 : List Call) : Prop :=
  ∃ mid, tr1 = tr ++ mid ∧ Call.lock ∉ mid ∧ Call.unlock ∉ mid

/-- The store of the short-record scenario: the pool [10.0.1.2, 10.0.1.10] for the namespace
default, and a binding record with one field only. -/
def etcdShortRecord : Etcd :=
  { kvs := [("/anchor/cn/c1".toList, "10.0.1.2".toList),
            ("/anchor/ns/default".toList, "10.0.1.[2-10]".toList)],
    locked := false, getFails := false, putFails := false }

/-! ## The handlers of the admin endpoints -/

/-- The loop of `Etcd.RetrieveUsedbyNamespace` without the administrator role (lines
253-258): the records of the namespace; a record with fewer than three fields panics. -/
def usedByNamespace (ns : List Char) :
    List (List Char × List Char) → Except Error (List (List Char))
  | [] => .ok []
  | item :: rest =>
    match (Split ',' item.2)[2]? with
    | none => .error .panic
    | some f2 =>
      match usedByNamespace ns rest with
      | .error err => .error err
      | .ok s => if f2 = ns then .ok (item.2 :: s) else .ok s

/-- The method `Etcd.RetrieveUsedbyNamespace`: the binding records, all of them for the
administrator role. -/
def Etcd.RetrieveUsedbyNamespace (e : Etcd) (ns : List Char) (adminRole : Bool) :
    Except Error (List (List Char)) :=
  match e.GetWithPrefix ipsPrefix with
  | .error err => .error err
  | .ok items =>
    if adminRole then .ok (items.map (fun item => item.2)) else usedByNamespace ns items

/-- The struct `ips` of the handler: an element of the response of the binding endpoint,
with the JSON keys ip, pod, ns and ctrl. -/
structure ips where
  IP : List Char
  Pod : List Char
  Namespace : List Char
  Controller : List Char

deriving DecidableEq, Repr

/-- The loop of `InUseHandler.ServeHTTP` (lines 256-264): one element per record, made of
the parts 0, 1, 2 and 4 of the record split at the commas; an index out of range panics. -/
def inUseRows : List (List Char) → Except Error (List ips)
  | [] => .ok []
  | r :: rest =>
    match (Split ',' r)[0]?, (Split ',' r)[1]?, (Split ',' r)[2]?, (Split ',' r)[4]? with
    | some p0, some p1, some p2, some p4 =>
      match inUseRows rest with
      | .error err => .error err
      | .ok result =>
        .ok ({ IP := p0, Pod := p1, Namespace := p2, Controller := p4 } :: result)
    | _, _, _, _ => .error .panic

/-- What a handler of the binding endpoint writes: the empty byte string, or the JSON text
that `json.Marshal` makes of the elements. -/
inductive InUseBody where
  | empty
  | marshal (result : List ips)

deriving DecidableEq, Repr

/-- The method `InUseHandler.ServeHTTP`: the bodies written, in order, and the panic that
ends the call if any. The namespace is the constant `default`, never empty; when the store
fails the handler writes the empty body and goes on to dereference a nil pointer. -/
def InUseHandler.ServeHTTP (e : Etcd) : List InUseBody × Option Error :=
  match e.RetrieveUsedbyNamespace "default".toList true with
  | .error _ => ([.empty], some .panic)
  | .ok ipsInArray =>
    match inUseRows ipsInArray with
    | .error err => ([], some err)
    | .ok result => ([.marshal result], none)

/-- The store of the binding scenario: the store with the pool [10.0.1.2, 10.0.1.2] after
`Reserve` of 10.0.1.2 for the container A, pod web, namespace default, controller
unknown. -/
def etcdReserved : Etcd :=
  (etcdSingle.Reserve "A".toList (.v4 0x0a000102) "web".toList "default".toList
    "unknown".toList).2

/-- Go `strings.TrimPrefix`. -/
def TrimPrefix (s p : List Char) : List Char :=
  if p.isPrefixOf s then s.drop p.length else s

/-- The struct `GatewayMap`, with the JSON keys subnet and gw. -/
structure GatewayMap where
  Subnet : List Char
  Gateway : List Char

deriving DecidableEq, Repr

/-- The struct `AllocateMap`, with the JSON keys ips and ns. -/
structure AllocateMap where
  Allocate : List Char
  Namespace : List Char

deriving DecidableEq, Repr

/-- The loop of `Etcd.AllGatewayMap` (lines 194-214): an entry whose key is no CIDR or whose
value is no address is left out. -/
def gatewayMaps : List (List Char × List Char) → List GatewayMap
  | [] => []
  | item :: rest =>
    if ParseCIDR (TrimPrefix item.1 gatewayPrefix) = none then gatewayMaps rest
    else if ParseIP item.2 = .nil then gatewayMaps rest
    else { Subnet := TrimPrefix item.1 gatewayPrefix, Gateway := item.2 } :: gatewayMaps rest

/-- The method `Etcd.AllGatewayMap`. -/
def Etcd.AllGatewayMap (e : Etcd) : Except Error (List GatewayMap) :=
  match e.GetWithPrefix gatewayPrefix with
  | .error err => .error err
  | .ok items => .ok (gatewayMaps items)

/-- The method `Etcd.InsertGatewayMap`. -/
def Etcd.InsertGatewayMap (e : Etcd) (gm : GatewayMap) : Option Error × Etcd :=
  match e.Put (gatewayPrefix ++ gm.Subnet) gm.Gateway with
  | .error err => (some err, e)
  | .ok e1 => (none, e1)

/-- The method `Etcd.DeleteGatewayMap`: the first failing delete ends the loop. -/
def Etcd.DeleteGatewayMap : List GatewayMap → Etcd → Option Error × Etcd
  | [], e => (none, e)
  | gm :: rest, e =>
    match e.Delete (gatewayPrefix ++ gm.Subnet) with
    | .error err => (some err, e)
    | .ok e1 => Etcd.DeleteGatewayMap rest e1

/-- The method `Etcd.AllAllocate`. -/
def Etcd.AllAllocate (e : Etcd) : Except Error (List AllocateMap) :=
  match e.GetWithPrefix userPrefix with
  | .error err => .error err
  | .ok items =>
    .ok (items.map (fun item =>
      { Allocate := item.2, Namespace := TrimPrefix item.1 userPrefix }))

/-- The method `Etcd.InsertAllocateMap`. -/
def Etcd.InsertAllocateMap (e : Etcd) (am : AllocateMap) : Option Error × Etcd :=
  match e.Put (userPrefix ++ am.Namespace) am.Allocate with
  | .error err => (some err, e)
  | .ok e1 => (none, e1)

/-- The method `Etcd.DeleteAllocateMap`: the first failing delete ends the loop. -/
def Etcd.DeleteAllocateMap : List AllocateMap → Etcd → Option Error × Etcd
  | [], e => (none, e)
  | am :: rest, e =>
    match e.Delete (userPrefix ++ am.Namespace) with
    | .error err => (some err, e)
    | .ok e1 => Etcd.DeleteAllocateMap rest e1

/-- A request as the handlers read it: the method and the body. -/
structure Request where
  Method : List Char
  Body : List Char

deriving DecidableEq, Repr

/-- What `decoder.Decode(&v)` of `encoding/json` leaves: the value of `v` after the call and
whether the call returned an error, as it does for a body that is not valid JSON. -/
structure Decoded (α : Type) where
  value : α
  failed : Bool

/-- The body of a response of the gateway and allocate endpoints: nothing, the text of
`http.Error`, or the JSON text that `json.Marshal` makes of the listed entries (of a nil
pointer when the store failed). -/
inductive ReplyBody where
  | nothing
  | text (msg : List Char)
  | gateways (gws : Option (List GatewayMap))
  | allocates (ams : Option (List AllocateMap))

deriving DecidableEq, Repr

/-- The response of a handler: the status code, 200 unless `http.Error` set another, and
the body. -/
structure Response where
  status : Nat
  body : ReplyBody

deriving DecidableEq, Repr

/-- The call `http.Error(w, msg, code)`. -/
def httpError (msg : List Char) (code : Nat) : Response :=
  { status := code, body := .text msg }

/-- The method `GatewayHandler.ServeHTTP` (lines 56-137). `decodeOne` and `decodeMany` are
the calls of the JSON decoder on the body, into a `GatewayMap` and into a slice of them.
After a decoding error the handler answers and goes on with the value decoded so far. -/
def GatewayHandler.ServeHTTP (decodeOne : List Char → Decoded GatewayMap)
    (decodeMany : List Char → Decoded (List GatewayMap)) (e : Etcd) (r : Request) :
    Response × Etcd :=
  if r.Method = "GET".toList then
    match e.AllGatewayMap with
    | .error _ => ({ status := 200, body := .gateways none }, e)
    | .ok gws => ({ status := 200, body := .gateways (some gws) }, e)
  else if r.Method = "POST".toList then
    let gm := decodeOne r.Body
    let w := if gm.failed then httpError "Invalid parameter.".toList 405
      else { status := 200, body := .nothing }
    (w, (e.InsertGatewayMap gm.value).2)
  else if r.Method = "PUT".toList then ({ status := 200, body := .nothing }, e)
  else if r.Method = "DELETE".toList then
    let gms := decodeMany r.Body
    let w := if gms.failed then httpError "Invalid parameter.".toList 405
      else { status := 200, body := .nothing }
    (w, (Etcd.DeleteGatewayMap gms.value e).2)
  else if r.Method = "PATCH".toList then
    let gms := decodeMany r.Body
    let w := if gms.failed then httpError "Invalid parameter.".toList 405
      else { status := 200, body := .nothing }
    (w, (Etcd.DeleteGatewayMap gms.value e).2)
  else (httpError "Invalid request method.".toList 405, e)

/-- The method `AllocateHandler.ServeHTTP` (lines 140-218), with the calls of the JSON
decoder into an `AllocateMap` and into a slice of them. -/
def AllocateHandler.ServeHTTP (decodeOne : List Char → Decoded AllocateMap)
    (decodeMany : List Char → Decoded (List AllocateMap)) (e : Etcd) (r : Request) :
    Response × Etcd :=
  if r.Method = "GET".toList then
    match e.AllAllocate with
    | .error _ => ({ status := 200, body := .allocates none }, e)
    | .ok ams => ({ status := 200, body := .allocates (some ams) }, e)
  else if r.Method = "POST".toList then
    let am := decodeOne r.Body
    let w := if am.failed then httpError "Invalid parameter.".toList 405
      else { status := 200, body := .nothing }
    (w, (e.InsertAllocateMap am.value).2)
  else if r.Method = "PUT".toList then ({ status := 200, body := .nothing }, e)
  else if r.Method = "DELETE".toList then
    let ams := decodeMany r.Body
    let w := if ams.failed then httpError "Invalid parameter.".toList 505
      else { status := 200, body := .nothing }
    (w, (Etcd.DeleteAllocateMap ams.value e).2)
  else if r.Method = "PATCH".toList then
    let ams := decodeMany r.Body
    let w := if ams.failed then httpError "Invalid parameter.".toList 505
      else { status := 200, body := .nothing }
    (w, (Etcd.DeleteAllocateMap ams.value e).2)
  else (httpError "Invalid request method.".toList 405, e)

/-- A decoder that finds no valid JSON: it returns an error and leaves the value as it
was. -/
def decodeFails {α : Type} (zero : α) : List Char → Decoded α :=
  fun _ => { value := zero, failed := true }

/-! ## Further predicates and the scenarios of low addresses -/

/-- The merge of a sorted list: nothing for the empty list, else the first range as the
cursor and the others to visit. -/
def coalesceAll : List Range → List Range
  | [] => []
  | c :: rest => coalesce c rest

/-- An address whose number fills its bytes: an IPv4 address from 1.0.0.0 on, or an IPv6
address whose first byte is not zero. The number of such an address, turned into bytes
again by `intToIP`, is the address. -/
def fullWidth : IP → Prop
  | .v4 n => 2 ^ 24 ≤ n ∧ n < 2 ^ 32
  | .v6 n => 2 ^ 120 ≤ n ∧ n < 2 ^ 128
  | _ => False

instance (a : IP) : Decidable (fullWidth a) := by
  cases a <;> unfold fullWidth <;> infer_instance

/-- The network 0.0.0.0/24. -/
def net0 : IPNet := { IP := 0, Mask := { val := 0xffffff00, wide := false } }

/-- The range of the single address 0.0.0.5 in 0.0.0.0/24. -/
def lowFive : Range :=
  { RangeStart := .v4 5, RangeEnd := .v4 5, Subnet := net0, Gateway := .nil }

/-- The range of the single address 0.0.0.6 in 0.0.0.0/24. -/
def lowSix : Range :=
  { RangeStart := .v4 6, RangeEnd := .v4 6, Subnet := net0, Gateway := .nil }

/-- The allocator of the low-address scenarios: subnet 0.0.0.0/24, gateway 0.0.0.1. -/
def alloc0 : Allocator :=
  { pod := "web".toList, namespace_ := "default".toList, customized := [],
    subnet := net0, gateway := .v4 1 }

/-- The pool range [0.0.0.5, 0.0.0.7] in 0.0.0.0/24. -/
def lowPool : Range :=
  { RangeStart := .v4 5, RangeEnd := .v4 7, Subnet := net0, Gateway := .nil }

/-- The pool range [0.0.0.5, 0.0.0.6] in 0.0.0.0/24. -/
def lowPair : Range :=
  { RangeStart := .v4 5, RangeEnd := .v4 6, Subnet := net0, Gateway := .nil }

/-- The store of the low-address first-fit scenario: pool [0.0.0.5, 0.0.0.7] for the
namespace default, and bindings of 0.0.0.5 and 0.0.0.6. -/
def etcdLow : Etcd :=
  { kvs := [("/anchor/cn/c1".toList, "0.0.0.5,p1,default,unknown".toList),
            ("/anchor/cn/c2".toList, "0.0.0.6,p2,default,unknown".toList),
            ("/anchor/ns/default".toList, "0.0.0.[5-7]".toList)],
    locked := false, getFails := false, putFails := false }

/-- The store of the low-address exhaustion scenario: pool [0.0.0.5, 0.0.0.6] for the
namespace default, and bindings of 0.0.0.5 and 0.0.0.6. -/
def etcdLowFull : Etcd :=
  { kvs := [("/anchor/cn/c1".toList, "0.0.0.5,p1,default,unknown".toList),
            ("/anchor/cn/c2".toList, "0.0.0.6,p2,default,unknown".toList),
            ("/anchor/ns/default".toList, "0.0.0.[5-6]".toList)],
    locked := false, getFails := false, putFails := false }

/-- The store of the low-address span scenario: the pool of the single address 0.0.0.9 for
the namespace default, and a binding whose address field is the span from 0.0.0.5 to
0.0.0.6. -/
def etcdLowSpan : Etcd :=
  { kvs := [("/anchor/cn/c1".toList, "0.0.0.[5-6],p1,default,unknown".toList),
            ("/anchor/ns/default".toList, "0.0.0.9".toList)],
    locked := false, getFails := false, putFails := false }

/-- The pool range of the single address 0.0.0.9 in 0.0.0.0/24. -/
def lowNine : Range :=
  { RangeStart := .v4 9, RangeEnd := .v4 9, Subnet := net0, Gateway := .nil }

/-- The iterator over the pool [0.0.0.5, 0.0.0.7] of 0.0.0.0/24 after the third call of
`Next`: at the one-byte slice 01, started at 0.0.0.5. -/
def lowStuck : RangeIter :=
  { rangeset := [lowPool], rangeIdx := 0, cur := .big 1, startIP := .v4 5, startRange := 0 }

/-- The iterator over the pool [0.0.0.5, 0.0.0.7] of 0.0.0.0/24 at the position `cur`,
started at 0.0.0.5. -/
def lowAt (cur : IP) : RangeIter :=
  { rangeset := [lowPool], rangeIdx := 0, cur := cur, startIP := .v4 5, startRange := 0 }

/-- The IPv4 network of the number `ip` and the four-byte mask `mask`. -/
def net4 (ip mask : Nat) : IPNet := { IP := ip, Mask := { val := mask, wide := false } }

/-- The allocator of the comma scenario: as in the first-fit scenario, with the pod name
"we,b". -/
def allocComma : Allocator := { alloc24 with pod := "we,b".toList }

/-- The allocator of the narrow-subnet scenario: subnet 10.0.1.0/25, gateway 10.0.1.1. -/
def alloc25 : Allocator := { alloc24 with subnet := net25 }

/-- The store of the narrow-subnet scenario: the pool text 10.0.1.[126-130] for the
namespace default, whose span starts inside 10.0.1.0/25 and ends outside it, and bindings
of 10.0.1.126 and 10.0.1.127. -/
def etcdPool25 : Etcd :=
  { kvs := [("/anchor/cn/c1".toList, "10.0.1.126,p1,default,unknown".toList),
            ("/anchor/cn/c2".toList, "10.0.1.127,p2,default,unknown".toList),
            ("/anchor/ns/default".toList, "10.0.1.[126-130]".toList)],
    locked := false, getFails := false, putFails := false }

/-- The results of two successive calls of `Allocate` against the etcd store, for the
containers `id1` and `id2`, the second call on the store the first one left. -/
def allocateTwice (a : Allocator) (id1 id2 : List Char) (e : Etcd) :
    Option (Except Error IPConfig × Except Error IPConfig) :=
  (Allocate etcdStore (fun _ => none) a id1 20 e).bind
    (fun r1 => (Allocate etcdStore (fun _ => none) a id2 20 r1.2).map (fun r2 => (r1.1, r2.1)))

/-- The set of the round-trip scenario in 10.0.0.0/16: the ranges [10.0.1.2, 10.0.1.4],
[10.0.1.9, 10.0.1.9] and [10.0.1.250, 10.0.2.5]. -/
def roundtripSet : RangeSet :=
  [{ RangeStart := .v4 0x0a000102, RangeEnd := .v4 0x0a000104, Subnet := net16,
     Gateway := .nil },
   { RangeStart := .v4 0x0a000109, RangeEnd := .v4 0x0a000109, Subnet := net16,
     Gateway := .nil },
   { RangeStart := .v4 0x0a0001fa, RangeEnd := .v4 0x0a000205, Subnet := net16,
     Gateway := .nil }]
/-! # Theorems -/

theorem Cmp_neg_iff (a b : IP) : Cmp a b < 0 ↔ ipToInt a < ipToInt b := by
  unfold Cmp; split_ifs <;> simp_all

theorem Cmp_pos_iff (a b : IP) : Cmp a b > 0 ↔ ipToInt b < ipToInt a := by
  unfold Cmp
  split_ifs with h1 h2
  · simp; omega
  · simp; omega
  · simp; omega

theorem Cmp_zero_iff (a b : IP) : Cmp a b = 0 ↔ ipToInt a = ipToInt b := by
  unfold Cmp
  split_ifs with h1 h2
  · simp; omega
  · simp; omega
  · simp; omega

theorem Less_iff (a b : Range) :
    Less a b = true ↔ ipToInt a.RangeStart < ipToInt b.RangeStart ∨
      (ipToInt a.RangeStart = ipToInt b.RangeStart ∧ ipToInt a.RangeEnd < ipToInt b.RangeEnd) := by
  unfold Less
  split_ifs with h
  · rw [ne_eq, Cmp_zero_iff] at h
    simp only [decide_eq_true_eq, Cmp_neg_iff]
    omega
  · have h' : Cmp a.RangeStart b.RangeStart = 0 := by simpa using h
    rw [Cmp_zero_iff] at h'
    simp only [decide_eq_true_eq, Cmp_neg_iff]
    omega

theorem ipToInt_ofBig (m : Nat) : ipToInt (ofBig m) = m ∨ ipToInt (ofBig m) = 0 := by
  unfold ofBig
  split_ifs <;> simp [ipToInt]

theorem ipToInt_ofBig_le (m : Nat) : ipToInt (ofBig m) ≤ m := by
  rcases ipToInt_ofBig m with h | h <;> omega

theorem ofBig_v4 (m : Nat) (h1 : 2 ^ 24 ≤ m) (h2 : m < 2 ^ 32) : ofBig m = .v4 m := by
  unfold ofBig
  rw [if_pos ⟨h1, h2⟩]

theorem ofBig_inj (a b : Nat) (h : ofBig a = ofBig b) : a = b := by
  unfold ofBig at h
  split_ifs at h <;> simp_all

theorem Equal_ofBig (x : IP) (m : Nat) (hm : 0 < m) : Equal x (ofBig m) = true ↔ x = ofBig m := by
  unfold ofBig
  split_ifs
  · cases x <;> simp [Equal]
  · cases x <;> simp [Equal]
  · cases x <;> simp [Equal]
    omega

theorem Equal_NextIP (x e : IP) : Equal x (NextIP e) = true ↔ x = NextIP e :=
  Equal_ofBig x _ (Nat.succ_pos _)

theorem Equal_self_ofBig (m : Nat) (hm : 0 < m) : Equal (ofBig m) (ofBig m) = true :=
  (Equal_ofBig _ m hm).mpr rfl

theorem Equal_ofBig_iff (a b : Nat) (hb : 0 < b) : Equal (ofBig a) (ofBig b) = true ↔ a = b := by
  rw [Equal_ofBig _ b hb]
  exact ⟨ofBig_inj a b, fun h => by rw [h]⟩

theorem isGap_iff (c r : Range) :
    isGap c r ↔ ipToInt c.RangeEnd < ipToInt r.RangeStart ∧ r.RangeStart ≠ NextIP c.RangeEnd := by
  unfold isGap
  rw [Cmp_neg_iff, Equal_NextIP]

theorem isGap_of_gapBefore (c r : Range) (h : gapBefore c r) : isGap c r := by
  rw [isGap_iff]
  unfold gapBefore at h
  refine ⟨by omega, ?_⟩
  intro e
  have := ipToInt_ofBig_le (ipToInt c.RangeEnd + 1)
  rw [e] at h
  unfold NextIP at h
  omega

theorem not_isGap (c r : Range) (h : ¬ isGap c r) :
    ipToInt r.RangeStart ≤ ipToInt c.RangeEnd ∨
      ipToInt r.RangeStart = ipToInt c.RangeEnd + 1 := by
  rw [isGap_iff] at h
  by_cases h1 : ipToInt c.RangeEnd < ipToInt r.RangeStart
  · have h2 : r.RangeStart = NextIP c.RangeEnd := by
      by_contra hne
      exact h ⟨h1, hne⟩
    rcases ipToInt_ofBig (ipToInt c.RangeEnd + 1) with e | e
    · right; rw [h2]; exact e
    · left; rw [h2]; unfold NextIP; omega
  · left; omega

theorem getElem_cursor (done t : List Range) (c : Range) :
    (done ++ c :: t)[done.length]? = some c := by
  induction done with
  | nil => simp
  | cons a l ih => simpa using ih

theorem getElem_next (done junk rest : List Range) (c r : Range) :
    (done ++ c :: (junk ++ r :: rest))[done.length + 1 + junk.length]? = some r := by
  have h := getElem_cursor (done ++ c :: junk) rest r
  simpa [Nat.add_assoc, Nat.add_comm 1] using h

theorem take_cursor (done t : List Range) (c : Range) :
    (done ++ c :: t).take (done.length + 1) = done ++ [c] := by
  induction done with
  | nil => simp
  | cons a l ih => simpa using ih

theorem drop_next (done junk rest : List Range) (c : Range) :
    (done ++ c :: (junk ++ rest)).drop (done.length + 1 + junk.length) = rest := by
  have h : (done ++ c :: junk ++ rest).drop (done ++ c :: junk).length = rest :=
    List.drop_left _ _
  rw [← h]
  simp [Nat.add_assoc, Nat.add_comm 1]

theorem set_cursor (done t : List Range) (c c' : Range) :
    (done ++ c :: t).set done.length c' = done ++ c' :: t := by
  induction done with
  | nil => simp
  | cons a l ih => simp [ih]

theorem finish_state (done junk rest : List Range) (c : Range) (h : junk = [] ∨ rest = []) :
    finish (done ++ c :: (junk ++ rest), done.length, done.length + 1 + junk.length)
      = done ++ c :: rest := by
  unfold finish
  simp only
  split_ifs with hj
  · rw [take_cursor, drop_next]; simp
  · have : junk = [] := by
      cases junk with
      | nil => rfl
      | cons a l => simp at hj
    subst this; simp

theorem mergeLoop_coalesce (rest : List Range) :
    ∀ (done junk : List Range) (c : Range) (fuel : Nat) (rs : RangeSet) (cursor i l : Nat),
      rest.length ≤ fuel → rs = done ++ c :: (junk ++ rest) → cursor = done.length →
      i = done.length + 1 + junk.length → l = rs.length →
      (mergeLoop fuel rs cursor i l).map finish = .ok (done ++ coalesce c rest) := by
  induction rest with
  | nil =>
    intro done junk c fuel rs cursor i l _ hrs hc hi hl
    subst hrs hc hi hl
    have hst : mergeLoop fuel (done ++ c :: (junk ++ [])) done.length
        (done.length + 1 + junk.length) (done ++ c :: (junk ++ [])).length
        = .ok (done ++ c :: (junk ++ []), done.length, done.length + 1 + junk.length) := by
      cases fuel with
      | zero => rfl
      | succ n =>
        unfold mergeLoop
        rw [if_neg]
        simp; omega
    rw [hst]
    simp only [Except.map, coalesce]
    rw [finish_state _ _ _ _ (Or.inr rfl)]
  | cons r rest ih =>
    intro done junk c fuel rs cursor i l hf hrs hc hi hl
    subst hrs hc hi hl
    cases fuel with
    | zero => simp at hf
    | succ n =>
      have hn : rest.length ≤ n := by simpa using hf
      unfold mergeLoop
      rw [if_pos (by simp; omega), getElem_cursor, getElem_next]
      simp only
      by_cases hg : isGap c r
      · have hg' : Cmp c.RangeEnd r.RangeStart < 0 ∧
            ¬ Equal r.RangeStart (NextIP c.RangeEnd) = true := hg
        rw [if_pos hg']
        simp only [coalesce, if_pos hg]
        split_ifs with hj
        · have := ih (done ++ [c]) [] r n
            (List.take (done.length + 1) (done ++ c :: (junk ++ r :: rest)) ++
              List.drop (done.length + 1 + junk.length) (done ++ c :: (junk ++ r :: rest)))
            (done.length + 1)
            (done.length + 1 + junk.length - (done.length + 1 + junk.length - done.length - 1) + 1)
            ((done ++ c :: (junk ++ r :: rest)).length
              - (done.length + 1 + junk.length - done.length - 1))
            hn (by rw [take_cursor, drop_next]; simp) (by simp) (by simp; omega)
            (by rw [take_cursor, drop_next]; simp; omega)
          simpa using this
        · have hj0 : junk = [] := by
            cases junk with
            | nil => rfl
            | cons a l => simp at hj
          subst hj0
          have := ih (done ++ [c]) [] r n (done ++ c :: ([] ++ r :: rest))
            (done.length + 1) (done.length + 1 + 0 + 1)
            (done ++ c :: ([] ++ r :: rest)).length hn
            (by simp) (by simp) (by simp) rfl
          simpa using this
      · have hg' : ¬ (Cmp c.RangeEnd r.RangeStart < 0 ∧
            ¬ Equal r.RangeStart (NextIP c.RangeEnd) = true) := hg
        rw [if_neg hg']
        simp only [coalesce, if_neg hg]
        split_ifs with ha
        · have := ih done (junk ++ [r]) (absorb c r) n
            ((done ++ c :: (junk ++ r :: rest)).set done.length
              { c with RangeEnd := r.RangeEnd })
            done.length (done.length + 1 + junk.length + 1)
            (done ++ c :: (junk ++ r :: rest)).length hn
            (by rw [set_cursor]; simp [absorb, ha]) rfl (by simp; omega) (by simp)
          simpa using this
        · have := ih done (junk ++ [r]) (absorb c r) n
            (done ++ c :: (junk ++ r :: rest))
            done.length (done.length + 1 + junk.length + 1)
            (done ++ c :: (junk ++ r :: rest)).length hn
            (by simp [absorb, ha]) rfl (by simp; omega) rfl
          simpa using this

theorem sortMerge_eq (rs0 : RangeSet) : sortMerge rs0 = .ok (canon rs0) := by
  unfold sortMerge canon
  cases h : sortRanges rs0 with
  | nil => simp [mergeLoop]
  | cons c rest =>
    have := mergeLoop_coalesce rest [] [] c (c :: rest).length (c :: rest) 0 1
      (c :: rest).length (by simp) (by simp) rfl (by simp) rfl
    simp only [Except.map] at this
    split at this
    · simp at this
    · rename_i st hst
      simp only [hst]
      obtain ⟨rs1, cursor, i⟩ := st
      simp only [finish, List.nil_append, Except.ok.injEq] at this
      simp only
      split_ifs with hi
      · rw [if_pos hi] at this; rw [this]
      · rw [if_neg hi] at this; rw [this]

/-! ### Sorting -/

theorem insertRange_perm (a : Range) (l : RangeSet) : (insertRange a l).Perm (a :: l) := by
  induction l with
  | nil => simp [insertRange]
  | cons b l ih =>
    unfold insertRange
    split_ifs
    · exact (List.Perm.cons b ih).trans (List.Perm.swap a b l)
    · exact List.Perm.refl _

theorem sortRanges_perm (l : RangeSet) : (sortRanges l).Perm l := by
  induction l with
  | nil => exact List.Perm.refl _
  | cons a l ih => exact (insertRange_perm a _).trans (List.Perm.cons a ih)

theorem keyLE_of_not_Less (a b : Range) (h : ¬ Less b a = true) : keyLE a b := by
  rw [Less_iff] at h
  unfold keyLE
  omega

theorem keyLE_of_Less (a b : Range) (h : Less a b = true) : keyLE a b := by
  rw [Less_iff] at h
  unfold keyLE
  omega

theorem keyLE_trans (a b c : Range) (h1 : keyLE a b) (h2 : keyLE b c) : keyLE a c := by
  unfold keyLE at *
  omega

theorem insertRange_sorted (a : Range) (l : RangeSet) (h : l.Pairwise keyLE) :
    (insertRange a l).Pairwise keyLE := by
  induction l with
  | nil => simp [insertRange]
  | cons b l ih =>
    unfold insertRange
    rw [List.pairwise_cons] at h
    split_ifs with hb
    · rw [List.pairwise_cons]
      refine ⟨?_, ih h.2⟩
      intro x hx
      rcases List.mem_cons.mp ((insertRange_perm a l).mem_iff.mp hx) with hx' | hx'
      · subst hx'; exact keyLE_of_Less _ _ hb
      · exact h.1 x hx'
    · have hab : keyLE a b := keyLE_of_not_Less _ _ hb
      rw [List.pairwise_cons]
      refine ⟨?_, List.pairwise_cons.mpr h⟩
      intro x hx
      rcases List.mem_cons.mp hx with hx | hx
      · subst hx; exact hab
      · exact keyLE_trans _ _ _ hab (h.1 x hx)

theorem sortRanges_sorted (l : RangeSet) : (sortRanges l).Pairwise keyLE := by
  induction l with
  | nil => simp [sortRanges]
  | cons a l ih => exact insertRange_sorted a _ ih

/-! ### The merge -/

theorem absorb_start (c r : Range) : (absorb c r).RangeStart = c.RangeStart := by
  unfold absorb; split_ifs <;> rfl

theorem absorb_subnet (c r : Range) : (absorb c r).Subnet = c.Subnet := by
  unfold absorb; split_ifs <;> rfl

theorem absorb_gateway (c r : Range) : (absorb c r).Gateway = c.Gateway := by
  unfold absorb; split_ifs <;> rfl

theorem absorb_end (c r : Range) :
    ipToInt (absorb c r).RangeEnd = max (ipToInt c.RangeEnd) (ipToInt r.RangeEnd) := by
  unfold absorb
  split_ifs with h
  · rw [Cmp_pos_iff] at h; simp only; omega
  · rw [Cmp_pos_iff] at h; omega

theorem coalesce_ne_nil (rest : List Range) : ∀ c, coalesce c rest ≠ [] := by
  induction rest with
  | nil => intro c; simp [coalesce]
  | cons r rest ih =>
    intro c
    unfold coalesce
    split_ifs
    · simp
    · exact ih _

theorem coalesce_head (rest : List Range) :
    ∀ c, ∃ h tl, coalesce c rest = h :: tl ∧ h.RangeStart = c.RangeStart ∧
      h.Subnet = c.Subnet ∧ h.Gateway = c.Gateway ∧ ipToInt c.RangeEnd ≤ ipToInt h.RangeEnd := by
  induction rest with
  | nil => intro c; exact ⟨c, [], rfl, rfl, rfl, rfl, le_refl _⟩
  | cons r rest ih =>
    intro c
    unfold coalesce
    split_ifs
    · exact ⟨c, _, rfl, rfl, rfl, rfl, le_refl _⟩
    · obtain ⟨h, tl, e, h1, h2, h3, h4⟩ := ih (absorb c r)
      refine ⟨h, tl, e, ?_, ?_, ?_, ?_⟩
      · rw [h1, absorb_start]
      · rw [h2, absorb_subnet]
      · rw [h3, absorb_gateway]
      · rw [absorb_end] at h4; omega

theorem coalesce_chain (rest : List Range) : ∀ c, (coalesce c rest).Chain' isGap := by
  induction rest with
  | nil => intro c; simp [coalesce]
  | cons r rest ih =>
    intro c
    unfold coalesce
    split_ifs with hg
    · obtain ⟨h, tl, e, h1, -⟩ := coalesce_head rest r
      have hc := ih r
      rw [e] at hc ⊢
      rw [List.chain'_cons]
      refine ⟨?_, hc⟩
      unfold isGap at hg ⊢
      rw [h1]; exact hg
    · exact ih _

theorem coalesce_wf (rest : List Range) :
    ∀ c, c.wf → (∀ r ∈ rest, r.wf) → ∀ x ∈ coalesce c rest, x.wf := by
  induction rest with
  | nil => intro c hc _ x hx; simp [coalesce] at hx; subst hx; exact hc
  | cons r rest ih =>
    intro c hc hr x hx
    unfold coalesce at hx
    split_ifs at hx with hg
    · rcases List.mem_cons.mp hx with hx | hx
      · subst hx; exact hc
      · exact ih r (hr r (List.mem_cons_self _ _))
          (fun y hy => hr y (List.mem_cons_of_mem _ hy)) x hx
    · refine ih (absorb c r) ?_ (fun y hy => hr y (List.mem_cons_of_mem _ hy)) x hx
      unfold Range.wf at hc ⊢
      rw [absorb_start, absorb_end]; omega

theorem coalesce_startLE (rest : List Range) :
    ∀ c, (∀ r ∈ rest, startLE c r) → rest.Pairwise startLE →
      (coalesce c rest).Pairwise startLE ∧ ∀ x ∈ coalesce c rest, startLE c x := by
  induction rest with
  | nil =>
    intro c _ _
    simp [coalesce, startLE]
  | cons r rest ih =>
    intro c hc hp
    rw [List.pairwise_cons] at hp
    unfold coalesce
    split_ifs with hg
    · obtain ⟨h1, h2⟩ := ih r hp.1 hp.2
      have hcr : startLE c r := hc r (List.mem_cons_self _ _)
      have hall : ∀ x ∈ coalesce r rest, startLE c x := fun x hx =>
        le_trans hcr (h2 x hx)
      refine ⟨List.pairwise_cons.mpr ⟨hall, h1⟩, ?_⟩
      intro x hx
      rcases List.mem_cons.mp hx with hx | hx
      · subst hx; exact le_refl _
      · exact hall x hx
    · have hc' : ∀ y ∈ rest, startLE (absorb c r) y := by
        intro y hy
        unfold startLE; rw [absorb_start]
        exact hc y (List.mem_cons_of_mem _ hy)
      obtain ⟨h1, h2⟩ := ih (absorb c r) hc' hp.2
      refine ⟨h1, ?_⟩
      intro x hx
      have := h2 x hx
      unfold startLE at this ⊢
      rw [absorb_start] at this; exact this

theorem pairwise_of_chain_wf (l : List Range) (hc : l.Chain' isGap) (hw : ∀ x ∈ l, x.wf) :
    l.Pairwise isGap := by
  induction l with
  | nil => exact List.Pairwise.nil
  | cons a l ih =>
    have hl : l.Pairwise isGap :=
      ih (List.Chain'.tail hc) (fun x hx => hw x (List.mem_cons_of_mem _ hx))
    rw [List.pairwise_cons]
    refine ⟨?_, hl⟩
    cases l with
    | nil => intro x hx; simp at hx
    | cons b l =>
      rw [List.chain'_cons] at hc
      rw [List.pairwise_cons] at hl
      intro x hx
      rcases List.mem_cons.mp hx with hx | hx
      · subst hx; exact hc.1
      · have h1 := (isGap_iff _ _).mp hc.1
        have h2 := (isGap_iff _ _).mp (hl.1 x hx)
        have h3 := hw b (List.mem_cons_of_mem _ (List.mem_cons_self _ _))
        unfold Range.wf at h3
        apply isGap_of_gapBefore
        unfold gapBefore
        omega

theorem keyLE_startLE (a b : Range) (h : keyLE a b) : startLE a b := by
  unfold keyLE at h; unfold startLE; omega

theorem canon_chain (l : RangeSet) : (canon l).Chain' isGap := by
  unfold canon
  split
  · exact List.chain'_nil
  · exact coalesce_chain _ _

theorem canon_startLE (l : RangeSet) : (canon l).Pairwise startLE := by
  unfold canon
  split
  · exact List.Pairwise.nil
  · rename_i c rest h
    have hs := sortRanges_sorted l
    rw [h, List.pairwise_cons] at hs
    exact (coalesce_startLE rest c (fun r hr => keyLE_startLE _ _ (hs.1 r hr))
      (hs.2.imp (fun {a b} hab => keyLE_startLE a b hab))).1

theorem canon_wf (l : RangeSet) (hw : ∀ r ∈ l, r.wf) : ∀ x ∈ canon l, x.wf := by
  unfold canon
  split
  · intro x hx; simp at hx
  · rename_i c rest h
    have hm : ∀ r ∈ c :: rest, r.wf := fun r hr =>
      hw r ((sortRanges_perm l).mem_iff.mp (h ▸ hr))
    exact coalesce_wf rest c (hm c (List.mem_cons_self _ _))
      (fun r hr => hm r (List.mem_cons_of_mem _ hr))

theorem canon_pairwise (l : RangeSet) (hw : ∀ r ∈ l, r.wf) : (canon l).Pairwise isGap :=
  pairwise_of_chain_wf _ (canon_chain l) (canon_wf l hw)

theorem Concat_eq (rs : RangeSet) (s : List Char) (subnet : IPNet) :
    Concat rs s subnet =
      if s = [] ∨ TrimSpace s = [] then .ok rs
      else (concatTokens subnet rs (Split ',' s)).map canon := by
  unfold Concat
  split_ifs
  · rfl
  · cases concatTokens subnet rs (Split ',' s) with
    | error e => rfl
    | ok rs1 => simp [sortMerge_eq, Except.map]

theorem dtoiLoop_chars (s : List Char) : ∀ (n m : Nat) (rest : List Char),
    dtoiLoop n s = some (m, rest) →
      ∃ ds, s = ds ++ rest ∧ ∀ c ∈ ds, isDigit c = true := by
  induction s with
  | nil =>
    intro n m rest h
    simp [dtoiLoop] at h
    exact ⟨[], by simp [h.2], by simp⟩
  | cons c cs ih =>
    intro n m rest h
    unfold dtoiLoop at h
    simp only at h
    split_ifs at h with hd ho
    · obtain ⟨ds, e, hds⟩ := ih _ m rest h
      refine ⟨c :: ds, by simp [e], ?_⟩
      intro x hx
      rcases List.mem_cons.mp hx with hx | hx
      · subst hx; exact hd
      · exact hds x hx
    · simp at h
      exact ⟨[], by simp [h.2], by simp⟩

theorem dtoi_chars (s : List Char) (m : Nat) (rest : List Char)
    (h : dtoi s = some (m, rest)) :
    ∃ ds, s = ds ++ rest ∧ ds ≠ [] ∧ ∀ c ∈ ds, isDigit c = true := by
  unfold dtoi at h
  cases s with
  | nil => simp at h
  | cons c cs =>
    simp only at h
    split_ifs at h with hd
    obtain ⟨ds, e, hds⟩ := dtoiLoop_chars _ _ _ _ h
    refine ⟨ds, e, ?_, hds⟩
    intro hnil
    subst hnil
    simp at e
    -- the loop read at least the first digit
    unfold dtoiLoop at h
    simp only [hd, if_true] at h
    split_ifs at h
    obtain ⟨ds', e', _⟩ := dtoiLoop_chars _ _ _ _ h
    have : (c :: cs).length = rest.length := by rw [e]
    have : cs.length = (ds' ++ rest).length := by rw [← e']
    simp at *
    omega

theorem parseOctet_chars (first : Bool) (s : List Char) (n : Nat) (rest : List Char)
    (h : parseOctet first s = some (n, rest)) :
    ∃ pre, s = pre ++ rest ∧ pre ≠ [] ∧ ∀ c ∈ pre, quadChar c := by
  unfold parseOctet at h
  cases s with
  | nil => simp at h
  | cons c cs =>
    cases first with
    | true =>
      simp only [if_true] at h
      cases hd : dtoi (c :: cs) with
      | none => simp [hd] at h
      | some p =>
        obtain ⟨m, r⟩ := p
        simp only [hd] at h
        split_ifs at h
        simp at h
        obtain ⟨ds, e, hne, hds⟩ := dtoi_chars _ _ _ hd
        refine ⟨ds, by rw [e, h.2], hne, fun x hx => Or.inl (hds x hx)⟩
    | false =>
      simp only [Bool.false_eq_true, if_false] at h
      by_cases hc : c = '.'
      · simp only [hc, if_true] at h
        cases hd : dtoi cs with
        | none => simp [hd] at h
        | some p =>
          obtain ⟨m, r⟩ := p
          simp only [hd] at h
          split_ifs at h
          simp at h
          obtain ⟨ds, e, hne, hds⟩ := dtoi_chars _ _ _ hd
          refine ⟨c :: ds, by rw [e, h.2]; simp, by simp, ?_⟩
          intro x hx
          rcases List.mem_cons.mp hx with hx | hx
          · subst hx; exact Or.inr hc
          · exact Or.inl (hds x hx)
      · simp [hc] at h

theorem parseIPv4_chars (s : List Char) (h : parseIPv4 s ≠ .nil) :
    s ≠ [] ∧ ∀ c ∈ s, quadChar c := by
  unfold parseIPv4 at h
  cases h1 : parseOctet true s with
  | none => simp [h1] at h
  | some p1 =>
    obtain ⟨a, s1⟩ := p1
    simp only [h1] at h
    cases h2 : parseOctet false s1 with
    | none => simp [h2] at h
    | some p2 =>
      obtain ⟨b, s2⟩ := p2
      simp only [h2] at h
      cases h3 : parseOctet false s2 with
      | none => simp [h3] at h
      | some p3 =>
        obtain ⟨c, s3⟩ := p3
        simp only [h3] at h
        cases h4 : parseOctet false s3 with
        | none => simp [h4] at h
        | some p4 =>
          obtain ⟨d, s4⟩ := p4
          simp only [h4] at h
          split_ifs at h with he
          · obtain ⟨q1, e1, n1, c1⟩ := parseOctet_chars _ _ _ _ h1
            obtain ⟨q2, e2, n2, c2⟩ := parseOctet_chars _ _ _ _ h2
            obtain ⟨q3, e3, n3, c3⟩ := parseOctet_chars _ _ _ _ h3
            obtain ⟨q4, e4, n4, c4⟩ := parseOctet_chars _ _ _ _ h4
            subst he
            subst e4 e3 e2 e1
            refine ⟨by simp [n1], ?_⟩
            intro x hx
            simp only [List.mem_append, List.append_nil] at hx
            rcases hx with hx | hx | hx | hx
            · exact c1 x hx
            · exact c2 x hx
            · exact c3 x hx
            · exact c4 x hx
          · exact absurd rfl h

theorem quadChar_ipChar (c : Char) (h : quadChar c) : ipChar c := by
  rcases h with h | h
  · left
    unfold isDigit at h
    unfold hexVal
    simp only [Bool.and_eq_true, decide_eq_true_eq] at h
    rw [if_pos h]
    rfl
  · exact Or.inr (Or.inl h)

theorem xtoiLoop_chars (s : List Char) : ∀ (n m : Nat) (rest : List Char),
    xtoiLoop n s = some (m, rest) →
      ∃ ds, s = ds ++ rest ∧ ∀ c ∈ ds, (hexVal c).isSome = true := by
  induction s with
  | nil =>
    intro n m rest h
    simp [xtoiLoop] at h
    exact ⟨[], by simp [h.2], by simp⟩
  | cons c cs ih =>
    intro n m rest h
    unfold xtoiLoop at h
    cases hv : hexVal c with
    | none =>
      simp only [hv, Option.some.injEq, Prod.mk.injEq] at h
      exact ⟨[], by simp [h.2], by simp⟩
    | some d =>
      simp only [hv] at h
      split_ifs at h
      obtain ⟨ds, e, hds⟩ := ih _ m rest h
      refine ⟨c :: ds, by simp [e], ?_⟩
      intro x hx
      rcases List.mem_cons.mp hx with hx | hx
      · subst hx; simp [hv]
      · exact hds x hx

theorem xtoi_chars (s : List Char) (m : Nat) (rest : List Char)
    (h : xtoi s = some (m, rest)) :
    ∃ ds, s = ds ++ rest ∧ ∀ c ∈ ds, (hexVal c).isSome = true := by
  unfold xtoi at h
  cases s with
  | nil => simp at h
  | cons c cs =>
    simp only at h
    split_ifs at h
    exact xtoiLoop_chars _ _ _ _ h

theorem parseIPv6Loop_chars (fuel : Nat) : ∀ (s : List Char) (ip : List Nat)
    (ellipsis : Option Nat) (rest : List Char) (ip1 : List Nat) (e1 : Option Nat),
    parseIPv6Loop fuel s ip ellipsis = some (rest, ip1, e1) →
      ∃ pre, s = pre ++ rest ∧ ∀ c ∈ pre, ipChar c := by
  induction fuel with
  | zero =>
    intro s ip ellipsis rest ip1 e1 h
    simp only [parseIPv6Loop, Option.some.injEq, Prod.mk.injEq] at h
    exact ⟨[], by simp [h.1], by simp⟩
  | succ f ih =>
    intro s ip ellipsis rest ip1 e1 h
    unfold parseIPv6Loop at h
    by_cases h16 : ip.length ≥ 16
    · rw [if_pos h16] at h
      simp only [Option.some.injEq, Prod.mk.injEq] at h
      exact ⟨[], by simp [h.1], by simp⟩
    · rw [if_neg h16] at h
      cases hx : xtoi s with
      | none => simp [hx] at h
      | some p =>
        obtain ⟨n, rest0⟩ := p
        obtain ⟨ds, es, hds⟩ := xtoi_chars s n rest0 hx
        simp only [hx] at h
        by_cases hn : n > 0xFFFF
        · rw [if_pos hn] at h; cases h
        · rw [if_neg hn] at h
          by_cases hdot : rest0.head? = some '.'
          · rw [if_pos hdot] at h
            by_cases he : ellipsis = none ∧ ip.length ≠ 12
            · rw [if_pos he] at h; cases h
            · rw [if_neg he] at h
              by_cases hroom : ip.length + 4 > 16
              · rw [if_pos hroom] at h; cases h
              · rw [if_neg hroom] at h
                cases h4 : parseIPv4 s with
                | v4 a =>
                  simp only [h4, Option.some.injEq, Prod.mk.injEq] at h
                  have hc := (parseIPv4_chars s (by rw [h4]; simp)).2
                  exact ⟨s, by simp [← h.1], fun c hc1 => quadChar_ipChar c (hc c hc1)⟩
                | nil => simp [h4] at h
                | v6 a => simp [h4] at h
                | big a => simp [h4] at h
          · rw [if_neg hdot] at h
            cases rest0 with
            | nil =>
              simp only [Option.some.injEq, Prod.mk.injEq] at h
              refine ⟨s, by simp [← h.1], ?_⟩
              intro c hc
              rw [es] at hc
              exact Or.inl (hds c (by simpa using hc))
            | cons c rest1 =>
              simp only at h
              by_cases hcol : c ≠ ':' ∨ rest1 = []
              · rw [if_pos hcol] at h; cases h
              · rw [if_neg hcol] at h
                have hc : c = ':' := by
                  by_contra hne
                  exact hcol (Or.inl hne)
                subst hc
                cases rest1 with
                | nil => simp at hcol
                | cons d rest2 =>
                  by_cases hd : d = ':'
                  · subst hd
                    simp only at h
                    by_cases hell : ellipsis ≠ none
                    · rw [if_pos hell] at h; cases h
                    · rw [if_neg hell] at h
                      by_cases h2 : rest2 = []
                      · rw [if_pos h2] at h
                        simp only [Option.some.injEq, Prod.mk.injEq] at h
                        subst h2
                        refine ⟨s, by simp [← h.1], ?_⟩
                        intro x hx
                        rw [es] at hx
                        rcases List.mem_append.mp hx with hx | hx
                        · exact Or.inl (hds x hx)
                        · simp at hx; subst hx; exact Or.inr (Or.inr rfl)
                      · rw [if_neg h2] at h
                        obtain ⟨pre, ep, hp⟩ := ih _ _ _ _ _ _ h
                        refine ⟨ds ++ ':' :: ':' :: pre, by rw [es, ep]; simp, ?_⟩
                        intro x hx
                        rcases List.mem_append.mp hx with hx | hx
                        · exact Or.inl (hds x hx)
                        · rcases List.mem_cons.mp hx with hx | hx
                          · subst hx; exact Or.inr (Or.inr rfl)
                          · rcases List.mem_cons.mp hx with hx | hx
                            · subst hx; exact Or.inr (Or.inr rfl)
                            · exact hp x hx
                  · have h' : parseIPv6Loop f (d :: rest2) (ip ++ [n / 256, n % 256]) ellipsis =
                        some (rest, ip1, e1) := by
                      revert h
                      split
                      · rename_i heq
                        simp only [List.cons.injEq] at heq
                        exact absurd heq.1 hd
                      · intro h; exact h
                    obtain ⟨pre, ep, hp⟩ := ih _ _ _ _ _ _ h'
                    refine ⟨ds ++ ':' :: pre, by rw [es, ep]; simp, ?_⟩
                    intro x hx
                    rcases List.mem_append.mp hx with hx | hx
                    · exact Or.inl (hds x hx)
                    · rcases List.mem_cons.mp hx with hx | hx
                      · subst hx; exact Or.inr (Or.inr rfl)
                      · exact hp x hx

theorem parseIPv6Num_chars (s : List Char) (x : Nat) (h : parseIPv6Num s = some x) :
    ∀ c ∈ s, ipChar c := by
  unfold parseIPv6Num at h
  split at h
  · intro c hc
    simp only [List.mem_cons, List.mem_singleton, or_self, List.not_mem_nil, or_false] at hc
    subst hc
    exact Or.inr (Or.inr rfl)
  · generalize hlead : parseIPv6Lead s = lead at h
    have hs : s = lead.1 ∨ s = ':' :: ':' :: lead.1 := by
      unfold parseIPv6Lead at hlead
      split at hlead
      · subst hlead; exact Or.inr rfl
      · subst hlead; exact Or.inl rfl
    cases hl : parseIPv6Loop 8 lead.1 [] lead.2 with
    | none => simp [hl] at h
    | some p =>
      obtain ⟨rest, ip, ell⟩ := p
      simp only [hl] at h
      by_cases hr : rest ≠ []
      · simp [hr] at h
      · have hr' : rest = [] := by simpa using hr
        subst hr'
        obtain ⟨pre, ep, hp⟩ := parseIPv6Loop_chars 8 _ _ _ _ _ _ hl
        simp only [List.append_nil] at ep
        intro c hc
        rcases hs with hs | hs
        · rw [hs, ep] at hc
          exact hp c hc
        · rw [hs, ep] at hc
          rcases List.mem_cons.mp hc with hc | hc
          · subst hc; exact Or.inr (Or.inr rfl)
          · rcases List.mem_cons.mp hc with hc | hc
            · subst hc; exact Or.inr (Or.inr rfl)
            · exact hp c hc

theorem parseIPv6_chars (s : List Char) (h : parseIPv6 s ≠ .nil) : ∀ c ∈ s, ipChar c := by
  unfold parseIPv6 at h
  cases hn : parseIPv6Num s with
  | none => simp [hn] at h
  | some x => exact parseIPv6Num_chars s x hn

theorem ParseIP_chars (s : List Char) (h : ParseIP s ≠ .nil) :
    s ≠ [] ∧ ∀ c ∈ s, ipChar c := by
  unfold ParseIP at h
  split at h
  · rename_i c hf
    have hne : s ≠ [] := by
      intro e; subst e; simp at hf
    split_ifs at h
    · exact ⟨hne, fun x hx => quadChar_ipChar x ((parseIPv4_chars s h).2 x hx)⟩
    · exact ⟨hne, parseIPv6_chars s h⟩
  · exact absurd rfl h

theorem ipChar_toNat (c : Char) (h : ipChar c) :
    c.toNat = 46 ∨ (48 ≤ c.toNat ∧ c.toNat ≤ 58) ∨ (65 ≤ c.toNat ∧ c.toNat ≤ 70) ∨
      (97 ≤ c.toNat ∧ c.toNat ≤ 102) := by
  have h0 : '0'.toNat = 48 := by decide
  have h9 : '9'.toNat = 57 := by decide
  have ha : 'a'.toNat = 97 := by decide
  have hf : 'f'.toNat = 102 := by decide
  have hA : 'A'.toNat = 65 := by decide
  have hF : 'F'.toNat = 70 := by decide
  rcases h with h | h | h
  · unfold hexVal at h
    split_ifs at h with h1 h2 h3
    · omega
    · omega
    · omega
    · simp at h
  · subst h; decide
  · subst h; decide

theorem ipChar_not_space (c : Char) (h : ipChar c) : isSpace c = false := by
  have := ipChar_toNat c h
  unfold isSpace
  simp
  omega

theorem ipChar_ne (c d : Char) (h : ipChar c)
    (hd : d.toNat < 46 ∨ d.toNat = 47 ∨ (58 < d.toNat ∧ d.toNat < 65) ∨
      (70 < d.toNat ∧ d.toNat < 97) ∨ 102 < d.toNat) : c ≠ d := by
  intro e
  subst e
  have := ipChar_toNat c h
  omega

theorem Split_not_mem (sep : Char) (s : List Char) (h : sep ∉ s) : Split sep s = [s] := by
  induction s with
  | nil => rfl
  | cons c cs ih =>
    have hc : c ≠ sep := fun e => h (by simp [e])
    have hcs : sep ∉ cs := fun e => h (List.mem_cons_of_mem _ e)
    simp [Split, hc, ih hcs]

theorem Split_append (sep : Char) (p q : List Char) (h : sep ∉ p) :
    Split sep (p ++ sep :: q) = p :: Split sep q := by
  induction p with
  | nil => simp [Split]
  | cons c cs ih =>
    have hc : c ≠ sep := fun e => h (by simp [e])
    have hcs : sep ∉ cs := fun e => h (List.mem_cons_of_mem _ e)
    simp [Split, hc, ih hcs]

theorem Split_Join (sep : Char) (l : List (List Char)) (hne : l ≠ [])
    (h : ∀ t ∈ l, sep ∉ t) : Split sep (Join sep l) = l := by
  induction l with
  | nil => exact absurd rfl hne
  | cons a l ih =>
    cases l with
    | nil => simpa [Join] using Split_not_mem sep a (h a (by simp))
    | cons b l =>
      have := ih (by simp) (fun t ht => h t (List.mem_cons_of_mem _ ht))
      simp only [Join]
      rw [Split_append sep a _ (h a (by simp)), this]

theorem dropWhile_append_of_all (p : Char → Bool) (l m : List Char) (h : ∀ x ∈ l, p x = true) :
    (l ++ m).dropWhile p = m.dropWhile p := by
  induction l with
  | nil => rfl
  | cons a l ih =>
    simp [List.dropWhile, h a (by simp), ih (fun x hx => h x (List.mem_cons_of_mem _ hx))]

theorem TrimSpace_blank (s : List Char) (h : ∀ c ∈ s, isSpace c = true) : TrimSpace s = [] := by
  unfold TrimSpace
  have : s.dropWhile isSpace = [] := by
    have := dropWhile_append_of_all isSpace s [] h
    simpa using this
  simp [this]

theorem TrimSpace_pad (lead core trail : List Char) (a b : Char) (mid : List Char)
    (hl : ∀ c ∈ lead, isSpace c = true) (ht : ∀ c ∈ trail, isSpace c = true)
    (hc : core = a :: mid) (hc' : ∃ mid', core = mid' ++ [b])
    (ha : isSpace a = false) (hb : isSpace b = false) :
    TrimSpace (lead ++ core ++ trail) = core := by
  obtain ⟨mid', hm⟩ := hc'
  unfold TrimSpace
  rw [List.append_assoc, dropWhile_append_of_all _ _ _ hl]
  have h1 : (core ++ trail).dropWhile isSpace = core ++ trail := by
    rw [hc]; simp [List.dropWhile, ha]
  rw [h1, List.reverse_append,
    dropWhile_append_of_all _ _ _ (fun x hx => ht x (List.mem_reverse.mp hx))]
  have h2 : core.reverse.dropWhile isSpace = core.reverse := by
    rw [hm]; simp [List.dropWhile, hb]
  rw [h2, List.reverse_reverse]

theorem TrimSpace_eq_nil (s : List Char) (h : TrimSpace s = []) : ∀ c ∈ s, isSpace c = true := by
  unfold TrimSpace at h
  rw [List.reverse_eq_nil_iff, List.dropWhile_eq_nil_iff] at h
  have hd : s.dropWhile isSpace = [] := by
    cases hd : s.dropWhile isSpace with
    | nil => rfl
    | cons a l =>
      have h1 : isSpace a = true := h a (by rw [hd]; simp)
      have h2 := List.head_dropWhile_not isSpace s (by rw [hd]; simp)
      simp [hd] at h2
      rw [h1] at h2
      cases h2
  rw [List.dropWhile_eq_nil_iff] at hd
  exact hd

theorem HasSuffix_append (l : List Char) (c d : Char) :
    HasSuffix (l ++ [c]) d = (c == d) := by
  unfold HasSuffix
  simp

theorem TrimSuffix_append (l : List Char) (c : Char) : TrimSuffix (l ++ [c]) c = l := by
  unfold TrimSuffix
  rw [HasSuffix_append]
  simp

theorem Token.text_trim (t : Token) (h : t.wellFormed) :
    (∃ a mid, t.text = a :: mid ∧ isSpace a = false) ∧
    (∃ mid b, t.text = mid ++ [b] ∧ isSpace b = false) := by
  cases t with
  | single a =>
    obtain ⟨hne, hq⟩ := ParseIP_chars a h.1
    constructor
    · cases a with
      | nil => exact absurd rfl hne
      | cons c cs => exact ⟨c, cs, rfl, ipChar_not_space c (hq c (by simp))⟩
    · refine ⟨a.dropLast, a.getLast hne, (List.dropLast_append_getLast hne).symm, ?_⟩
      exact ipChar_not_space _ (hq _ (List.getLast_mem hne))
  | span p x y =>
    constructor
    · cases p with
      | nil => exact ⟨'[', _, rfl, by decide⟩
      | cons c cs =>
        have hq := (ParseIP_chars _ h.1).2
        exact ⟨c, _, rfl, ipChar_not_space c (hq c (by simp))⟩
    · refine ⟨p ++ '[' :: (x ++ '-' :: y), ']', by simp [Token.text], by decide⟩

theorem Token.span_chars (p x y : List Char) (h : (Token.span p x y).wellFormed) :
    (∀ c ∈ p, ipChar c) ∧ (∀ c ∈ x, ipChar c) ∧ (∀ c ∈ y, ipChar c) := by
  have h1 := (ParseIP_chars _ h.1).2
  have h2 := (ParseIP_chars _ h.2).2
  exact ⟨fun c hc => h1 c (List.mem_append_left _ hc),
    fun c hc => h1 c (List.mem_append_right _ hc),
    fun c hc => h2 c (List.mem_append_right _ hc)⟩

theorem not_mem_of_ipChar (l : List Char) (d : Char) (h : ∀ c ∈ l, ipChar c)
    (hd : d.toNat < 46 ∨ d.toNat = 47 ∨ (58 < d.toNat ∧ d.toNat < 65) ∨
      (70 < d.toNat ∧ d.toNat < 97) ∨ 102 < d.toNat) : d ∉ l :=
  fun hm => ipChar_ne d d (h d hm) hd rfl

theorem Token.text_chars (t : Token) (h : t.wellFormed) :
    ∀ c ∈ t.text, ipChar c ∨ c = '[' ∨ c = '-' ∨ c = ']' := by
  cases t with
  | single a =>
    intro c hc
    exact Or.inl ((ParseIP_chars a h.1).2 c hc)
  | span p x y =>
    obtain ⟨hp, hx, hy⟩ := Token.span_chars p x y h
    intro c hc
    simp only [Token.text, List.mem_append, List.mem_cons, List.mem_singleton,
      List.not_mem_nil, or_false] at hc
    rcases hc with hc | hc | hc | hc | hc | hc
    · exact Or.inl (hp c hc)
    · exact Or.inr (Or.inl hc)
    · exact Or.inl (hx c hc)
    · exact Or.inr (Or.inr (Or.inl hc))
    · exact Or.inl (hy c hc)
    · exact Or.inr (Or.inr (Or.inr hc))

theorem concatToken_token (subnet : IPNet) (rs : RangeSet) (e : Entry) (h : e.wellFormed) :
    concatToken subnet rs e.text =
      .ok (if subnet.Contains e.token.start then rs ++ [e.range subnet] else rs) := by
  obtain ⟨hl, ht, hw⟩ := h
  obtain ⟨⟨a, mid, e1, ha⟩, ⟨mid', b, e2, hb⟩⟩ := Token.text_trim e.token hw
  have htrim : TrimSpace e.text = e.token.text :=
    TrimSpace_pad e.lead e.token.text e.trail a b mid hl ht e1 ⟨mid', e2⟩ ha hb
  unfold concatToken
  simp only [htrim]
  cases ht : e.token with
  | single a =>
    rw [ht] at hw
    obtain ⟨hne, hq⟩ := ParseIP_chars a hw.1
    have hsuf : HasSuffix a ']' = false := by
      unfold HasSuffix
      rw [List.getLast?_eq_getLast _ hne]
      have := ipChar_ne _ ']' (hq _ (List.getLast_mem hne)) (by decide)
      simpa using this
    have hp : ParseIP a ≠ .nil := hw.1
    simp only [Token.text, hsuf, Bool.false_eq_true, if_false, hp, Token.start, Entry.range,
      ht, Token.stop]
    cases subnet.Contains (ParseIP a) <;> simp
  | span p x y =>
    rw [ht] at hw
    obtain ⟨hp, hx, hy⟩ := Token.span_chars p x y hw
    have hb1 : '[' ∉ p := not_mem_of_ipChar p _ hp (by decide)
    have hb2 : '[' ∉ x ++ '-' :: y := by
      intro hm
      rcases List.mem_append.mp hm with hm | hm
      · exact not_mem_of_ipChar x _ hx (by decide) hm
      · rcases List.mem_cons.mp hm with hm | hm
        · exact absurd hm (by decide)
        · exact not_mem_of_ipChar y _ hy (by decide) hm
    have hd1 : '-' ∉ x := not_mem_of_ipChar x _ hx (by decide)
    have hd2 : '-' ∉ y := not_mem_of_ipChar y _ hy (by decide)
    have htext : (Token.span p x y).text = (p ++ '[' :: (x ++ '-' :: y)) ++ [']'] := by
      simp [Token.text]
    have hseg : Split '[' (p ++ '[' :: (x ++ '-' :: y)) = [p, x ++ '-' :: y] := by
      rw [Split_append _ _ _ hb1, Split_not_mem _ _ hb2]
    have hsuf : Split '-' (x ++ '-' :: y) = [x, y] := by
      rw [Split_append _ _ _ hd1, Split_not_mem _ _ hd2]
    have h1 : ParseIP (p ++ x) ≠ .nil := hw.1
    have h2 : ParseIP (p ++ y) ≠ .nil := hw.2
    rw [htext, HasSuffix_append, TrimSuffix_append, hseg]
    simp only [beq_self_eq_true, if_true, List.getElem?_cons_succ, List.getElem?_cons_zero,
      hsuf, List.headD_cons, Token.start, Token.stop, Entry.range, ht]
    cases subnet.Contains (ParseIP (p ++ x)) <;> simp [h1, h2]

theorem concatTokens_entries (subnet : IPNet) (es : List Entry) :
    ∀ rs, (∀ e ∈ es, e.wellFormed) →
      concatTokens subnet rs (es.map Entry.text) = .ok (rs ++ kept subnet es) := by
  induction es with
  | nil => intro rs _; simp [concatTokens, kept]
  | cons e es ih =>
    intro rs hw
    have he := hw e (List.mem_cons_self _ _)
    have hes : ∀ x ∈ es, x.wellFormed := fun x hx => hw x (List.mem_cons_of_mem _ hx)
    simp only [List.map_cons, concatTokens, concatToken_token subnet rs e he]
    rw [ih _ hes]
    unfold kept
    by_cases hc : subnet.Contains e.token.start = true
    · simp [hc, List.filter_cons]
    · simp [hc, List.filter_cons]

theorem Entry.text_no_comma (e : Entry) (h : e.wellFormed) : ',' ∉ e.text := by
  obtain ⟨hl, ht, hw⟩ := h
  intro hm
  unfold Entry.text at hm
  rcases List.mem_append.mp hm with hm | hm
  · rcases List.mem_append.mp hm with hm | hm
    · have := hl _ hm
      revert this; decide
    · rcases Token.text_chars _ hw _ hm with hq | hq | hq | hq
      · exact ipChar_ne _ ',' hq (by decide) rfl
      · revert hq; decide
      · revert hq; decide
      · revert hq; decide
  · have := ht _ hm
    revert this; decide

theorem Entry.text_not_blank (e : Entry) (h : e.wellFormed) :
    ∃ c ∈ e.text, isSpace c = false := by
  obtain ⟨⟨a, mid, e1, ha⟩, _⟩ := Token.text_trim e.token h.2.2
  refine ⟨a, ?_, ha⟩
  unfold Entry.text
  rw [e1]; simp

theorem mem_Join (sep : Char) (l : List (List Char)) (t : List Char) (c : Char)
    (ht : t ∈ l) (hc : c ∈ t) : c ∈ Join sep l := by
  induction l with
  | nil => simp at ht
  | cons a l ih =>
    cases l with
    | nil =>
      simp at ht
      subst ht
      simpa [Join] using hc
    | cons b l =>
      simp only [Join, List.mem_append, List.mem_cons]
      rcases List.mem_cons.mp ht with ht | ht
      · subst ht; exact Or.inl hc
      · exact Or.inr (Or.inr (ih ht))

theorem poolText_not_blank (es : List Entry) (hne : es ≠ []) (hw : ∀ e ∈ es, e.wellFormed) :
    ¬ (poolText es = [] ∨ TrimSpace (poolText es) = []) := by
  cases es with
  | nil => exact absurd rfl hne
  | cons e es =>
    obtain ⟨c, hc, hs⟩ := Entry.text_not_blank e (hw e (List.mem_cons_self _ _))
    have hm : c ∈ poolText (e :: es) :=
      mem_Join ',' _ e.text c (by simp) hc
    intro h
    rcases h with h | h
    · rw [h] at hm; simp at hm
    · have := TrimSpace_eq_nil _ h c hm
      rw [hs] at this
      cases this

/-- C8. For a pool text of well-formed tokens, separated by commas and possibly padded with
white space, the token loop of `Concat` appends exactly the ranges of the tokens whose start
address lies in the subnet, in text order, and drops the others without an error; `Concat`
returns the sorted and merged set of the receiver and those ranges. -/
theorem Concat_keeps_in_subnet (subnet : IPNet) (rs : RangeSet) (es : List Entry)
    (hne : es ≠ []) (hw : ∀ e ∈ es, e.wellFormed) :
    concatTokens subnet rs (Split ',' (poolText es)) = .ok (rs ++ kept subnet es) ∧
    Concat rs (poolText es) subnet = sortMerge (rs ++ kept subnet es) := by
  have hsplit : Split ',' (poolText es) = es.map Entry.text := by
    unfold poolText
    apply Split_Join
    · simpa using hne
    · intro t ht
      obtain ⟨e, he, rfl⟩ := List.mem_map.mp ht
      exact Entry.text_no_comma e (hw e he)
  have hloop := concatTokens_entries subnet es rs hw
  refine ⟨by rw [hsplit]; exact hloop, ?_⟩
  unfold Concat
  rw [if_neg (poolText_not_blank es hne hw), hsplit, hloop]

/-- C8, witness: "10.0.1.3,10.0.2.3" relative to 10.0.1.0/24 leaves only 10.0.1.3. -/
theorem Concat_keeps_in_subnet_witness :
    poolText [⟨[], .single "10.0.1.3".toList, []⟩, ⟨[], .single "10.0.2.3".toList, []⟩]
      = "10.0.1.3,10.0.2.3".toList ∧
    Concat [] "10.0.1.3,10.0.2.3".toList net24 =
      .ok [{ RangeStart := .v4 0x0a000103, RangeEnd := .v4 0x0a000103, Subnet := net24,
             Gateway := .nil }] ∧
    Concat [] (poolText [⟨[], .single "10.0.1.3".toList, []⟩,
        ⟨[], .single "10.0.2.3".toList, []⟩]) net24 =
      sortMerge ([] ++ kept net24 [⟨[], .single "10.0.1.3".toList, []⟩,
        ⟨[], .single "10.0.2.3".toList, []⟩]) :=
  ⟨by decide, by decide,
    (Concat_keeps_in_subnet net24 []
      [⟨[], .single "10.0.1.3".toList, []⟩, ⟨[], .single "10.0.2.3".toList, []⟩]
      (by decide) (by decide)).2⟩

/-- C9. `Concat` called with an empty or all-white-space text returns the receiver
unchanged, with no error. -/
theorem Concat_blank (rs : RangeSet) (s : List Char) (subnet : IPNet)
    (h : ∀ c ∈ s, isSpace c = true) : Concat rs s subnet = .ok rs := by
  unfold Concat
  rw [if_pos (Or.inr (TrimSpace_blank s h))]

/-- C9, witness: a text of a blank, a tab and a line feed leaves a one-range set as it is. -/
theorem Concat_blank_witness :
    Concat [{ RangeStart := .v4 0x0a000103, RangeEnd := .v4 0x0a000103, Subnet := net24,
              Gateway := .nil }] [' ', '\t', '\n'] net24 =
      .ok [{ RangeStart := .v4 0x0a000103, RangeEnd := .v4 0x0a000103, Subnet := net24,
             Gateway := .nil }] :=
  Concat_blank _ [' ', '\t', '\n'] net24 (by decide)

/-- C6, the failing input: the span "10.0.1.[x-5]" has a malformed start, yet `Concat`
drops it and returns the (empty) receiver with no error. -/
theorem Concat_malformed_span_dropped :
    Concat [] "10.0.1.[x-5]".toList net24 = .ok [] := by decide

theorem concatToken_adds (subnet : IPNet) (rs rs1 : RangeSet) (r0 : List Char)
    (h : concatToken subnet rs r0 = .ok rs1) :
    ∃ added, rs1 = rs ++ added ∧ ∀ r ∈ added, Added subnet r := by
  unfold concatToken at h
  simp only at h
  split_ifs at h with hs
  · split at h
    · cases h
    · split_ifs at h with hc
      · cases h; exact ⟨[], by simp, by simp⟩
      · split at h
        · cases h
        · split_ifs at h with hn
          cases h
          refine ⟨[_], rfl, ?_⟩
          intro r hr
          rw [List.mem_singleton] at hr
          subst hr
          refine ⟨by simpa using hc, ?_, rfl, rfl⟩
          intro he
          exact hn (Or.inr he)
  · cases h; exact ⟨[], by simp, by simp⟩
  · cases h
    refine ⟨[_], rfl, ?_⟩
    intro r hr
    rw [List.mem_singleton] at hr
    subst hr
    rename_i hn hc
    exact ⟨by simpa using hc, hn, rfl, rfl⟩

theorem concatTokens_adds (subnet : IPNet) (toks : List (List Char)) :
    ∀ (rs rs1 : RangeSet), concatTokens subnet rs toks = .ok rs1 →
      ∃ added, rs1 = rs ++ added ∧ ∀ r ∈ added, Added subnet r := by
  induction toks with
  | nil =>
    intro rs rs1 h
    simp [concatTokens] at h
    exact ⟨[], by simp [h], by simp⟩
  | cons t toks ih =>
    intro rs rs1 h
    unfold concatTokens at h
    split at h
    · cases h
    · rename_i rs2 h2
      obtain ⟨a1, e1, p1⟩ := concatToken_adds subnet rs rs2 t h2
      obtain ⟨a2, e2, p2⟩ := ih rs2 rs1 h
      refine ⟨a1 ++ a2, by rw [e2, e1, List.append_assoc], ?_⟩
      intro r hr
      rcases List.mem_append.mp hr with hr | hr
      · exact p1 r hr
      · exact p2 r hr

/-- C7, counterexample: the span "10.0.1.[5-2]" is added to the set although its start is
after its end, and in 10.0.1.0/25 the span "10.0.1.[2-200]" is added although its end lies
outside the subnet. -/
theorem Concat_adds_invalid_range :
    (concatTokens net24 [] (Split ',' "10.0.1.[5-2]".toList) =
        .ok [{ RangeStart := .v4 0x0a000105, RangeEnd := .v4 0x0a000102, Subnet := net24,
               Gateway := .nil }] ∧
      Concat [] "10.0.1.[5-2]".toList net24 =
        .ok [{ RangeStart := .v4 0x0a000105, RangeEnd := .v4 0x0a000102, Subnet := net24,
               Gateway := .nil }] ∧
      ¬ RangeInvariant net24 { RangeStart := .v4 0x0a000105, RangeEnd := .v4 0x0a000102,
                               Subnet := net24, Gateway := .nil }) ∧
    (concatTokens net25 [] (Split ',' "10.0.1.[2-200]".toList) =
        .ok [{ RangeStart := .v4 0x0a000102, RangeEnd := .v4 0x0a0001c8, Subnet := net25,
               Gateway := .nil }] ∧
      Concat [] "10.0.1.[2-200]".toList net25 =
        .ok [{ RangeStart := .v4 0x0a000102, RangeEnd := .v4 0x0a0001c8, Subnet := net25,
               Gateway := .nil }] ∧
      net25.Contains (.v4 0x0a0001c8) = false) := by
  decide

/-- C7, amended. Every range that `Concat` adds to the set has its start address within the
subnet passed to `Concat`, an end that is an address (not nil), that subnet as its subnet
and a nil gateway; `Concat` then sorts and merges the receiver and the added ranges. -/
theorem Concat_adds_start_in_subnet (subnet : IPNet) (rs out : RangeSet) (s : List Char)
    (hnb : ¬ (s = [] ∨ TrimSpace s = [])) (h : Concat rs s subnet = .ok out) :
    ∃ added, concatTokens subnet rs (Split ',' s) = .ok (rs ++ added) ∧
      sortMerge (rs ++ added) = .ok out ∧
      ∀ r ∈ added, subnet.Contains r.RangeStart = true ∧ r.RangeEnd ≠ .nil ∧
        r.Subnet = subnet ∧ r.Gateway = .nil := by
  unfold Concat at h
  rw [if_neg hnb] at h
  cases hp : concatTokens subnet rs (Split ',' s) with
  | error e => rw [hp] at h; cases h
  | ok rs1 =>
    rw [hp] at h
    obtain ⟨added, e, p⟩ := concatTokens_adds subnet _ rs rs1 hp
    subst e
    exact ⟨added, rfl, h, p⟩

/-- C7, witness of the amended claim: "10.0.1.[5-2]" in 10.0.1.0/24. -/
theorem Concat_adds_start_in_subnet_witness :
    ∃ added, concatTokens net24 [] (Split ',' "10.0.1.[5-2]".toList) = .ok ([] ++ added) ∧
      sortMerge ([] ++ added) =
        .ok [{ RangeStart := .v4 0x0a000105, RangeEnd := .v4 0x0a000102, Subnet := net24,
               Gateway := .nil }] ∧
      ∀ r ∈ added, net24.Contains r.RangeStart = true ∧ r.RangeEnd ≠ .nil ∧
        r.Subnet = net24 ∧ r.Gateway = .nil :=
  Concat_adds_start_in_subnet net24 [] _ "10.0.1.[5-2]".toList (by decide) (by decide)

theorem covered_cons (a : Range) (l : RangeSet) (x : Nat) :
    covered (a :: l) x ↔ a.covers x ∨ covered l x := by
  unfold covered; simp

theorem covered_append (l m : RangeSet) (x : Nat) :
    covered (l ++ m) x ↔ covered l x ∨ covered m x := by
  unfold covered
  constructor
  · rintro ⟨r, hr, hx⟩
    rcases List.mem_append.mp hr with h | h
    · exact Or.inl ⟨r, h, hx⟩
    · exact Or.inr ⟨r, h, hx⟩
  · rintro (⟨r, hr, hx⟩ | ⟨r, hr, hx⟩)
    · exact ⟨r, List.mem_append_left _ hr, hx⟩
    · exact ⟨r, List.mem_append_right _ hr, hx⟩

theorem covered_perm (l m : RangeSet) (h : l.Perm m) (x : Nat) : covered l x ↔ covered m x := by
  unfold covered
  constructor
  · rintro ⟨r, hr, hx⟩; exact ⟨r, h.mem_iff.mp hr, hx⟩
  · rintro ⟨r, hr, hx⟩; exact ⟨r, h.mem_iff.mpr hr, hx⟩

theorem absorb_covers (c r : Range) (hs : startLE c r) (hg : ¬ isGap c r)
    (x : Nat) : (absorb c r).covers x ↔ c.covers x ∨ r.covers x := by
  have hg' := not_isGap c r hg
  unfold Range.covers startLE at *
  rw [absorb_start, absorb_end]
  omega

theorem coalesce_covered (rest : List Range) :
    ∀ c, (∀ r ∈ rest, startLE c r) → rest.Pairwise startLE →
      ∀ x, covered (coalesce c rest) x ↔ covered (c :: rest) x := by
  induction rest with
  | nil => intro c _ _ x; simp [coalesce]
  | cons r rest ih =>
    intro c hle hp x
    rw [List.pairwise_cons] at hp
    have hcr : startLE c r := hle r (List.mem_cons_self _ _)
    unfold coalesce
    split_ifs with hg
    · rw [covered_cons, covered_cons, ih r hp.1 hp.2 x, covered_cons]
    · have hle' : ∀ y ∈ rest, startLE (absorb c r) y := by
        intro y hy
        unfold startLE; rw [absorb_start]
        exact hle y (List.mem_cons_of_mem _ hy)
      rw [ih (absorb c r) hle' hp.2 x, covered_cons, covered_cons, covered_cons,
        absorb_covers c r hcr hg x, or_assoc]

theorem canon_covered (l : RangeSet) (x : Nat) : covered (canon l) x ↔ covered l x := by
  rw [← covered_perm _ _ (sortRanges_perm l) x]
  unfold canon
  split
  · rename_i h; rw [h]
  · rename_i c rest h
    have hs := sortRanges_sorted l
    rw [h, List.pairwise_cons] at hs
    rw [h]
    exact coalesce_covered rest c (fun r hr => keyLE_startLE _ _ (hs.1 r hr))
      (hs.2.imp (fun {a b} hab => keyLE_startLE a b hab)) x

theorem concatToken_append (subnet : IPNet) (rs : RangeSet) (t : List Char) :
    concatToken subnet rs t =
      match concatToken subnet [] t with
      | .error e => .error e
      | .ok a => .ok (rs ++ a) := by
  unfold concatToken
  simp only
  split_ifs
  · split
    · rfl
    · split_ifs
      · simp
      · split
        · rfl
        · split_ifs
          · rfl
          · simp
  · rfl
  · simp
  · simp

theorem concatTokens_append (subnet : IPNet) (toks : List (List Char)) :
    ∀ (rs : RangeSet), concatTokens subnet rs toks =
      match concatTokens subnet [] toks with
      | .error e => .error e
      | .ok a => .ok (rs ++ a) := by
  induction toks with
  | nil => intro rs; simp [concatTokens]
  | cons t toks ih =>
    intro rs
    unfold concatTokens
    rw [concatToken_append subnet rs t]
    cases h1 : concatToken subnet [] t with
    | error e => rfl
    | ok a1 =>
      simp only
      rw [ih (rs ++ a1), ih a1]
      cases h2 : concatTokens subnet [] toks with
      | error e => rfl
      | ok a2 => simp

/-! ### Merging a merged set again -/

theorem coalesce_gap (c r : Range) (rest : List Range) (h : isGap c r) :
    coalesce c (r :: rest) = c :: coalesce r rest := by
  rw [coalesce, if_pos h]

theorem coalesce_merge (c r : Range) (rest : List Range) (h : ¬ isGap c r) :
    coalesce c (r :: rest) = coalesce (absorb c r) rest := by
  rw [coalesce, if_neg h]

theorem absorb_self (c : Range) : absorb c c = c := by
  unfold absorb
  rw [if_neg]
  rw [Cmp_pos_iff]
  omega

theorem absorb_eq_of_le (c r : Range) (h : ipToInt r.RangeEnd ≤ ipToInt c.RangeEnd) :
    absorb c r = c := by
  unfold absorb
  rw [if_neg]
  rw [Cmp_pos_iff]
  omega

theorem not_isGap_of_le (c r : Range) (h : ipToInt r.RangeStart ≤ ipToInt c.RangeEnd) :
    ¬ isGap c r := by
  rw [isGap_iff]
  omega

theorem absorb_end_cases (c r : Range) :
    (absorb c r).RangeEnd = c.RangeEnd ∨ ipToInt c.RangeEnd < ipToInt (absorb c r).RangeEnd := by
  unfold absorb
  split_ifs with h
  · right; rw [Cmp_pos_iff] at h; exact h
  · left; rfl

theorem coalesce_head_end (rest : List Range) :
    ∀ c h tl, coalesce c rest = h :: tl →
      h.RangeStart = c.RangeStart ∧ h.Subnet = c.Subnet ∧ h.Gateway = c.Gateway ∧
      (h.RangeEnd = c.RangeEnd ∨ ipToInt c.RangeEnd < ipToInt h.RangeEnd) := by
  induction rest with
  | nil =>
    intro c h tl e
    simp only [coalesce, List.cons.injEq] at e
    rw [← e.1]
    exact ⟨rfl, rfl, rfl, Or.inl rfl⟩
  | cons r rest ih =>
    intro c h tl e
    unfold coalesce at e
    split_ifs at e with hg
    · simp only [List.cons.injEq] at e
      rw [← e.1]
      exact ⟨rfl, rfl, rfl, Or.inl rfl⟩
    · obtain ⟨h1, h2, h3, h4⟩ := ih _ _ _ e
      rw [absorb_start] at h1
      rw [absorb_subnet] at h2
      rw [absorb_gateway] at h3
      refine ⟨h1, h2, h3, ?_⟩
      rcases absorb_end_cases c r with a | a
      · rw [a] at h4; exact h4
      · rcases h4 with h4 | h4
        · right; rw [h4]; exact a
        · right; omega

theorem coalesce_head_ge (rest : List Range) (c h : Range) (tl : List Range)
    (e : coalesce c rest = h :: tl) : ipToInt c.RangeEnd ≤ ipToInt h.RangeEnd := by
  rcases (coalesce_head_end rest c h tl e).2.2.2 with a | a
  · rw [a]
  · omega

theorem Range.ext_fields (a b : Range) (h1 : a.RangeStart = b.RangeStart)
    (h2 : a.RangeEnd = b.RangeEnd) (h3 : a.Subnet = b.Subnet) (h4 : a.Gateway = b.Gateway) :
    a = b := by
  cases a; cases b
  simp only at h1 h2 h3 h4
  subst h1 h2 h3 h4
  rfl

theorem coalesce_tail_gt (rest : List Range) :
    ∀ c h tl, (∀ r ∈ rest, r.wf) → coalesce c rest = h :: tl →
      ∀ x ∈ tl, ipToInt c.RangeEnd < ipToInt x.RangeStart := by
  induction rest with
  | nil =>
    intro c h tl _ e x hx
    simp only [coalesce, List.cons.injEq] at e
    rw [← e.2] at hx
    cases hx
  | cons r rest ih =>
    intro c h tl hw e x hx
    have hr : r.wf := hw r (List.mem_cons_self _ _)
    have hrest : ∀ y ∈ rest, y.wf := fun y hy => hw y (List.mem_cons_of_mem _ hy)
    unfold coalesce at e
    split_ifs at e with hg
    · simp only [List.cons.injEq] at e
      obtain ⟨h1, tl1, e1, hs1, _⟩ := coalesce_head rest r
      rw [isGap_iff] at hg
      rw [← e.2, e1] at hx
      rcases List.mem_cons.mp hx with hx | hx
      · rw [hx, hs1]; exact hg.1
      · have := ih r h1 tl1 hrest e1 x hx
        unfold Range.wf at hr
        omega
    · have := ih (absorb c r) h tl hrest e x hx
      rw [absorb_end] at this
      omega

theorem coalesce_same_cursor (rest : List Range) :
    ∀ c x tl, (∀ r ∈ rest, r.wf) → coalesce c rest = x :: tl → coalesce x rest = x :: tl := by
  induction rest with
  | nil =>
    intro c x tl _ e
    simp only [coalesce, List.cons.injEq] at e
    rw [← e.2]
    rfl
  | cons r rest ih =>
    intro c x tl hw e
    have hr : r.wf := hw r (List.mem_cons_self _ _)
    have hrest : ∀ y ∈ rest, y.wf := fun y hy => hw y (List.mem_cons_of_mem _ hy)
    by_cases hg : isGap c r
    · have e0 := e
      rw [coalesce_gap c r rest hg] at e
      simp only [List.cons.injEq] at e
      rw [← e.1]
      rw [← e.1] at e0
      exact e0
    · rw [coalesce_merge c r rest hg] at e
      have hge := coalesce_head_ge rest _ x tl e
      rw [absorb_end] at hge
      unfold Range.wf at hr
      rw [coalesce_merge x r rest (not_isGap_of_le x r (by omega)),
        absorb_eq_of_le x r (by omega)]
      exact ih _ x tl hrest e

theorem absorb_keyLE (c r y : Range) (h1 : keyLE c r) (h2 : keyLE r y) (h3 : keyLE c y) :
    keyLE (absorb c r) y := by
  unfold keyLE at *
  rw [absorb_start, absorb_end]
  omega

theorem absorb_wf (c r : Range) (hc : c.wf) : (absorb c r).wf := by
  unfold Range.wf at *
  rw [absorb_start, absorb_end]
  omega

theorem isGap_congr_start (c x r : Range) (h : x.RangeStart = r.RangeStart) :
    isGap c x ↔ isGap c r := by
  unfold isGap
  rw [h]

theorem coalesce_insert (L : List Range) (X : Range) :
    ∀ c, c.wf → (∀ y ∈ L, y.wf) → (∀ y ∈ L, keyLE c y) → L.Pairwise keyLE →
      X ∈ coalesce c L → coalesce c (insertRange X L) = coalesce c L := by
  induction L with
  | nil =>
    intro c hc _ _ _ hX
    simp only [coalesce, List.mem_singleton] at hX
    subst hX
    unfold Range.wf at hc
    simp only [insertRange]
    rw [coalesce_merge X X [] (not_isGap_of_le X X hc), absorb_self]
  | cons r L ih =>
    intro c hc hw hk hp hX
    have hr : r.wf := hw r (List.mem_cons_self _ _)
    have hrest : ∀ y ∈ L, y.wf := fun y hy => hw y (List.mem_cons_of_mem _ hy)
    have hcr : keyLE c r := hk r (List.mem_cons_self _ _)
    rw [List.pairwise_cons] at hp
    have hc' := hc
    have hr' := hr
    unfold Range.wf at hc' hr'
    unfold insertRange
    by_cases hl : Less r X = true
    · rw [if_pos hl]
      by_cases hg : isGap c r
      · rw [coalesce_gap c r _ hg] at hX ⊢
        rw [coalesce_gap c r _ hg]
        rcases List.mem_cons.mp hX with hX | hX
        · subst hX
          rw [Less_iff] at hl
          unfold keyLE at hcr
          omega
        · rw [ih r hr hrest hp.1 hp.2 hX]
      · rw [coalesce_merge c r _ hg] at hX ⊢
        rw [coalesce_merge c r _ hg]
        exact ih (absorb c r) (absorb_wf c r hc) hrest
          (fun y hy => absorb_keyLE c r y hcr (hp.1 y hy) (hk y (List.mem_cons_of_mem _ hy)))
          hp.2 hX
    · rw [if_neg hl]
      rw [Less_iff] at hl
      by_cases hg : isGap c r
      · rw [coalesce_gap c r _ hg] at hX
        rcases List.mem_cons.mp hX with hX | hX
        · subst hX
          rw [coalesce_merge X X _ (not_isGap_of_le X X hc'), absorb_self]
        · obtain ⟨h1, tl1, e1, _⟩ := coalesce_head L r
          obtain ⟨hs, hsub, hgw, hend⟩ := coalesce_head_end L r h1 tl1 e1
          rw [e1] at hX
          have hXr : X = r := by
            rcases List.mem_cons.mp hX with hX | hX
            · subst hX
              rcases hend with hend | hend
              · exact Range.ext_fields _ _ hs hend hsub hgw
              · rw [hs] at hl; omega
            · have := coalesce_tail_gt L r h1 tl1 hrest e1 X hX
              omega
          subst hXr
          rw [coalesce_gap c X _ hg, coalesce_merge X X _ (not_isGap_of_le X X hr'),
            absorb_self, coalesce_gap c X _ hg]
      · rw [coalesce_merge c r _ hg] at hX
        obtain ⟨h1, tl1, e1, _⟩ := coalesce_head L (absorb c r)
        obtain ⟨hs, hsub, hgw, hend⟩ := coalesce_head_end L _ h1 tl1 e1
        have hge := coalesce_head_ge L _ h1 tl1 e1
        rw [absorb_start] at hs
        rw [absorb_subnet] at hsub
        rw [absorb_gateway] at hgw
        rw [absorb_end] at hge
        rw [e1] at hX
        have hXh : X = h1 := by
          rcases List.mem_cons.mp hX with hX | hX
          · exact hX
          · have := coalesce_tail_gt L _ h1 tl1 hrest e1 X hX
            rw [absorb_end] at this
            omega
        subst hXh
        have hcX : absorb c X = X := by
          by_cases hgt : ipToInt c.RangeEnd < ipToInt X.RangeEnd
          · unfold absorb
            rw [if_pos ((Cmp_pos_iff _ _).mpr hgt)]
            exact Range.ext_fields _ _ hs.symm rfl hsub.symm hgw.symm
          · rcases hend with hend | hend
            · have hXc : X = c := by
                refine Range.ext_fields _ _ hs ?_ hsub hgw
                rcases absorb_end_cases c r with a | a
                · rw [hend, a]
                · rw [hend] at hgt
                  omega
              rw [hXc, absorb_self]
            · rw [absorb_end] at hend
              omega
        rw [coalesce_merge c X _ (not_isGap_of_le c X (by rw [hs]; exact hc')), hcX,
          coalesce_merge X r _ (not_isGap_of_le X r (by omega)),
          absorb_eq_of_le X r (by omega), coalesce_merge c r _ hg, e1]
        exact coalesce_same_cursor L _ X tl1 hrest e1

theorem canon_insert (l : RangeSet) (X : Range) (hs : l.Pairwise keyLE) (hw : ∀ y ∈ l, y.wf)
    (hX : X ∈ coalesceAll l) : coalesceAll (insertRange X l) = coalesceAll l := by
  cases l with
  | nil => simp [coalesceAll] at hX
  | cons c L =>
    simp only [coalesceAll] at hX
    rw [List.pairwise_cons] at hs
    have hc : c.wf := hw c (List.mem_cons_self _ _)
    have hrest : ∀ y ∈ L, y.wf := fun y hy => hw y (List.mem_cons_of_mem _ hy)
    have hc' := hc
    unfold Range.wf at hc'
    unfold insertRange
    by_cases hl : Less c X = true
    · rw [if_pos hl]
      simp only [coalesceAll]
      exact coalesce_insert L X c hc hrest hs.1 hs.2 hX
    · rw [if_neg hl]
      simp only [coalesceAll]
      rw [Less_iff] at hl
      obtain ⟨h1, tl1, e1, _⟩ := coalesce_head L c
      obtain ⟨hst, hsub, hgw, hend⟩ := coalesce_head_end L c h1 tl1 e1
      rw [e1] at hX
      have hXc : X = c := by
        rcases List.mem_cons.mp hX with hX | hX
        · subst hX
          rcases hend with hend | hend
          · exact Range.ext_fields _ _ hst hend hsub hgw
          · rw [hst] at hl; omega
        · have := coalesce_tail_gt L c h1 tl1 hrest e1 X hX
          omega
      subst hXc
      rw [coalesce_merge X X _ (not_isGap_of_le X X hc'), absorb_self]

theorem sortRanges_append (m p : RangeSet) :
    sortRanges (m ++ p) = m.foldr insertRange (sortRanges p) := by
  induction m with
  | nil => rfl
  | cons a m ih =>
    show insertRange a (sortRanges (m ++ p)) = insertRange a (m.foldr insertRange (sortRanges p))
    rw [ih]

theorem canon_eq (l : RangeSet) : canon l = coalesceAll (sortRanges l) := by
  unfold canon
  split <;> rename_i h <;> rw [h] <;> rfl

theorem canon_fold (p : RangeSet) (hw : ∀ r ∈ p, r.wf) (m : RangeSet)
    (hm : ∀ x ∈ m, x ∈ canon p) :
    coalesceAll (m.foldr insertRange (sortRanges p)) = canon p ∧
      (m.foldr insertRange (sortRanges p)).Pairwise keyLE ∧
      ∀ y ∈ m.foldr insertRange (sortRanges p), y.wf := by
  induction m with
  | nil =>
    refine ⟨(canon_eq p).symm, sortRanges_sorted p, ?_⟩
    intro y hy
    exact hw y ((sortRanges_perm p).mem_iff.mp hy)
  | cons a m ih =>
    obtain ⟨h1, h2, h3⟩ := ih (fun x hx => hm x (List.mem_cons_of_mem _ hx))
    have ha : a ∈ canon p := hm a (List.mem_cons_self _ _)
    simp only [List.foldr_cons]
    refine ⟨?_, insertRange_sorted a _ h2, ?_⟩
    · rw [canon_insert _ a h2 h3 (by rw [h1]; exact ha), h1]
    · intro y hy
      rcases List.mem_cons.mp ((insertRange_perm a _).mem_iff.mp hy) with e | e
      · rw [e]; exact canon_wf p hw a ha
      · exact h3 y e

theorem canon_idem (p : RangeSet) (hp : ∀ r ∈ p, r.wf) : canon (canon p ++ p) = canon p := by
  rw [canon_eq (canon p ++ p), sortRanges_append]
  exact (canon_fold p hp (canon p) (fun x hx => hx)).1

/-- C10. Parse-and-canonicalize is idempotent: when `Concat` succeeds from the empty set on
a text whose parsed ranges all have start <= end, applying `Concat` with the same text and
subnet to its result returns that result again, the same ranges in the same order. -/
theorem Concat_idempotent (subnet : IPNet) (s : List Char) (rs1 : RangeSet)
    (hle : ∀ parsed, concatTokens subnet [] (Split ',' s) = .ok parsed →
      ∀ r ∈ parsed, ipToInt r.RangeStart ≤ ipToInt r.RangeEnd)
    (h : Concat [] s subnet = .ok rs1) :
    Concat rs1 s subnet = .ok rs1 := by
  rw [Concat_eq] at h ⊢
  split_ifs at h ⊢ with hb
  · rfl
  · cases hp : concatTokens subnet [] (Split ',' s) with
    | error e => rw [hp] at h; cases h
    | ok parsed =>
      rw [hp] at h
      cases h
      rw [concatTokens_append, hp]
      simp only [Except.map]
      rw [canon_idem parsed (hle parsed hp)]

/-- C10, witness: "10.0.1.4,10.0.1.[2-5]" in 10.0.1.0/24, parsed twice. -/
theorem Concat_idempotent_witness :
    Concat [{ RangeStart := .v4 0x0a000102, RangeEnd := .v4 0x0a000105, Subnet := net24,
              Gateway := .nil }] "10.0.1.4,10.0.1.[2-5]".toList net24 =
      .ok [{ RangeStart := .v4 0x0a000102, RangeEnd := .v4 0x0a000105, Subnet := net24,
             Gateway := .nil }] :=
  Concat_idempotent net24 "10.0.1.4,10.0.1.[2-5]".toList _
    (by
      intro parsed hp
      have e : concatTokens net24 [] (Split ',' "10.0.1.4,10.0.1.[2-5]".toList) =
          .ok [{ RangeStart := .v4 0x0a000104, RangeEnd := .v4 0x0a000104,
                 Subnet := net24, Gateway := .nil },
               { RangeStart := .v4 0x0a000102, RangeEnd := .v4 0x0a000105,
                 Subnet := net24, Gateway := .nil }] := by decide
      rw [e] at hp
      cases hp
      decide)
    (by decide)

theorem ofBig_fullWidth (a : IP) (h : fullWidth a) : ofBig (ipToInt a) = a := by
  cases a with
  | nil => exact absurd h (by simp [fullWidth])
  | big m => exact absurd h (by simp [fullWidth])
  | v4 n =>
    simp only [fullWidth] at h
    simp only [ipToInt, ofBig]
    rw [if_pos h]
  | v6 n =>
    simp only [fullWidth] at h
    simp only [ipToInt, ofBig]
    have h1 : ¬ (2 ^ 24 ≤ n ∧ n < 2 ^ 32) := by
      have : (2 : Nat) ^ 32 ≤ 2 ^ 120 := by norm_num
      omega
    rw [if_neg h1, if_pos h]

theorem isGap_apart (a b : Range) (h : isGap a b) :
    ipToInt a.RangeEnd < ipToInt b.RangeStart ∧
      (fullWidth b.RangeStart → ipToInt a.RangeEnd + 1 < ipToInt b.RangeStart) := by
  rw [isGap_iff] at h
  refine ⟨h.1, ?_⟩
  intro hf
  by_contra hn
  have e : ipToInt b.RangeStart = ipToInt a.RangeEnd + 1 := by omega
  apply h.2
  unfold NextIP
  rw [← e, ofBig_fullWidth _ hf]

/-- C1, counterexample: "0.0.0.5,0.0.0.6" in 0.0.0.0/24. Both parsed ranges have start <=
end and `Concat` succeeds from the empty set, but the result keeps the ranges of 0.0.0.5 and
of 0.0.0.6 apart although the second starts at the successor of the end of the first: the
successor the code computes has one byte, and the gap test compares it with the four bytes
of 0.0.0.6. -/
theorem Concat_adjacent_low_addresses :
    concatTokens net0 [] (Split ',' "0.0.0.5,0.0.0.6".toList) = .ok [lowFive, lowSix] ∧
    lowFive.wf ∧ lowSix.wf ∧
    Concat [] "0.0.0.5,0.0.0.6".toList net0 = .ok [lowFive, lowSix] ∧
    ipToInt lowSix.RangeStart = ipToInt lowFive.RangeEnd + 1 ∧
    ¬ [lowFive, lowSix].Chain'
      (fun a b => ipToInt b.RangeStart > ipToInt a.RangeEnd + 1) := by
  refine ⟨by decide, by decide, by decide, by decide, by decide, ?_⟩
  simp [lowFive, lowSix, ipToInt]

/-- C1, amended. Whenever `Concat` succeeds from the empty set on a text whose parsed ranges
all have start <= end, the result is sorted by start, and of any two of its ranges the
later one starts after the end of the earlier one: no two ranges overlap. When the start of
the later one is an IPv4 address from 1.0.0.0 on (or an IPv6 address with a non-zero first
byte), it lies after the successor of that end, so the two are not adjacent either. -/
theorem Concat_sorted_gapped (subnet : IPNet) (s : List Char) (rs : RangeSet)
    (hle : ∀ parsed, concatTokens subnet [] (Split ',' s) = .ok parsed →
      ∀ r ∈ parsed, ipToInt r.RangeStart ≤ ipToInt r.RangeEnd)
    (h : Concat [] s subnet = .ok rs) :
    rs.Pairwise (fun a b => ipToInt a.RangeStart ≤ ipToInt b.RangeStart) ∧
    rs.Pairwise (fun a b => ipToInt a.RangeEnd < ipToInt b.RangeStart ∧
      (fullWidth b.RangeStart → ipToInt b.RangeStart > ipToInt a.RangeEnd + 1)) := by
  rw [Concat_eq] at h
  split_ifs at h with hb
  · cases h
    exact ⟨List.Pairwise.nil, List.Pairwise.nil⟩
  · cases hp : concatTokens subnet [] (Split ',' s) with
    | error e => rw [hp] at h; cases h
    | ok parsed =>
      rw [hp] at h
      cases h
      exact ⟨canon_startLE parsed,
        (canon_pairwise parsed (hle parsed hp)).imp (fun {a b} hab => isGap_apart a b hab)⟩

/-- C1, witness: "10.0.1.4,10.0.1.[2-5],10.0.1.9" in 10.0.1.0/24 yields the ranges
[10.0.1.2, 10.0.1.5] and [10.0.1.9, 10.0.1.9]; the single address 10.0.1.4 is merged into
the span. -/
theorem Concat_sorted_gapped_witness :
    Concat [] "10.0.1.4,10.0.1.[2-5],10.0.1.9".toList net24 =
      .ok [{ RangeStart := .v4 0x0a000102, RangeEnd := .v4 0x0a000105, Subnet := net24,
             Gateway := .nil },
           { RangeStart := .v4 0x0a000109, RangeEnd := .v4 0x0a000109, Subnet := net24,
             Gateway := .nil }] ∧
    [({ RangeStart := .v4 0x0a000102, RangeEnd := .v4 0x0a000105, Subnet := net24,
        Gateway := .nil } : Range),
     { RangeStart := .v4 0x0a000109, RangeEnd := .v4 0x0a000109, Subnet := net24,
       Gateway := .nil }].Pairwise
      (fun a b => ipToInt a.RangeEnd < ipToInt b.RangeStart ∧
        (fullWidth b.RangeStart → ipToInt b.RangeStart > ipToInt a.RangeEnd + 1)) :=
  ⟨by decide,
   (Concat_sorted_gapped net24 "10.0.1.4,10.0.1.[2-5],10.0.1.9".toList _
      (by
        intro parsed hp
        have e : concatTokens net24 [] (Split ',' "10.0.1.4,10.0.1.[2-5],10.0.1.9".toList) =
            .ok [{ RangeStart := .v4 0x0a000104, RangeEnd := .v4 0x0a000104,
                   Subnet := net24, Gateway := .nil },
                 { RangeStart := .v4 0x0a000102, RangeEnd := .v4 0x0a000105,
                   Subnet := net24, Gateway := .nil },
                 { RangeStart := .v4 0x0a000109, RangeEnd := .v4 0x0a000109,
                   Subnet := net24, Gateway := .nil }] := by decide
        rw [e] at hp
        cases hp
        decide)
      (by decide)).2⟩

theorem covered_tail_gt (a : Range) (t : RangeSet) (h : ∀ r ∈ t, gapBefore a r) (x : Nat)
    (hx : covered t x) : ipToInt a.RangeEnd + 1 < x := by
  obtain ⟨r, hr, h1, _⟩ := hx
  have := h r hr
  unfold gapBefore at this
  omega

/-! ### The loops of `Allocate` -/

theorem Equal_ofBig_ofBig (a b : Nat) : Equal (ofBig a) (ofBig b) = true ↔ a = b := by
  constructor
  · intro h
    unfold ofBig at h
    split_ifs at h <;> simp_all [Equal]
  · intro h
    subst h
    unfold ofBig
    split_ifs <;> simp [Equal]

theorem Equal_ofBig_left (v : Nat) (g : IP) (hv : ipToInt (ofBig v) = v) (h0 : 0 < v) :
    Equal (ofBig v) g = true ↔ g = ofBig v := by
  unfold ofBig at hv ⊢
  split_ifs at hv ⊢
  · cases g <;> simp [Equal]
    exact eq_comm
  · cases g <;> simp [Equal]
    exact eq_comm
  · simp only [ipToInt] at hv
    omega

theorem NextIP_ofBig (v : Nat) (hv : ipToInt (ofBig v) = v) : NextIP (ofBig v) = ofBig (v + 1) := by
  unfold NextIP
  rw [hv]

theorem Range.walkable_spec (r : Range) (h : r.walkable) :
    r.RangeStart = ofBig (ipToInt r.RangeStart) ∧ r.RangeEnd = ofBig (ipToInt r.RangeEnd) ∧
      0 < ipToInt r.RangeStart ∧ ipToInt r.RangeStart ≤ ipToInt r.RangeEnd ∧
      ∀ n, ipToInt r.RangeStart ≤ n → n ≤ ipToInt r.RangeEnd → ipToInt (ofBig n) = n := by
  obtain ⟨rs, re, rn, rg⟩ := r
  unfold Range.walkable at h
  simp only at h ⊢
  cases rs <;> cases re <;> simp only at h
  · rename_i s e
    simp only [ipToInt]
    have hs : ofBig s = .v4 s := ofBig_v4 s (by omega) (by omega)
    have he : ofBig e = .v4 e := ofBig_v4 e (by omega) (by omega)
    refine ⟨hs.symm, he.symm, ?_, h.2.1, ?_⟩
    · have : 0 < 2 ^ 24 := by norm_num
      omega
    · intro n h1 h2
      rw [ofBig_v4 n (by omega) (by omega)]
  · rename_i s e
    simp only [ipToInt]
    have h32 : (2 : Nat) ^ 32 ≤ 2 ^ 120 := by norm_num
    have hv6 : ∀ n, s ≤ n → n ≤ e → ofBig n = .v6 n := by
      intro n h1 h2
      unfold ofBig
      rw [if_neg (by omega), if_pos ⟨by omega, by omega⟩]
    refine ⟨(hv6 s (le_refl _) h.2.1).symm, (hv6 e h.2.1 (le_refl _)).symm, ?_, h.2.1, ?_⟩
    · have : 0 < 2 ^ 120 := by norm_num
      omega
    · intro n h1 h2
      rw [hv6 n h1 h2]

theorem usedScan_spec (n : Nat) : ∀ (fuel s e v : Nat) (avail : Bool),
    s + n = e + 1 → n < fuel → (∀ m, s ≤ m → m ≤ e → ipToInt (ofBig m) = m) →
    usedScan fuel (ofBig v) (ofBig s) (ofBig (e + 1)) avail =
      some (if s ≤ v ∧ v ≤ e then false else avail) := by
  induction n with
  | zero =>
    intro fuel s e v avail hs hf _
    cases fuel with
    | zero => omega
    | succ f =>
      have : s = e + 1 := by omega
      subst this
      unfold usedScan
      rw [if_pos ((Equal_ofBig_ofBig _ _).mpr rfl), if_neg (by omega)]
  | succ n ih =>
    intro fuel s e v avail hs hf hg
    cases fuel with
    | zero => omega
    | succ f =>
      unfold usedScan
      have hne : s ≠ e + 1 := by omega
      rw [if_neg (by rw [Equal_ofBig_ofBig]; exact hne)]
      by_cases hv : v = s
      · subst hv
        rw [if_pos ((Equal_ofBig_ofBig _ _).mpr rfl), if_pos (by omega)]
      · rw [if_neg (by rw [Equal_ofBig_ofBig]; exact hv),
          NextIP_ofBig s (hg s (le_refl _) (by omega)),
          ih f (s + 1) e v avail (by omega) (by omega) (fun m h1 h2 => hg m (by omega) h2)]
        congr 1
        by_cases h1 : s ≤ v ∧ v ≤ e
        · rw [if_pos h1, if_pos]; omega
        · rw [if_neg h1, if_neg]; omega

theorem usedScan_range (fuel v : Nat) (u : Range) (avail : Bool) (hu : u.walkable)
    (hf : u.size < fuel) :
    usedScan fuel (ofBig v) u.RangeStart (NextIP u.RangeEnd) avail =
      some (if u.covers v then false else avail) := by
  obtain ⟨h1, h2, h3, h4, h5⟩ := u.walkable_spec hu
  unfold Range.size at hf
  have := usedScan_spec (ipToInt u.RangeEnd + 1 - ipToInt u.RangeStart) fuel
    (ipToInt u.RangeStart) (ipToInt u.RangeEnd) v avail (by omega) (by omega) h5
  unfold NextIP Range.covers
  rw [← h1] at this
  exact this

theorem availLoop_spec (fuel v : Nat) (used : RangeSet) :
    ∀ (avail : Bool), (∀ u ∈ used, u.walkable ∧ u.size < fuel) →
      ∃ b, availLoop fuel (ofBig v) used avail = some b ∧
        (b = true ↔ avail = true ∧ ¬ covered used v) := by
  induction used with
  | nil =>
    intro avail _
    exact ⟨avail, rfl, by simp [covered]⟩
  | cons u rest ih =>
    intro avail h
    have hu := h u (List.mem_cons_self _ _)
    unfold availLoop
    rw [usedScan_range fuel v u avail hu.1 hu.2]
    simp only
    obtain ⟨b, hb, hiff⟩ := ih (if u.covers v then false else avail)
      (fun x hx => h x (List.mem_cons_of_mem _ hx))
    refine ⟨b, hb, ?_⟩
    rw [hiff, covered_cons]
    by_cases hc : u.covers v
    · simp [hc]
    · simp [hc]

theorem candidateLoop_none {σ : Type} (S : Store σ) (a : Allocator) (id : List Char)
    (used : RangeSet) (k n : Nat) : ∀ (fuel s e : Nat) (st : σ),
    s + n = e + 1 → n + k < fuel → 0 < s → (∀ m, s ≤ m → m ≤ e → ipToInt (ofBig m) = m) →
    (∀ u ∈ used, u.walkable ∧ u.size ≤ k) →
    (∀ v, s ≤ v → v ≤ e → ¬ freeAddr a used v) →
    candidateLoop S a id used fuel (ofBig s) (ofBig (e + 1)) none st =
      some (none, none, st) := by
  induction n with
  | zero =>
    intro fuel s e st hs hf _ _ _ _
    have : s = e + 1 := by omega
    subst this
    cases fuel with
    | zero => omega
    | succ f =>
      unfold candidateLoop
      rw [if_pos ((Equal_ofBig_ofBig _ _).mpr rfl)]
  | succ n ih =>
    intro fuel s e st hs hf h0 hg hu hfree
    have hne : s ≠ e + 1 := by omega
    cases fuel with
    | zero => omega
    | succ f =>
      unfold candidateLoop
      rw [if_neg (by rw [Equal_ofBig_ofBig]; exact hne)]
      obtain ⟨b, hb, hiff⟩ := availLoop_spec f s used true
        (fun u hu' => ⟨(hu u hu').1, by have := (hu u hu').2; omega⟩)
      rw [hb]
      have hrec := ih f (s + 1) e st (by omega) (by omega) (by omega)
        (fun m h1 h2 => hg m (by omega) h2) hu (fun v h1 h2 => hfree v (by omega) h2)
      have hgs := hg s (le_refl _) (by omega)
      simp only [NextIP_ofBig s hgs, ne_eq, not_true_eq_false, if_false]
      by_cases hbt : b = true
      · have hnc : ¬ covered used s := (hiff.mp hbt).2
        have hgw : a.gateway = ofBig s := by
          by_contra hgw
          exact hfree s (le_refl _) (by omega) ⟨hnc, hgw⟩
        rw [if_pos hbt, if_pos ((Equal_ofBig_left s _ hgs h0).mpr hgw)]
        exact hrec
      · rw [if_neg hbt]
        exact hrec

theorem candidateLoop_some {σ : Type} (S : Store σ) (a : Allocator) (id : List Char)
    (used : RangeSet) (k n : Nat) : ∀ (fuel s e x : Nat) (st : σ),
    s + n = e + 1 → n + k < fuel → 0 < s → (∀ m, s ≤ m → m ≤ e → ipToInt (ofBig m) = m) →
    (∀ u ∈ used, u.walkable ∧ u.size ≤ k) →
    s ≤ x → x ≤ e → freeAddr a used x → (∀ v, s ≤ v → v < x → ¬ freeAddr a used v) →
    (S.Reserve id (ofBig x) a.pod a.namespace_ (controllerName a) st).1.2 = none →
    candidateLoop S a id used fuel (ofBig s) (ofBig (e + 1)) none st =
      some (some (ipConfig a x), none,
        (S.Reserve id (ofBig x) a.pod a.namespace_ (controllerName a) st).2) := by
  induction n with
  | zero => intro fuel s e x st hs _ _ _ _ h1 h2; omega
  | succ n ih =>
    intro fuel s e x st hs hf h0 hg hu hsx hxe hfx hmin hres
    have hne : s ≠ e + 1 := by omega
    cases fuel with
    | zero => omega
    | succ f =>
      unfold candidateLoop
      rw [if_neg (by rw [Equal_ofBig_ofBig]; exact hne)]
      obtain ⟨b, hb, hiff⟩ := availLoop_spec f s used true
        (fun u hu' => ⟨(hu u hu').1, by have := (hu u hu').2; omega⟩)
      rw [hb]
      have hgs := hg s (le_refl _) (by omega)
      simp only [NextIP_ofBig s hgs, ne_eq, not_true_eq_false, if_false]
      by_cases hxs : x = s
      · subst hxs
        have hbt : b = true := hiff.mpr ⟨rfl, hfx.1⟩
        have hgw : ¬ (Equal (ofBig x) a.gateway = true) := by
          rw [Equal_ofBig_left x _ hgs h0]
          exact hfx.2
        rw [if_pos hbt, if_neg hgw, hres]
        simp [ipConfig]
      · have hrec := ih f (s + 1) e x st (by omega) (by omega) (by omega)
          (fun m h1 h2 => hg m (by omega) h2) hu (by omega) hxe hfx
          (fun v h1 h2 => hmin v (by omega) h2) hres
        have hnf : ¬ freeAddr a used s := hmin s (le_refl _) (by omega)
        by_cases hbt : b = true
        · have hnc : ¬ covered used s := (hiff.mp hbt).2
          have hgw : a.gateway = ofBig s := by
            by_contra hgw
            exact hnf ⟨hnc, hgw⟩
          rw [if_pos hbt, if_pos ((Equal_ofBig_left s _ hgs h0).mpr hgw)]
          exact hrec
        · rw [if_neg hbt]
          exact hrec

theorem size_le_maxSize (l : RangeSet) : ∀ r ∈ l, r.size ≤ maxSize l := by
  induction l with
  | nil => intro r hr; simp at hr
  | cons a l ih =>
    intro r hr
    unfold maxSize
    rcases List.mem_cons.mp hr with h | h
    · subst h; exact le_max_left _ _
    · exact le_trans (ih r h) (le_max_right _ _)

theorem poolLoop_first_fit {σ : Type} (S : Store σ) (a : Allocator) (id : List Char)
    (used : RangeSet) (k fuel x : Nat) (st : σ) (pool : RangeSet) :
    pool.Pairwise gapBefore → (∀ r ∈ pool, r.walkable ∧ r.size + k < fuel) →
    (∀ u ∈ used, u.walkable ∧ u.size ≤ k) →
    covered pool x → freeAddr a used x →
    (∀ y, covered pool y → freeAddr a used y → x ≤ y) →
    (S.Reserve id (ofBig x) a.pod a.namespace_ (controllerName a) st).1.2 = none →
    poolLoop S a id used fuel pool none st =
      some (some (ipConfig a x), none,
        (S.Reserve id (ofBig x) a.pod a.namespace_ (controllerName a) st).2) := by
  induction pool with
  | nil =>
    intro _ _ _ hc
    obtain ⟨r, hr, _⟩ := hc
    simp at hr
  | cons r rest ih =>
    intro hp hw hu hc hf hmin hres
    rw [List.pairwise_cons] at hp
    obtain ⟨hr1, hr3⟩ := hw r (List.mem_cons_self _ _)
    obtain ⟨w1, w2, w3, w4, w5⟩ := r.walkable_spec hr1
    unfold Range.size at hr3
    unfold poolLoop
    have hstop : NextIP r.RangeEnd = ofBig (ipToInt r.RangeEnd + 1) := rfl
    rw [hstop, w1]
    by_cases hin : ipToInt r.RangeStart ≤ x ∧ x ≤ ipToInt r.RangeEnd
    · rw [candidateLoop_some S a id used k (ipToInt r.RangeEnd + 1 - ipToInt r.RangeStart) fuel
          (ipToInt r.RangeStart) (ipToInt r.RangeEnd) x st
          (by omega) (by omega) w3 w5 hu hin.1 hin.2 hf
          (fun v h1 h2 hv => by
            have := hmin v ⟨_, List.mem_cons_self _ _, by
              unfold Range.covers; omega⟩ hv
            omega)
          hres]
    · have hrest : covered rest x := by
        rcases (covered_cons _ _ _).mp hc with h | h
        · exact absurd h hin
        · exact h
      have hgt := covered_tail_gt _ rest hp.1 x hrest
      rw [candidateLoop_none S a id used k (ipToInt r.RangeEnd + 1 - ipToInt r.RangeStart) fuel
          (ipToInt r.RangeStart) (ipToInt r.RangeEnd) st
          (by omega) (by omega) w3 w5 hu
          (fun v h1 h2 hv => by
            have := hmin v ⟨_, List.mem_cons_self _ _, by
              unfold Range.covers; omega⟩ hv
            omega)]
      simp only
      exact ih hp.2 (fun r' hr' => hw r' (List.mem_cons_of_mem _ hr')) hu hrest hf
        (fun y hy1 hy2 => hmin y ((covered_cons _ _ _).mpr (Or.inr hy1)) hy2) hres

theorem poolLoop_none {σ : Type} (S : Store σ) (a : Allocator) (id : List Char)
    (used : RangeSet) (k fuel : Nat) (st : σ) (pool : RangeSet) :
    (∀ r ∈ pool, r.walkable ∧ r.size + k < fuel) →
    (∀ u ∈ used, u.walkable ∧ u.size ≤ k) →
    (∀ y, covered pool y → ¬ freeAddr a used y) →
    poolLoop S a id used fuel pool none st = some (none, none, st) := by
  induction pool with
  | nil => intro _ _ _; rfl
  | cons r rest ih =>
    intro hw hu hfree
    obtain ⟨hr1, hr3⟩ := hw r (List.mem_cons_self _ _)
    obtain ⟨w1, w2, w3, w4, w5⟩ := r.walkable_spec hr1
    unfold Range.size at hr3
    unfold poolLoop
    have hstop : NextIP r.RangeEnd = ofBig (ipToInt r.RangeEnd + 1) := rfl
    rw [hstop, w1]
    rw [candidateLoop_none S a id used k (ipToInt r.RangeEnd + 1 - ipToInt r.RangeStart) fuel
      (ipToInt r.RangeStart) (ipToInt r.RangeEnd) st
      (by omega) (by omega) w3 w5 hu
      (fun v h1 h2 => hfree v ⟨_, List.mem_cons_self _ _, by
        unfold Range.covers; omega⟩)]
    simp only
    exact ih (fun r' hr' => hw r' (List.mem_cons_of_mem _ hr')) hu
      (fun y hy => hfree y ((covered_cons _ _ _).mpr (Or.inr hy)))

/-- C2, counterexample: pool [0.0.0.5, 0.0.0.7] in 0.0.0.0/24, gateway 0.0.0.1, bindings of
0.0.0.5 and 0.0.0.6. The pool is canonical, all ranges have start <= end, the lowest
address in the pool, in no used range and not the gateway is 0.0.0.7, and reserve succeeds;
yet `Allocate` does not return 0.0.0.7. The successor `ip.NextIP` makes of 0.0.0.5 is the
one-byte slice 06, which `Equal` matches with no used address and not with the gateway:
`Allocate` reserves it, writing the record "?06,web,default,unknown", and returns it. -/
theorem Allocate_low_addresses_not_first_fit :
    etcdLow.Lock.RetrieveAllocated "default".toList net0 = .ok [lowPool] ∧
    etcdLow.Lock.RetrieveUsed "default".toList net0 = .ok [lowFive, lowSix] ∧
    lowPool.wf ∧ lowFive.wf ∧ lowSix.wf ∧
    (covered [lowPool] 7 ∧ ¬ covered [lowFive, lowSix] 7 ∧ alloc0.gateway ≠ .v4 7) ∧
    (∀ y, covered [lowPool] y → ¬ covered [lowFive, lowSix] y → 7 ≤ y) ∧
    Allocate etcdStore (fun _ => none) alloc0 "c3".toList 20 etcdLow =
      some (.ok { Version := "4".toList, AddressIP := .big 6, AddressMask := net0.Mask,
                  Gateway := .v4 1 },
            { etcdLow with
              kvs := (putKV "/anchor/cn/c3".toList "?06,web,default,unknown".toList
                etcdLow.kvs) }) := by
  refine ⟨by decide, by decide, by decide, by decide, by decide, by decide, ?_, by decide⟩
  intro y hc hu
  simp [covered, Range.covers, ipToInt, lowPool, lowFive, lowSix] at hc hu
  omega

/-- C2, amended. `Allocate` is first-fit, lowest-address-first over pools and used sets of
addresses that `ip.NextIP` steps through: for a pool in canonical form and a used set whose
ranges have start <= end and run over IPv4 addresses from 1.0.0.0 on (or over IPv6
addresses with a non-zero first byte), when the store returns them, `Range.Canonicalize`
accepts them and reserve succeeds for the address of number `x`, the numerically lowest
address that lies in a pool range, in no used range and is not the gateway, then `Allocate`
returns that address with the mask of the subnet and the gateway of the allocator, and
unlocks the store. -/
theorem Allocate_first_fit {σ : Type} (S : Store σ) (canonicalize : Range → Option Error)
    (a : Allocator) (id : List Char) (fuel : Nat) (st st1 st2 : σ) (pool used : RangeSet)
    (x : Nat)
    (hpool : S.RetrieveAllocated a.namespace_ a.subnet (S.Lock st) = (.ok pool, st1))
    (hcp : checkRanges canonicalize a.gateway pool = none)
    (hused : S.RetrieveUsed a.namespace_ a.subnet st1 = (.ok used, st2))
    (hcu : checkRanges canonicalize a.gateway used = none)
    (hcanon : pool.Pairwise gapBefore)
    (hpw : ∀ r ∈ pool, r.walkable)
    (huw : ∀ u ∈ used, u.walkable)
    (hfuel : maxSize pool + maxSize used + 1 < fuel)
    (hx : covered pool x ∧ ¬ covered used x ∧ a.gateway ≠ ofBig x)
    (hmin : ∀ y, covered pool y → ¬ covered used y → a.gateway ≠ ofBig y → x ≤ y)
    (hres : (S.Reserve id (ofBig x) a.pod a.namespace_ (controllerName a) st2).1 = (true, none)) :
    Allocate S canonicalize a id fuel st =
      some (.ok { Version := "4".toList, AddressIP := ofBig x, AddressMask := a.subnet.Mask,
                  Gateway := a.gateway },
            S.Unlock (S.Reserve id (ofBig x) a.pod a.namespace_ (controllerName a) st2).2) := by
  have hloop := poolLoop_first_fit S a id used (maxSize used) fuel x st2 pool hcanon
    (fun r hr => ⟨hpw r hr, by have := size_le_maxSize pool r hr; omega⟩)
    (fun u hu => ⟨huw u hu, size_le_maxSize used u hu⟩)
    hx.1 hx.2 (fun y h1 h2 => hmin y h1 h2.1 h2.2) (by rw [hres])
  unfold Allocate allocateLocked
  simp only [hpool, hcp, hused, hcu, hloop, ipConfig]

/-- C2, witness: pool [10.0.1.2, 10.0.1.10], gateway 10.0.1.1, used 10.0.1.2 and 10.0.1.3:
`Allocate` returns 10.0.1.4/24 with gateway 10.0.1.1. -/
theorem Allocate_first_fit_witness :
    ofBig 0x0a000104 = .v4 0x0a000104 ∧
    Allocate etcdStore (fun _ => none) alloc24 "c3".toList 20 etcdFirstFit =
      some (.ok { Version := "4".toList, AddressIP := ofBig 0x0a000104,
                  AddressMask := { val := 0xffffff00, wide := false },
                  Gateway := .v4 0x0a000101 },
            etcdStore.Unlock (etcdStore.Reserve "c3".toList (ofBig 0x0a000104) alloc24.pod
              alloc24.namespace_ (controllerName alloc24) etcdFirstFit.Lock).2) :=
  ⟨by decide,
   Allocate_first_fit etcdStore (fun _ => none) alloc24 "c3".toList 20 etcdFirstFit
    etcdFirstFit.Lock etcdFirstFit.Lock
    [{ RangeStart := .v4 0x0a000102, RangeEnd := .v4 0x0a00010a, Subnet := net24,
       Gateway := .nil }]
    [{ RangeStart := .v4 0x0a000102, RangeEnd := .v4 0x0a000103, Subnet := net24,
       Gateway := .nil }]
    0x0a000104
    (by decide) (by decide) (by decide) (by decide) (by decide) (by decide) (by decide)
    (by decide) (by decide)
    (by
      intro y hc hu _
      simp [covered, Range.covers, ipToInt] at hc hu
      omega)
    (by decide)⟩

/-- C3, the failing input: with a store whose write fails, `Reserve` returns false for the
candidate 10.0.1.4, yet `Allocate` returns 10.0.1.4 as allocated, and the store holds no
binding for the container. -/
theorem Allocate_ignores_reserve_false :
    (etcdStore.Reserve "c3".toList (.v4 0x0a000104) alloc24.pod alloc24.namespace_
        (controllerName alloc24) etcdReadOnly.Lock).1 = (false, none) ∧
    Allocate etcdStore (fun _ => none) alloc24 "c3".toList 20 etcdReadOnly =
      some (.ok { Version := "4".toList, AddressIP := .v4 0x0a000104,
                  AddressMask := { val := 0xffffff00, wide := false },
                  Gateway := .v4 0x0a000101 },
            etcdReadOnly) := by
  decide

/-- C12, counterexample: pool [0.0.0.5, 0.0.0.6] in 0.0.0.0/24 with both addresses bound.
Every address of the pool range is in the used set, yet `Allocate` does not fail: after
0.0.0.5 it reaches the one-byte slice 06 that `ip.NextIP` makes, finds it used by no
binding, calls `Reserve` for it and returns it. -/
theorem Allocate_low_addresses_not_exhausted :
    etcdLowFull.Lock.RetrieveAllocated "default".toList net0 = .ok [lowPair] ∧
    etcdLowFull.Lock.RetrieveUsed "default".toList net0 = .ok [lowFive, lowSix] ∧
    lowPair.wf ∧ lowFive.wf ∧ lowSix.wf ∧
    (∀ y, covered [lowPair] y → covered [lowFive, lowSix] y) ∧
    Allocate etcdStore (fun _ => none) alloc0 "c3".toList 20 etcdLowFull =
      some (.ok { Version := "4".toList, AddressIP := .big 6, AddressMask := net0.Mask,
                  Gateway := .v4 1 },
            { etcdLowFull with
              kvs := (putKV "/anchor/cn/c3".toList "?06,web,default,unknown".toList
                etcdLowFull.kvs) }) := by
  refine ⟨by decide, by decide, by decide, by decide, by decide, ?_, by decide⟩
  intro y hc
  simp [covered, Range.covers, ipToInt, lowPair, lowFive, lowSix] at hc ⊢
  omega

/-- C12, amended. If no candidate is free, every address of the pool ranges being in a used
range or equal to the gateway (as when the pool has no range at all), and the ranges of the
pool and of the used set have start <= end and run over IPv4 addresses from 1.0.0.0 on (or
over IPv6 addresses with a non-zero first byte), `Allocate` fails with the exhaustion error;
the store is left as the reading of the used set left it, unlocked: `Reserve` is called for
no address. -/
theorem Allocate_exhausted {σ : Type} (S : Store σ) (canonicalize : Range → Option Error)
    (a : Allocator) (id : List Char) (fuel : Nat) (st st1 st2 : σ) (pool used : RangeSet)
    (hpool : S.RetrieveAllocated a.namespace_ a.subnet (S.Lock st) = (.ok pool, st1))
    (hcp : checkRanges canonicalize a.gateway pool = none)
    (hused : S.RetrieveUsed a.namespace_ a.subnet st1 = (.ok used, st2))
    (hcu : checkRanges canonicalize a.gateway used = none)
    (hpw : ∀ r ∈ pool, r.walkable)
    (huw : ∀ u ∈ used, u.walkable)
    (hfuel : maxSize pool + maxSize used + 1 < fuel)
    (hnone : ∀ y, covered pool y → covered used y ∨ a.gateway = ofBig y) :
    Allocate S canonicalize a id fuel st =
      some (.error (.exhausted a.pod), S.Unlock st2) := by
  have hloop := poolLoop_none S a id used (maxSize used) fuel st2 pool
    (fun r hr => ⟨hpw r hr, by have := size_le_maxSize pool r hr; omega⟩)
    (fun u hu => ⟨huw u hu, size_le_maxSize used u hu⟩)
    (fun y hy hf => by
      rcases hnone y hy with h | h
      · exact hf.1 h
      · exact hf.2 h)
  unfold Allocate allocateLocked
  simp only [hpool, hcp, hused, hcu, hloop]

/-- C12, witness: the pool [10.0.1.2, 10.0.1.3] with both addresses bound is exhausted, and
the store is as before. -/
theorem Allocate_exhausted_witness :
    Allocate etcdStore (fun _ => none) alloc24 "c3".toList 20 etcdFull =
      some (.error (.exhausted "web".toList), etcdFull) :=
  Allocate_exhausted etcdStore (fun _ => none) alloc24 "c3".toList 20 etcdFull
    etcdFull.Lock etcdFull.Lock
    [{ RangeStart := .v4 0x0a000102, RangeEnd := .v4 0x0a000103, Subnet := net24,
       Gateway := .nil }]
    [{ RangeStart := .v4 0x0a000102, RangeEnd := .v4 0x0a000103, Subnet := net24,
       Gateway := .nil }]
    (by decide) (by decide) (by decide) (by decide) (by decide) (by decide) (by decide)
    (by
      intro y hc
      exact Or.inl hc)

theorem usedScan_total (n : Nat) : ∀ (fuel s e : Nat) (iter : IP) (avail : Bool),
    s + n = e + 1 → n < fuel → (∀ m, s ≤ m → m ≤ e → ipToInt (ofBig m) = m) →
    (usedScan fuel iter (ofBig s) (ofBig (e + 1)) avail).isSome = true := by
  induction n with
  | zero =>
    intro fuel s e iter avail hs hf _
    cases fuel with
    | zero => omega
    | succ f =>
      have : s = e + 1 := by omega
      subst this
      unfold usedScan
      rw [if_pos ((Equal_ofBig_ofBig _ _).mpr rfl)]
      rfl
  | succ n ih =>
    intro fuel s e iter avail hs hf hg
    cases fuel with
    | zero => omega
    | succ f =>
      unfold usedScan
      have hne : s ≠ e + 1 := by omega
      rw [if_neg (by rw [Equal_ofBig_ofBig]; exact hne)]
      by_cases hv : Equal iter (ofBig s) = true
      · rw [if_pos hv]; rfl
      · rw [if_neg hv, NextIP_ofBig s (hg s (le_refl _) (by omega))]
        exact ih f (s + 1) e iter avail (by omega) (by omega)
          (fun m h1 h2 => hg m (by omega) h2)

theorem usedScan_range_total (fuel : Nat) (iter : IP) (u : Range) (avail : Bool)
    (hu : u.walkable) (hf : u.size < fuel) :
    (usedScan fuel iter u.RangeStart (NextIP u.RangeEnd) avail).isSome = true := by
  obtain ⟨h1, h2, h3, h4, h5⟩ := u.walkable_spec hu
  unfold Range.size at hf
  have := usedScan_total (ipToInt u.RangeEnd + 1 - ipToInt u.RangeStart) fuel
    (ipToInt u.RangeStart) (ipToInt u.RangeEnd) iter avail (by omega) (by omega) h5
  unfold NextIP
  rw [← h1] at this
  exact this

theorem availLoop_total (fuel : Nat) (iter : IP) (used : RangeSet) :
    ∀ (avail : Bool), (∀ u ∈ used, u.walkable ∧ u.size < fuel) →
      (availLoop fuel iter used avail).isSome = true := by
  induction used with
  | nil => intro avail _; rfl
  | cons u rest ih =>
    intro avail h
    have hu := h u (List.mem_cons_self _ _)
    have ht := usedScan_range_total fuel iter u avail hu.1 hu.2
    unfold availLoop
    cases hs : usedScan fuel iter u.RangeStart (NextIP u.RangeEnd) avail with
    | none => rw [hs] at ht; cases ht
    | some b => exact ih b (fun x hx => h x (List.mem_cons_of_mem _ hx))

theorem candidateLoop_terminates {σ : Type} (S : Store σ) (a : Allocator) (id : List Char)
    (used : RangeSet) (k n : Nat) : ∀ (fuel s e : Nat) (err : Option Error) (st : σ),
    s + n = e + 1 → n + k < fuel → (∀ m, s ≤ m → m ≤ e → ipToInt (ofBig m) = m) →
    (∀ u ∈ used, u.walkable ∧ u.size ≤ k) →
    (candidateLoop S a id used fuel (ofBig s) (ofBig (e + 1)) err st).isSome = true := by
  induction n with
  | zero =>
    intro fuel s e err st hs hf _ _
    have : s = e + 1 := by omega
    subst this
    cases fuel with
    | zero => omega
    | succ f =>
      unfold candidateLoop
      rw [if_pos ((Equal_ofBig_ofBig _ _).mpr rfl)]
      rfl
  | succ n ih =>
    intro fuel s e err st hs hf hg hu
    have hne : s ≠ e + 1 := by omega
    cases fuel with
    | zero => omega
    | succ f =>
      unfold candidateLoop
      rw [if_neg (by rw [Equal_ofBig_ofBig]; exact hne)]
      have ht := availLoop_total f (ofBig s) used true
        (fun u hu' => ⟨(hu u hu').1, by have := (hu u hu').2; omega⟩)
      cases hb : availLoop f (ofBig s) used true with
      | none => rw [hb] at ht; cases ht
      | some b =>
        have hrec := fun err1 st1 => ih f (s + 1) e err1 st1 (by omega) (by omega)
          (fun m h1 h2 => hg m (by omega) h2) hu
        simp only [NextIP_ofBig s (hg s (le_refl _) (by omega))]
        split_ifs
        · exact hrec _ _
        · exact hrec _ _
        · exact hrec _ _
        · rfl
        · exact hrec _ _

theorem candidateLoop_range_terminates {σ : Type} (S : Store σ) (a : Allocator)
    (id : List Char) (used : RangeSet) (k fuel : Nat) (r : Range) (err : Option Error) (st : σ)
    (hr : r.walkable) (hf : r.size + k < fuel) (hu : ∀ u ∈ used, u.walkable ∧ u.size ≤ k) :
    (candidateLoop S a id used fuel r.RangeStart (NextIP r.RangeEnd) err st).isSome = true := by
  obtain ⟨h1, h2, h3, h4, h5⟩ := r.walkable_spec hr
  unfold Range.size at hf
  have := candidateLoop_terminates S a id used k
    (ipToInt r.RangeEnd + 1 - ipToInt r.RangeStart) fuel (ipToInt r.RangeStart)
    (ipToInt r.RangeEnd) err st (by omega) (by omega) h5 hu
  unfold NextIP
  rw [← h1] at this
  exact this

theorem poolLoop_terminates {σ : Type} (S : Store σ) (a : Allocator) (id : List Char)
    (used : RangeSet) (k fuel : Nat) (pool : RangeSet) :
    (∀ r ∈ pool, r.walkable ∧ r.size + k < fuel) →
    (∀ u ∈ used, u.walkable ∧ u.size ≤ k) →
    ∀ (err : Option Error) (st : σ), (poolLoop S a id used fuel pool err st).isSome = true := by
  induction pool with
  | nil => intro _ _ _ _; rfl
  | cons r rest ih =>
    intro hw hu err st
    obtain ⟨hr1, hr3⟩ := hw r (List.mem_cons_self _ _)
    have hc := candidateLoop_range_terminates S a id used k fuel r err st hr1 hr3 hu
    unfold poolLoop
    cases h : candidateLoop S a id used fuel r.RangeStart (NextIP r.RangeEnd) err st with
    | none => rw [h] at hc; cases hc
    | some res =>
      obtain ⟨cfg, err1, st1⟩ := res
      cases cfg with
      | some c => rfl
      | none => exact ih (fun r' hr' => hw r' (List.mem_cons_of_mem _ hr')) hu err1 st1

theorem NextIP_ofBig_cases (m : Nat) :
    (NextIP (ofBig m) = ofBig (m + 1) ∧ 1 < m) ∨ NextIP (ofBig m) = ofBig 1 := by
  unfold NextIP
  by_cases h : ipToInt (ofBig m) = m
  · by_cases h1 : 1 < m
    · left; rw [h]; exact ⟨rfl, h1⟩
    · right
      have h0 : ipToInt (ofBig m) = 0 := by
        unfold ofBig
        rw [if_neg (by have : 1 < 2 ^ 24 := by norm_num
                       omega),
          if_neg (by have : 1 < 2 ^ 120 := by norm_num
                     omega)]
        rfl
      rw [h0]
  · right
    rcases ipToInt_ofBig m with h' | h'
    · exact absurd h' h
    · rw [h']

theorem usedScan_inverted (fuel : Nat) : ∀ (s e v m : Nat) (avail : Bool),
    e + 1 < s → 0 < e → v < s → v ≠ 1 → (s ≤ m ∨ m = 1) →
    usedScan fuel (ofBig v) (ofBig m) (ofBig (e + 1)) avail = none := by
  induction fuel with
  | zero => intro s e v m avail _ _ _ _ _; rfl
  | succ f ih =>
    intro s e v m avail h1 h0 h2 h3 hm
    unfold usedScan
    rw [if_neg (by rw [Equal_ofBig_ofBig]; omega), if_neg (by rw [Equal_ofBig_ofBig]; omega)]
    rcases NextIP_ofBig_cases m with h | h
    · rw [h.1]; exact ih s e v (m + 1) avail h1 h0 h2 h3 (by omega)
    · rw [h]; exact ih s e v 1 avail h1 h0 h2 h3 (Or.inr rfl)

theorem candidateLoop_inverted {σ : Type} (S : Store σ) (a : Allocator) (id : List Char)
    (used : RangeSet) (fuel : Nat) : ∀ (s e m : Nat) (err : Option Error) (st : σ),
    e + 1 < s → 0 < e → err ≠ none → (s ≤ m ∨ m = 1) →
    candidateLoop S a id used fuel (ofBig m) (ofBig (e + 1)) err st = none := by
  induction fuel with
  | zero => intro s e m err st _ _ _ _; rfl
  | succ f ih =>
    intro s e m err st h1 h0 h2 hm
    unfold candidateLoop
    rw [if_neg (by rw [Equal_ofBig_ofBig]; omega)]
    have hrec : candidateLoop S a id used f (NextIP (ofBig m)) (ofBig (e + 1)) err st = none := by
      rcases NextIP_ofBig_cases m with h | h
      · rw [h.1]; exact ih s e (m + 1) err st h1 h0 h2 (by omega)
      · rw [h]; exact ih s e 1 err st h1 h0 h2 (Or.inr rfl)
    cases availLoop f (ofBig m) used true with
    | none => rfl
    | some avail =>
      cases avail with
      | true => simp only [if_true, if_pos h2]; exact hrec
      | false => simpa using hrec

/-- With a used range whose start is after its end, here the span from 10.0.1.5 to 10.0.1.2
read from the store, the used-membership loop of `Allocate` never meets the successor of
the end: the call returns with no amount of fuel. -/
theorem Allocate_inverted_used_diverges (fuel : Nat) :
    Allocate etcdStore (fun _ => none) alloc24 "c3".toList fuel etcdInverted = none := by
  have hp : etcdInverted.Lock.RetrieveAllocated "default".toList net24 =
      .ok [{ RangeStart := .v4 0x0a000102, RangeEnd := .v4 0x0a00010a, Subnet := net24,
             Gateway := .nil }] := by decide
  have hu : etcdInverted.Lock.RetrieveUsed "default".toList net24 =
      .ok [{ RangeStart := .v4 0x0a000105, RangeEnd := .v4 0x0a000102, Subnet := net24,
             Gateway := .nil }] := by decide
  unfold Allocate allocateLocked
  simp only [etcdStore, alloc24, hp, hu, checkRanges, poolLoop]
  cases fuel with
  | zero => rfl
  | succ f =>
    unfold candidateLoop
    rw [if_neg (by decide)]
    unfold availLoop
    have h1 : (IP.v4 0x0a000102) = ofBig 0x0a000102 := by decide
    have h2 : (IP.v4 0x0a000105) = ofBig 0x0a000105 := by decide
    have h3 : NextIP (.v4 0x0a000102) = ofBig (0x0a000102 + 1) := by decide
    rw [h3, h2, h1, usedScan_inverted f 0x0a000105 0x0a000102 0x0a000102 0x0a000105 true
      (by omega) (by omega) (by omega) (by omega) (Or.inl (le_refl _))]

theorem usedScan_stuck (fuel : Nat) : ∀ (iter stop : IP) (avail : Bool),
    Equal (.big 1) stop = false → Equal iter (.big 1) = false →
    usedScan fuel iter (.big 1) stop avail = none := by
  induction fuel with
  | zero => intro _ _ _ _ _; rfl
  | succ f ih =>
    intro iter stop avail h1 h2
    unfold usedScan
    rw [if_neg (by rw [h1]; simp), if_neg (by rw [h2]; simp)]
    have hn : NextIP (.big 1) = .big 1 := by decide
    rw [hn]
    exact ih iter stop avail h1 h2

theorem Allocate_low_span_none (fuel : Nat) :
    Allocate etcdStore (fun _ => none) alloc0 "c3".toList fuel etcdLowSpan = none := by
  have hp : etcdLowSpan.Lock.RetrieveAllocated "default".toList net0 = .ok [lowNine] := by
    decide
  have hu : etcdLowSpan.Lock.RetrieveUsed "default".toList net0 = .ok [lowPair] := by decide
  unfold Allocate allocateLocked
  simp only [etcdStore, alloc0, hp, hu, checkRanges, poolLoop]
  cases fuel with
  | zero => rfl
  | succ f =>
    unfold candidateLoop
    rw [if_neg (by decide)]
    unfold availLoop
    cases f with
    | zero => rfl
    | succ f1 =>
      unfold usedScan
      rw [if_neg (by decide), if_neg (by decide)]
      cases f1 with
      | zero => rfl
      | succ f2 =>
        unfold usedScan
        rw [if_neg (by decide), if_neg (by decide)]
        have hn : NextIP (NextIP lowPair.RangeStart) = .big 1 := by decide
        rw [hn, usedScan_stuck f2 _ _ _ (by decide) (by decide)]

/-- C25, counterexample: the pool of the single address 0.0.0.9 and the used range
[0.0.0.5, 0.0.0.6] in 0.0.0.0/24, both with start <= end. The used-membership loop for the
candidate 0.0.0.9 steps from 0.0.0.5 to the one-byte slice 06, whose number `ipToInt` reads
as 0, and from there to the one-byte slice 01 for ever: it never meets the successor 07 of
the end, and neither the loop nor `Allocate` returns, whatever the fuel. -/
theorem Allocate_low_addresses_diverge :
    etcdLowSpan.Lock.RetrieveAllocated "default".toList net0 = .ok [lowNine] ∧
    etcdLowSpan.Lock.RetrieveUsed "default".toList net0 = .ok [lowPair] ∧
    lowNine.wf ∧ lowPair.wf ∧
    (¬ ∃ fuel, (usedScan fuel lowNine.RangeStart lowPair.RangeStart (NextIP lowPair.RangeEnd)
      true).isSome = true) ∧
    ¬ ∃ fuel,
      (Allocate etcdStore (fun _ => none) alloc0 "c3".toList fuel etcdLowSpan).isSome = true := by
  refine ⟨by decide, by decide, by decide, by decide, ?_, ?_⟩
  · rintro ⟨fuel, h⟩
    cases fuel with
    | zero => cases h
    | succ f =>
      unfold usedScan at h
      rw [if_neg (by decide), if_neg (by decide)] at h
      cases f with
      | zero => cases h
      | succ f1 =>
        unfold usedScan at h
        rw [if_neg (by decide), if_neg (by decide)] at h
        have hn : NextIP (NextIP lowPair.RangeStart) = .big 1 := by decide
        rw [hn, usedScan_stuck f1 _ _ _ (by decide) (by decide)] at h
        cases h
  · rintro ⟨fuel, h⟩
    rw [Allocate_low_span_none fuel] at h
    cases h

/-- C25, amended. When every range of the pool and of the used set has start <= end and
runs over IPv4 addresses from 1.0.0.0 on (or over IPv6 addresses with a non-zero first
byte), the loops of `Allocate` terminate: the used-membership loop over a used range `u`
ends within `u.size + 1` rounds, the candidate loop over a pool range `r` ends within
`r.size + 1` rounds of its own, one for each address of the range and one for the test that
ends it, and `Allocate` returns once the fuel exceeds the greatest pool range size plus the
greatest used range size. The hypothesis start <= end is needed: both loops stop only on
equality with the successor of the end, so from a start `s` after that successor (of an end
other than 0.0.0.0, whose successor is the one-byte slice 01 that the loops do reach) the
used-membership loop that does not meet the candidate, and the candidate loop that hands
out no address, never end. -/
theorem Allocate_loops_terminate {σ : Type} (S : Store σ) (canonicalize : Range → Option Error)
    (a : Allocator) (id : List Char) (fuel : Nat) (st st1 st2 : σ) (pool used : RangeSet)
    (hpool : S.RetrieveAllocated a.namespace_ a.subnet (S.Lock st) = (.ok pool, st1))
    (hused : S.RetrieveUsed a.namespace_ a.subnet st1 = (.ok used, st2))
    (hpw : ∀ r ∈ pool, r.walkable) (huw : ∀ u ∈ used, u.walkable)
    (hfuel : maxSize pool + maxSize used < fuel) :
    (∀ u ∈ used, ∀ (iter : IP) (avail : Bool),
      (usedScan (u.size + 1) iter u.RangeStart (NextIP u.RangeEnd) avail).isSome = true) ∧
    (∀ r ∈ pool, ∀ (err : Option Error) (st3 : σ),
      (candidateLoop S a id used (r.size + maxSize used + 1) r.RangeStart (NextIP r.RangeEnd)
        err st3).isSome = true) ∧
    (Allocate S canonicalize a id fuel st).isSome = true ∧
    (∀ (n s e v : Nat) (avail : Bool), e + 1 < s → 0 < e → v < s → v ≠ 1 →
      usedScan n (ofBig v) (ofBig s) (ofBig (e + 1)) avail = none) ∧
    (∀ (n s e : Nat) (err : Option Error) (st3 : σ), e + 1 < s → 0 < e → err ≠ none →
      candidateLoop S a id used n (ofBig s) (ofBig (e + 1)) err st3 = none) := by
  have hu : ∀ u ∈ used, u.walkable ∧ u.size ≤ maxSize used :=
    fun u hm => ⟨huw u hm, size_le_maxSize used u hm⟩
  refine ⟨?_, ?_, ?_,
    fun n s e v avail h1 h2 h3 h4 =>
      usedScan_inverted n s e v s avail h1 h2 h3 h4 (Or.inl (le_refl _)),
    fun n s e err st3 h1 h2 h3 =>
      candidateLoop_inverted S a id used n s e s err st3 h1 h2 h3 (Or.inl (le_refl _))⟩
  · intro u hm iter avail
    exact usedScan_range_total (u.size + 1) iter u avail (huw u hm) (by omega)
  · intro r hm err st3
    exact candidateLoop_range_terminates S a id used (maxSize used) _ r err st3 (hpw r hm)
      (by omega) hu
  · have hloop := poolLoop_terminates S a id used (maxSize used) fuel pool
      (fun r hm => ⟨hpw r hm, by have := size_le_maxSize pool r hm; omega⟩) hu none st2
    unfold Allocate allocateLocked
    simp only [hpool, hused]
    cases checkRanges canonicalize a.gateway pool with
    | some e => rfl
    | none =>
      cases checkRanges canonicalize a.gateway used with
      | some e => rfl
      | none =>
        cases h : poolLoop S a id used fuel pool none st2 with
        | none => rw [h] at hloop; cases hloop
        | some res =>
          obtain ⟨cfg, err1, st3⟩ := res
          cases cfg <;> rfl

/-- C25, witness: in the first-fit scenario, pool [10.0.1.2, 10.0.1.10] and used addresses
10.0.1.2 and 10.0.1.3, `Allocate` returns with fuel 12. -/
theorem Allocate_loops_terminate_witness :
    (Allocate etcdStore (fun _ => none) alloc24 "c3".toList 12 etcdFirstFit).isSome = true :=
  (Allocate_loops_terminate etcdStore (fun _ => none) alloc24 "c3".toList 12 etcdFirstFit
    etcdFirstFit.Lock etcdFirstFit.Lock
    [{ RangeStart := .v4 0x0a000102, RangeEnd := .v4 0x0a00010a, Subnet := net24,
       Gateway := .nil }]
    [{ RangeStart := .v4 0x0a000102, RangeEnd := .v4 0x0a000103, Subnet := net24,
       Gateway := .nil }]
    (by decide) (by decide) (by decide) (by decide) (by decide)).2.2.1

/-- C4, the failing input: with the subnet annotation 10.0.1.0/24 and the gateway
annotation 10.0.1.1, an address inside that subnet, `NewAllocator` fails with the invalid
gateway error, whatever the store: it parses the text of the subnet annotation where it
should parse the gateway annotation. -/
theorem NewAllocator_gateway_annotation_fails {σ : Type} (S : Store σ) (pod ns : List Char)
    (st : σ) :
    ParseCIDR "10.0.1.0/24".toList = some net24 ∧
    ParseIP "10.0.1.1".toList = .v4 0x0a000101 ∧
    net24.Contains (.v4 0x0a000101) = true ∧
    NewAllocator S pod ns gatewayAnnotations st = (.error .invalidGateway, st) := by
  refine ⟨by decide, by decide, by decide, ?_⟩
  rfl

/-- The hypothesis start <= end of the idempotence of `Concat` cannot be dropped: the span
"10.0.1.[5-2]" parses to one range, and parsing it again onto the result leaves two. -/
theorem Concat_inverted_span_twice :
    Concat [] "10.0.1.[5-2]".toList net24 =
      .ok [{ RangeStart := .v4 0x0a000105, RangeEnd := .v4 0x0a000102, Subnet := net24,
             Gateway := .nil }] ∧
    Concat [{ RangeStart := .v4 0x0a000105, RangeEnd := .v4 0x0a000102, Subnet := net24,
              Gateway := .nil }] "10.0.1.[5-2]".toList net24 =
      .ok [{ RangeStart := .v4 0x0a000105, RangeEnd := .v4 0x0a000102, Subnet := net24,
             Gateway := .nil },
           { RangeStart := .v4 0x0a000105, RangeEnd := .v4 0x0a000102, Subnet := net24,
             Gateway := .nil }] := by
  decide

/-- The single-address branch of `Concat` does return the parse error for a malformed
token: the order of its tests is nil first, subnet second. -/
theorem Concat_malformed_single_error :
    Concat [] "10.0.1.x".toList net24 = .error (.invalidRange "10.0.1.x".toList) := by
  decide

theorem cutAt_mem (c : Char) (s : List Char) : ∀ l r, cutAt c s = some (l, r) → c ∈ s := by
  induction s with
  | nil => intro l r h; simp [cutAt] at h
  | cons d ds ih =>
    intro l r h
    unfold cutAt at h
    split_ifs at h with hd
    · simp [hd]
    · cases hc : cutAt c ds with
      | none => simp [hc] at h
      | some p =>
        obtain ⟨l1, r1⟩ := p
        exact List.mem_cons_of_mem _ (ih l1 r1 hc)

theorem ParseIP_of_ParseCIDR (s : List Char) (n : IPNet) (h : ParseCIDR s = some n) :
    ParseIP s = .nil := by
  unfold ParseCIDR at h
  cases hc : cutAt '/' s with
  | none => simp [hc] at h
  | some p =>
    obtain ⟨l, r⟩ := p
    have hm := cutAt_mem '/' s l r hc
    by_contra hne
    have hq := (ParseIP_chars s hne).2 '/' hm
    exact ipChar_ne '/' '/' hq (by decide) rfl

/-- With a non-empty gateway annotation `NewAllocator` never succeeds, whatever the other
annotations and the store: the text it parses as the gateway is the subnet annotation,
which is empty or a CIDR and in neither case an address. -/
theorem NewAllocator_gateway_never_succeeds {σ : Type} (S : Store σ) (pod ns : List Char)
    (customized : StringMap) (st : σ) (hg : customized.get customizeGatewayKey ≠ []) :
    ∃ e, NewAllocator S pod ns customized st = (.error e, st) := by
  unfold NewAllocator
  by_cases hs : customized.get customizeSubnetKey = []
  · simp only [hs, ne_eq, not_true_eq_false, if_false]
    by_cases hr : customized.get customizeRangeKey = []
    · simp only [hr, not_true_eq_false, if_false, hg, not_false_eq_true, if_true]
      exact ⟨.invalidGateway, by simp [ParseIP]⟩
    · simp only [hr, not_false_eq_true, if_true]
      exact ⟨_, rfl⟩
  · simp only [ne_eq, hs, not_false_eq_true, if_true]
    cases hc : ParseCIDR (customized.get customizeSubnetKey) with
    | none => exact ⟨_, rfl⟩
    | some n =>
      simp only
      by_cases hr : customized.get customizeRangeKey = []
      · simp only [hr, not_true_eq_false, if_false, hg, not_false_eq_true, if_true,
          ParseIP_of_ParseCIDR _ n hc]
        exact ⟨_, rfl⟩
      · simp only [hr, not_false_eq_true, if_true]
        exact ⟨_, rfl⟩

theorem ofBig_ne_nil (m : Nat) : ofBig m ≠ .nil := by
  unfold ofBig
  split_ifs <;> simp

theorem Range.walkable_some (r : Range) (h : r.walkable) :
    ∃ s e, r.RangeStart = ofBig s ∧ r.RangeEnd = ofBig e ∧ s ≤ e ∧ 0 < s ∧
      ∀ n, s ≤ n → n ≤ e → ipToInt (ofBig n) = n := by
  obtain ⟨h1, h2, h3, h4, h5⟩ := r.walkable_spec h
  exact ⟨_, _, h1, h2, h4, h3, h5⟩

theorem itemsOf_cons (r : Range) (v : Nat) (l : List Nat) :
    itemsOf r (v :: l) =
      if Equal (ofBig v) r.Gateway then itemsOf r l
      else NextResult.addr (ofBig v) r.Subnet.Mask r.Gateway :: itemsOf r l := by
  unfold itemsOf
  by_cases h : Equal (ofBig v) r.Gateway = true
  · simp [List.filter_cons, h]
  · simp [List.filter_cons, h]

theorem itemsAfter_step (r : Range) (v e : Nat) (post : RangeSet) (he : r.RangeEnd = ofBig e)
    (hge : ipToInt (ofBig e) = e) (hv : v < e) :
    itemsAfter r v post =
      if Equal (ofBig (v + 1)) r.Gateway then itemsAfter r (v + 1) post
      else NextResult.addr (ofBig (v + 1)) r.Subnet.Mask r.Gateway ::
        itemsAfter r (v + 1) post := by
  unfold itemsAfter
  rw [he, hge]
  have : e - v = (e - (v + 1)) + 1 := by omega
  rw [this, List.range'_succ, itemsOf_cons]
  split_ifs <;> simp

theorem itemsAfter_last (r r1 : Range) (e s1 e1 : Nat) (post : RangeSet)
    (he : r.RangeEnd = ofBig e) (hge : ipToInt (ofBig e) = e)
    (hs1 : r1.RangeStart = ofBig s1) (hgs1 : ipToInt (ofBig s1) = s1)
    (he1 : r1.RangeEnd = ofBig e1) (hge1 : ipToInt (ofBig e1) = e1) (hle : s1 ≤ e1) :
    itemsAfter r e (r1 :: post) =
      if Equal (ofBig s1) r1.Gateway then itemsAfter r1 s1 post
      else NextResult.addr (ofBig s1) r1.Subnet.Mask r1.Gateway :: itemsAfter r1 s1 post := by
  unfold itemsAfter
  rw [he, hge]
  simp only [Nat.sub_self, List.range'_zero, expected, rangeItems, Range.size, hs1, he1,
    hgs1, hge1]
  have : e1 + 1 - s1 = (e1 - s1) + 1 := by omega
  rw [this, List.range'_succ, itemsOf_cons]
  simp only [itemsOf, List.filter_nil, List.map_nil, List.nil_append]
  split_ifs <;> simp

theorem step_inside (pre post : RangeSet) (r : Range) (e v s0 : Nat)
    (he : r.RangeEnd = ofBig e) (hgv : ipToInt (ofBig v) = v) (hv : v < e)
    (h0 : pre = [] → s0 ≤ v) :
    step (itState (pre ++ r :: post) pre.length v s0) =
      .test (itState (pre ++ r :: post) pre.length (v + 1) s0) r := by
  unfold step itState
  simp only [getElem_cursor, he]
  have h1 : ¬ (Equal (ofBig v) (ofBig e) = true) := by rw [Equal_ofBig_ofBig]; omega
  rw [if_neg (ofBig_ne_nil v), if_neg h1, if_neg (ofBig_ne_nil s0)]
  have h2 : ¬ (pre.length = 0 ∧ Equal (NextIP (ofBig v)) (ofBig s0) = true) := by
    rintro ⟨hl, heq⟩
    have hp : pre = [] := List.length_eq_zero.mp hl
    have := h0 hp
    rw [NextIP_ofBig v hgv, Equal_ofBig_ofBig] at heq
    omega
  rw [if_neg h2, NextIP_ofBig v hgv]

theorem step_next (pre post : RangeSet) (r r1 : Range) (e s1 s0 : Nat)
    (he : r.RangeEnd = ofBig e) (hs1 : r1.RangeStart = ofBig s1) :
    step (itState (pre ++ r :: r1 :: post) pre.length e s0) =
      .test (itState (pre ++ r :: r1 :: post) (pre.length + 1) s1 s0) r1 := by
  unfold step itState
  simp only [getElem_cursor, he]
  have hidx : (pre.length + 1) % (pre ++ r :: r1 :: post).length = pre.length + 1 := by
    apply Nat.mod_eq_of_lt
    simp
  have hget : (pre ++ r :: r1 :: post)[pre.length + 1]? = some r1 := by
    have := getElem_cursor (pre ++ [r]) post r1
    simpa using this
  rw [if_neg (ofBig_ne_nil e), if_pos ((Equal_ofBig_ofBig _ _).mpr rfl)]
  simp only [hidx, hget]
  rw [if_neg (ofBig_ne_nil s0), if_neg (by simp), hs1]

theorem step_wrap (pre : RangeSet) (r r0 : Range) (tl : RangeSet) (e s0 : Nat)
    (he : r.RangeEnd = ofBig e) (h0 : pre ++ [r] = r0 :: tl) (hs0 : r0.RangeStart = ofBig s0) :
    step (itState (pre ++ [r]) pre.length e s0) =
      .stop .exhausted (itState (pre ++ [r]) 0 s0 s0) := by
  unfold step itState
  simp only [getElem_cursor, he]
  have hidx : (pre.length + 1) % (pre ++ [r]).length = 0 := by simp
  have hget : (pre ++ [r])[0]? = some r0 := by rw [h0]; simp
  rw [if_neg (ofBig_ne_nil e), if_pos ((Equal_ofBig_ofBig _ _).mpr rfl)]
  simp only [hidx, hget]
  rw [if_neg (ofBig_ne_nil s0), if_pos ⟨trivial, by rw [hs0]; exact (Equal_ofBig_ofBig _ _).mpr rfl⟩,
    hs0]

theorem Range.walkable_size (r : Range) (h : r.walkable) : 1 ≤ r.size := by
  obtain ⟨_, _, _, h4, _⟩ := r.walkable_spec h
  unfold Range.size
  omega

theorem Next_unfold (fuel : Nat) (i i1 : RangeIter) (r : Range) (h : step i = .test i1 r) :
    Next (fuel + 1) i =
      if Equal i1.cur r.Gateway then Next fuel i1
      else some (.addr i1.cur r.Subnet.Mask r.Gateway, i1) := by
  rw [Next, h]

theorem Next_from (m : Nat) : ∀ (pre post : RangeSet) (r : Range) (s e v s0 fuel : Nat),
    r.RangeStart = ofBig s → r.RangeEnd = ofBig e → s ≤ v → v ≤ e →
    (∀ n, s ≤ n → n ≤ e → ipToInt (ofBig n) = n) →
    (∀ x ∈ post, x.walkable) →
    (∃ r0 tl, pre ++ r :: post = r0 :: tl ∧ r0.RangeStart = ofBig s0) →
    (e - v) + totalSize post = m → m < fuel →
    (itemsAfter r v post = [] ∧
      ∃ it', Next fuel (itState (pre ++ r :: post) pre.length v s0) = some (.exhausted, it')) ∨
    (∃ (pre' post' : RangeSet) (r' : Range) (s' e' v' : Nat) (item : NextResult),
      pre ++ r :: post = pre' ++ r' :: post' ∧ r'.RangeStart = ofBig s' ∧
      r'.RangeEnd = ofBig e' ∧ s' ≤ v' ∧ v' ≤ e' ∧
      (∀ n, s' ≤ n → n ≤ e' → ipToInt (ofBig n) = n) ∧ (∀ x ∈ post', x.walkable) ∧
      (e' - v') + totalSize post' < m ∧
      itemsAfter r v post = item :: itemsAfter r' v' post' ∧
      Next fuel (itState (pre ++ r :: post) pre.length v s0) =
        some (item, itState (pre ++ r :: post) pre'.length v' s0)) := by
  induction m with
  | zero =>
    intro pre post r s e v s0 fuel hs he hsv hve hg hpost h0 hm hf
    have hev : v = e := by omega
    subst hev
    have hp : post = [] := by
      cases post with
      | nil => rfl
      | cons x xs =>
        have := Range.walkable_size x (hpost x (List.mem_cons_self _ _))
        simp only [totalSize] at hm
        omega
    subst hp
    obtain ⟨r0, tl, h01, h02⟩ := h0
    left
    refine ⟨by simp [itemsAfter, he, hg v hsv hve, itemsOf, expected], ?_⟩
    cases fuel with
    | zero => omega
    | succ f =>
      refine ⟨itState (pre ++ [r]) 0 s0 s0, ?_⟩
      rw [Next, step_wrap pre r r0 tl v s0 he h01 h02]
  | succ m ih =>
    intro pre post r s e v s0 fuel hs he hsv hve hg hpost h0 hm hf
    have hge : ipToInt (ofBig e) = e := hg e (by omega) (le_refl _)
    cases fuel with
    | zero => omega
    | succ f =>
      by_cases hlt : v < e
      · -- the next address of the same range
        have hs0 : pre = [] → s0 ≤ v := by
          intro hp
          obtain ⟨r0, tl, h01, h02⟩ := h0
          subst hp
          simp only [List.nil_append, List.cons.injEq] at h01
          rw [← h01.1, hs] at h02
          have := ofBig_inj _ _ h02
          omega
        rw [Next_unfold f _ _ _ (step_inside pre post r e v s0 he (hg v hsv hve) hlt hs0),
          itemsAfter_step r v e post he hge hlt]
        simp only [itState]
        by_cases hgw : Equal (ofBig (v + 1)) r.Gateway = true
        · rw [if_pos hgw, if_pos hgw]
          rcases ih pre post r s e (v + 1) s0 f hs he (by omega) (by omega) hg hpost h0
            (by omega) (by omega) with h | h
          · exact Or.inl h
          · obtain ⟨pre', post', r', s', e', v', item, h1, h2, h3, h4, h5, h5', h6, h7, h8,
              h9⟩ := h
            exact Or.inr ⟨pre', post', r', s', e', v', item, h1, h2, h3, h4, h5, h5', h6,
              by omega, h8, h9⟩
        · rw [if_neg hgw, if_neg hgw]
          exact Or.inr ⟨pre, post, r, s, e, v + 1, _, rfl, hs, he, by omega, by omega, hg,
            hpost, by omega, rfl, rfl⟩
      · -- the start of the next range
        have hev : v = e := by omega
        subst hev
        cases post with
        | nil => simp only [totalSize] at hm; omega
        | cons r1 post1 =>
          have hb1 := hpost r1 (List.mem_cons_self _ _)
          obtain ⟨s1, e1, hs1, he1, hle1, _, hg1⟩ := Range.walkable_some r1 hb1
          have hgs1 := hg1 s1 (le_refl _) hle1
          have hge1 := hg1 e1 hle1 (le_refl _)
          have hpost1 : ∀ x ∈ post1, x.walkable := fun x hx =>
            hpost x (List.mem_cons_of_mem _ hx)
          have hsz : r1.size = e1 + 1 - s1 := by
            simp [Range.size, hs1, he1, hgs1, hge1]
          simp only [totalSize, hsz] at hm
          have hlist : pre ++ r :: r1 :: post1 = (pre ++ [r]) ++ r1 :: post1 := by simp
          have hlen : (pre ++ [r]).length = pre.length + 1 := by simp
          rw [Next_unfold f _ _ _ (step_next pre post1 r r1 v s1 s0 he hs1),
            itemsAfter_last r r1 v s1 e1 post1 he hge hs1 hgs1 he1 hge1 hle1]
          simp only [itState]
          by_cases hgw : Equal (ofBig s1) r1.Gateway = true
          · rw [if_pos hgw, if_pos hgw]
            have h0' : ∃ r0 tl, (pre ++ [r]) ++ r1 :: post1 = r0 :: tl ∧
                r0.RangeStart = ofBig s0 := by
              rw [← hlist]; exact h0
            have := ih (pre ++ [r]) post1 r1 s1 e1 s1 s0 f hs1 he1 (le_refl _) hle1 hg1 hpost1
              h0' (by omega) (by omega)
            rw [← hlist, hlen] at this
            rcases this with h | h
            · exact Or.inl h
            · obtain ⟨pre', post', r', s', e', v', item, h1, h2, h3, h4, h5, h5', h6, h7, h8,
                h9⟩ := h
              exact Or.inr ⟨pre', post', r', s', e', v', item, h1, h2, h3, h4, h5, h5', h6,
                by omega, h8, h9⟩
          · rw [if_neg hgw, if_neg hgw]
            refine Or.inr ⟨pre ++ [r], post1, r1, s1, e1, s1, _, hlist, hs1, he1, le_refl _,
              hle1, hg1, hpost1, by omega, rfl, ?_⟩
            rw [hlen]

theorem drain_from (m : Nat) : ∀ (pre post : RangeSet) (r : Range) (s e v s0 fuel : Nat),
    r.RangeStart = ofBig s → r.RangeEnd = ofBig e → s ≤ v → v ≤ e →
    (∀ n, s ≤ n → n ≤ e → ipToInt (ofBig n) = n) →
    (∀ x ∈ post, x.walkable) →
    (∃ r0 tl, pre ++ r :: post = r0 :: tl ∧ r0.RangeStart = ofBig s0) →
    (e - v) + totalSize post ≤ m → (e - v) + totalSize post < fuel →
    ∃ it', drain fuel ((itemsAfter r v post).length + 1)
        (itState (pre ++ r :: post) pre.length v s0) =
      some (itemsAfter r v post ++ [.exhausted], it') := by
  induction m with
  | zero =>
    intro pre post r s e v s0 fuel hs he hsv hve hg hpost h0 hm hf
    rcases Next_from _ pre post r s e v s0 fuel hs he hsv hve hg hpost h0 rfl hf with h | h
    · obtain ⟨h1, it', h2⟩ := h
      refine ⟨it', ?_⟩
      rw [h1]
      simp [drain, h2]
    · obtain ⟨_, _, _, _, _, _, _, _, _, _, _, _, _, _, h7, _⟩ := h
      omega
  | succ m ih =>
    intro pre post r s e v s0 fuel hs he hsv hve hg hpost h0 hm hf
    rcases Next_from _ pre post r s e v s0 fuel hs he hsv hve hg hpost h0 rfl hf with h | h
    · obtain ⟨h1, it', h2⟩ := h
      refine ⟨it', ?_⟩
      rw [h1]
      simp [drain, h2]
    · obtain ⟨pre', post', r', s', e', v', item, h1, h2, h3, h4, h5, h5', h6, h7, h8, h9⟩ := h
      have h0' : ∃ r0 tl, pre' ++ r' :: post' = r0 :: tl ∧ r0.RangeStart = ofBig s0 := by
        rw [← h1]; exact h0
      obtain ⟨it', hd⟩ := ih pre' post' r' s' e' v' s0 fuel h2 h3 h4 h5 h5' h6 h0'
        (by omega) (by omega)
      refine ⟨it', ?_⟩
      rw [h8]
      simp only [List.length_cons, List.cons_append]
      rw [drain, h9]
      simp only
      rw [h1, hd]

theorem drain_fresh (rs : RangeSet) (fuel : Nat) (hne : rs ≠ [])
    (hb : ∀ r ∈ rs, r.walkable) (hf : totalSize rs < fuel) :
    ∃ it', drain fuel ((expected rs).length + 1) (RangeIter.fresh rs) =
      some (expected rs ++ [.exhausted], it') := by
  cases rs with
  | nil => exact absurd rfl hne
  | cons r post =>
    obtain ⟨s, e, hs, he, hle, _, hg⟩ := Range.walkable_some r (hb r (List.mem_cons_self _ _))
    have hgs := hg s (le_refl _) hle
    have hge := hg e hle (le_refl _)
    have hpost : ∀ x ∈ post, x.walkable := fun x hx => hb x (List.mem_cons_of_mem _ hx)
    have hsz : r.size = e + 1 - s := by simp [Range.size, hs, he, hgs, hge]
    simp only [totalSize, hsz] at hf
    have hstep : step (RangeIter.fresh (r :: post)) =
        .test (itState (r :: post) 0 s s) r := by
      simp [step, RangeIter.fresh, itState, hs]
    have hexp : expected (r :: post) =
        if Equal (ofBig s) r.Gateway then itemsAfter r s post
        else NextResult.addr (ofBig s) r.Subnet.Mask r.Gateway :: itemsAfter r s post := by
      simp only [expected, rangeItems, hsz, hs, hgs, itemsAfter, he, hge]
      have : e + 1 - s = (e - s) + 1 := by omega
      rw [this, List.range'_succ, itemsOf_cons]
      split_ifs <;> simp
    have h0 : ∃ r0 tl, ([] : RangeSet) ++ r :: post = r0 :: tl ∧ r0.RangeStart = ofBig s :=
      ⟨r, post, rfl, hs⟩
    cases fuel with
    | zero => omega
    | succ f =>
      rw [hexp]
      by_cases hgw : Equal (ofBig s) r.Gateway = true
      · rw [if_pos hgw]
        have hnext : Next (f + 1) (RangeIter.fresh (r :: post)) =
            Next f (itState (r :: post) 0 s s) := by
          rw [Next_unfold f _ _ _ hstep]
          simp only [itState]
          rw [if_pos hgw]
        rcases Next_from _ [] post r s e s s f hs he (le_refl _) hle hg hpost h0 rfl (by omega)
          with h | h
        · obtain ⟨h1, it', h2⟩ := h
          refine ⟨it', ?_⟩
          rw [h1]
          simp only [List.length_nil, List.nil_append, drain, hnext]
          simp only [List.nil_append, List.length_nil] at h2
          rw [h2]
        · obtain ⟨pre', post', r', s', e', v', item, h1, h2, h3, h4, h5, h5', h6, h7, h8,
            h9⟩ := h
          have h0' : ∃ r0 tl, pre' ++ r' :: post' = r0 :: tl ∧ r0.RangeStart = ofBig s := by
            rw [← h1]; exact h0
          obtain ⟨it', hd⟩ := drain_from _ pre' post' r' s' e' v' s (f + 1) h2 h3 h4 h5 h5' h6
            h0' (le_refl _) (by omega)
          refine ⟨it', ?_⟩
          rw [h8]
          simp only [List.length_cons, List.cons_append]
          rw [drain, hnext]
          simp only [List.nil_append, List.length_nil] at h9 h1
          rw [h9]
          simp only
          rw [h1, hd]
      · rw [if_neg hgw]
        have hnext : Next (f + 1) (RangeIter.fresh (r :: post)) =
            some (.addr (ofBig s) r.Subnet.Mask r.Gateway, itState (r :: post) 0 s s) := by
          rw [Next_unfold f _ _ _ hstep]
          simp only [itState]
          rw [if_neg hgw]
        obtain ⟨it', hd⟩ := drain_from _ [] post r s e s s (f + 1) hs he (le_refl _) hle hg
          hpost h0 (le_refl _) (by omega)
        refine ⟨it', ?_⟩
        simp only [List.length_cons, List.cons_append]
        rw [drain, hnext]
        simp only
        simp only [List.nil_append, List.length_nil] at hd
        rw [hd]

theorem mem_rangeItems (r : Range) (hr : r.walkable) (x : NextResult) :
    x ∈ rangeItems r ↔
      ∃ v, r.covers v ∧ r.Gateway ≠ ofBig v ∧ x = .addr (ofBig v) r.Subnet.Mask r.Gateway := by
  obtain ⟨h1, h2, h3, h4, h5⟩ := r.walkable_spec hr
  unfold rangeItems itemsOf Range.covers Range.size
  simp only [List.mem_map, List.mem_filter, List.mem_range'_1, Bool.not_eq_true',
    ne_eq]
  constructor
  · rintro ⟨v, ⟨⟨h6, h7⟩, h8⟩, rfl⟩
    refine ⟨v, ⟨h6, by omega⟩, ?_, rfl⟩
    intro hgw
    have := (Equal_ofBig_left v r.Gateway (h5 v h6 (by omega)) (by omega)).mpr hgw
    rw [this] at h8
    cases h8
  · rintro ⟨v, ⟨h6, h7⟩, h8, rfl⟩
    refine ⟨v, ⟨⟨h6, by omega⟩, ?_⟩, rfl⟩
    cases hq : Equal (ofBig v) r.Gateway with
    | false => rfl
    | true => exact absurd ((Equal_ofBig_left v r.Gateway (h5 v h6 h7) (by omega)).mp hq) h8

theorem mem_expected (rs : RangeSet) (hw : ∀ r ∈ rs, r.walkable) (x : NextResult) :
    x ∈ expected rs ↔
      ∃ r ∈ rs, ∃ v, r.covers v ∧ r.Gateway ≠ ofBig v ∧
        x = .addr (ofBig v) r.Subnet.Mask r.Gateway := by
  induction rs with
  | nil => simp [expected]
  | cons r rest ih =>
    simp only [expected, List.mem_append,
      mem_rangeItems r (hw r (List.mem_cons_self _ _)),
      ih (fun y hy => hw y (List.mem_cons_of_mem _ hy)), List.mem_cons, exists_eq_or_imp]

theorem rangeItems_ascending (r : Range) (hr : r.walkable) :
    (rangeItems r).Pairwise (fun a b => ipToInt a.ip < ipToInt b.ip) := by
  obtain ⟨h1, h2, h3, h4, h5⟩ := r.walkable_spec hr
  unfold rangeItems itemsOf
  rw [List.pairwise_map]
  apply List.Pairwise.filter
  have := List.pairwise_lt_range' (ipToInt r.RangeStart) r.size
  refine List.Pairwise.imp_of_mem ?_ this
  intro a b ha hb hab
  rw [List.mem_range'_1] at ha hb
  unfold Range.size at ha hb
  simp only [NextResult.ip]
  rw [h5 a ha.1 (by omega), h5 b hb.1 (by omega)]
  exact hab

theorem expected_ascending (rs : RangeSet) (hw : ∀ r ∈ rs, r.walkable)
    (hc : rs.Pairwise gapBefore) :
    (expected rs).Pairwise (fun a b => ipToInt a.ip < ipToInt b.ip) := by
  induction rs with
  | nil => simp [expected]
  | cons r rest ih =>
    rw [List.pairwise_cons] at hc
    have hrest : ∀ y ∈ rest, y.walkable := fun y hy => hw y (List.mem_cons_of_mem _ hy)
    simp only [expected]
    rw [List.pairwise_append]
    refine ⟨rangeItems_ascending r (hw r (List.mem_cons_self _ _)), ih hrest hc.2, ?_⟩
    intro a ha b hb
    obtain ⟨v, hv, _, rfl⟩ := (mem_rangeItems r (hw r (List.mem_cons_self _ _)) a).mp ha
    obtain ⟨r1, hr1, v1, hv1, _, rfl⟩ := (mem_expected rest hrest b).mp hb
    have hg := hc.1 r1 hr1
    unfold gapBefore at hg
    obtain ⟨_, _, _, _, g5⟩ := r.walkable_spec (hw r (List.mem_cons_self _ _))
    obtain ⟨_, _, _, _, g6⟩ := r1.walkable_spec (hrest r1 hr1)
    unfold Range.covers at hv hv1
    simp only [NextResult.ip]
    rw [g5 v hv.1 hv.2, g6 v1 hv1.1 hv1.2]
    omega

theorem Next_lowStuck (fuel : Nat) :
    Next (fuel + 1) lowStuck = some (.addr (.big 1) net0.Mask .nil, lowStuck) := by
  rw [Next]
  rfl

theorem drain_lowStuck (n : Nat) : ∀ (fuel : Nat) (l : List NextResult) (it : RangeIter),
    drain fuel n lowStuck = some (l, it) → NextResult.exhausted ∉ l := by
  induction n with
  | zero =>
    intro fuel l it h
    simp only [drain, Option.some.injEq, Prod.mk.injEq] at h
    rw [← h.1]
    simp
  | succ n ih =>
    intro fuel l it h
    cases fuel with
    | zero => simp [drain, Next] at h
    | succ f =>
      rw [drain, Next_lowStuck f] at h
      simp only at h
      cases hd : drain (f + 1) n lowStuck with
      | none => rw [hd] at h; cases h
      | some p =>
        obtain ⟨l1, it1⟩ := p
        rw [hd] at h
        simp only [Option.some.injEq, Prod.mk.injEq] at h
        rw [← h.1]
        intro hm
        rcases List.mem_cons.mp hm with hm | hm
        · cases hm
        · exact ih (f + 1) l1 it1 hd hm

/-- C5, counterexample: the canonical set of the one range [0.0.0.5, 0.0.0.7] of
0.0.0.0/24, start <= end, no gateway. `Next` returns 0.0.0.5, then the one-byte slice 06
that `ip.NextIP` makes of it, then the one-byte slice 01, and the slice 01 again on every
later call: 0.0.0.6 and 0.0.0.7 are never returned, and no number of calls reports
exhaustion. -/
theorem Next_low_addresses_never_exhausted :
    lowPool.wf ∧
    drain 5 5 (RangeIter.fresh [lowPool]) =
      some ([.addr (.v4 5) net0.Mask .nil, .addr (.big 6) net0.Mask .nil,
             .addr (.big 1) net0.Mask .nil, .addr (.big 1) net0.Mask .nil,
             .addr (.big 1) net0.Mask .nil], lowStuck) ∧
    ¬ ∃ fuel n l it, drain fuel n (RangeIter.fresh [lowPool]) = some (l, it) ∧
      NextResult.exhausted ∈ l := by
  refine ⟨by decide, by decide, ?_⟩
  rintro ⟨fuel, n, l, it, h, hm⟩
  cases fuel with
  | zero =>
    cases n with
    | zero =>
      simp only [drain, Option.some.injEq, Prod.mk.injEq] at h
      rw [← h.1] at hm
      cases hm
    | succ n => simp [drain, Next] at h
  | succ f =>
    have h1 : Next (f + 1) (RangeIter.fresh [lowPool]) =
        some (.addr (.v4 5) net0.Mask .nil, lowAt (.v4 5)) := by
      rw [Next]; rfl
    have h2 : Next (f + 1) (lowAt (.v4 5)) =
        some (.addr (.big 6) net0.Mask .nil, lowAt (.big 6)) := by
      rw [Next]; rfl
    have h3 : Next (f + 1) (lowAt (.big 6)) =
        some (.addr (.big 1) net0.Mask .nil, lowStuck) := by
      rw [Next]; rfl
    cases n with
    | zero =>
      simp only [drain, Option.some.injEq, Prod.mk.injEq] at h
      rw [← h.1] at hm
      cases hm
    | succ n1 =>
      rw [drain, h1] at h
      simp only at h
      cases n1 with
      | zero =>
        simp only [drain, Option.some.injEq, Prod.mk.injEq] at h
        rw [← h.1] at hm
        simp at hm
      | succ n2 =>
        rw [drain, h2] at h
        simp only at h
        cases n2 with
        | zero =>
          simp only [drain, Option.some.injEq, Prod.mk.injEq] at h
          rw [← h.1] at hm
          simp at hm
        | succ n3 =>
          rw [drain, h3] at h
          simp only at h
          cases hd : drain (f + 1) n3 lowStuck with
          | none => rw [hd] at h; cases h
          | some p =>
            obtain ⟨l1, it1⟩ := p
            rw [hd] at h
            simp only [Option.some.injEq, Prod.mk.injEq] at h
            rw [← h.1] at hm
            have := drain_lowStuck n3 (f + 1) l1 it1 hd
            simp at hm
            exact this hm

/-- C5, amended. On a non-empty range set in canonical form whose ranges have start <= end
and run over IPv4 addresses from 1.0.0.0 on (or over IPv6 addresses with a non-zero first
byte), the calls of `Next` on a fresh iterator return the results `expected rs` one after
the other and then report exhaustion; enough fuel for the gateway-skipping recursion is one
unit per address of the set. The results are in strictly ascending order of address, so
each comes exactly once, and they are exactly the addresses of the ranges that are not
equal to the gateway of their range, each with the mask and the gateway of its range. -/
theorem Next_visits_each_once (rs : RangeSet) (fuel : Nat) (hne : rs ≠ [])
    (hb : ∀ r ∈ rs, r.walkable)
    (hc : rs.Pairwise (fun a b => ipToInt a.RangeEnd + 1 < ipToInt b.RangeStart))
    (hf : totalSize rs < fuel) :
    (∃ it', drain fuel ((expected rs).length + 1) (RangeIter.fresh rs) =
      some (expected rs ++ [.exhausted], it')) ∧
    (expected rs).Pairwise (fun a b => ipToInt a.ip < ipToInt b.ip) ∧
    (∀ x, x ∈ expected rs ↔
      ∃ r ∈ rs, ∃ v, (ipToInt r.RangeStart ≤ v ∧ v ≤ ipToInt r.RangeEnd) ∧
        r.Gateway ≠ ofBig v ∧ x = .addr (ofBig v) r.Subnet.Mask r.Gateway) :=
  ⟨drain_fresh rs fuel hne hb hf, expected_ascending rs hb hc, mem_expected rs hb⟩

/-- C5, witness: the pool [10.0.1.1, 10.0.1.3] with gateway 10.0.1.1 yields 10.0.1.2,
10.0.1.3 and then exhaustion. -/
theorem Next_visits_each_once_witness :
    expected gatewayPool =
      [.addr (.v4 0x0a000102) net24.Mask (.v4 0x0a000101),
       .addr (.v4 0x0a000103) net24.Mask (.v4 0x0a000101)] ∧
    ∃ it', drain 4 ((expected gatewayPool).length + 1) (RangeIter.fresh gatewayPool) =
      some (expected gatewayPool ++ [.exhausted], it') :=
  ⟨by decide,
    (Next_visits_each_once gatewayPool 4 (by decide) (by decide) (by decide) (by decide)).1⟩

theorem cutAt_eq (c : Char) (s : List Char) : ∀ l r, cutAt c s = some (l, r) →
    s = l ++ c :: r := by
  induction s with
  | nil => intro l r h; simp [cutAt] at h
  | cons d ds ih =>
    intro l r h
    unfold cutAt at h
    split_ifs at h with hd
    · simp at h
      obtain ⟨h1, h2⟩ := h
      subst h1 h2 hd
      rfl
    · cases hc : cutAt c ds with
      | none => simp [hc] at h
      | some p =>
        obtain ⟨l1, r1⟩ := p
        simp [hc] at h
        obtain ⟨h1, h2⟩ := h
        subst h1 h2
        rw [ih l1 r1 hc]
        rfl

theorem ParseCIDR_chars (s : List Char) (h : ParseCIDR s ≠ none) :
    ∀ c ∈ s, ipChar c ∨ c = '/' := by
  unfold ParseCIDR at h
  cases hc : cutAt '/' s with
  | none => simp [hc] at h
  | some p =>
    obtain ⟨l, r⟩ := p
    simp only [hc] at h
    have hs := cutAt_eq '/' s l r hc
    have hl : ∀ c ∈ l, ipChar c := by
      cases hp : parseIPv4 l with
      | v4 ip =>
        intro c hcm
        exact quadChar_ipChar c ((parseIPv4_chars l (by rw [hp]; simp)).2 c hcm)
      | nil =>
        cases h6 : parseIPv6Num l with
        | none => simp [hp, h6] at h
        | some x => exact parseIPv6Num_chars l x h6
      | v6 n =>
        cases h6 : parseIPv6Num l with
        | none => simp [hp, h6] at h
        | some x => exact parseIPv6Num_chars l x h6
      | big n =>
        cases h6 : parseIPv6Num l with
        | none => simp [hp, h6] at h
        | some x => exact parseIPv6Num_chars l x h6
    have hr : ∀ c ∈ r, ipChar c := by
      cases hd : dtoi r with
      | none =>
        exfalso
        apply h
        cases parseIPv4 l <;> cases parseIPv6Num l <;> simp [hd]
      | some q =>
        obtain ⟨n, rest⟩ := q
        cases rest with
        | cons x xs =>
          exfalso
          apply h
          cases parseIPv4 l <;> cases parseIPv6Num l <;> simp [hd]
        | nil =>
          obtain ⟨ds, e, _, hds⟩ := dtoi_chars r n [] hd
          intro c hcm
          rw [e] at hcm
          simp only [List.append_nil] at hcm
          exact quadChar_ipChar c (Or.inl (hds c hcm))
    intro c hcm
    rw [hs] at hcm
    rcases List.mem_append.mp hcm with hm | hm
    · exact Or.inl (hl c hm)
    · rcases List.mem_cons.mp hm with hm | hm
      · exact Or.inr hm
      · exact Or.inl (hr c hm)

theorem RouteEntry.split (a : Allocator) (e : RouteEntry) (h : e.wellFormed a) :
    Split ',' e.text = [e.cidr, e.gw] := by
  have h1 : ',' ∉ e.cidr := by
    intro hm
    rcases ParseCIDR_chars e.cidr h.1 _ hm with hq | hq
    · exact ipChar_ne _ ',' hq (by decide) rfl
    · revert hq; decide
  have h2 : ',' ∉ e.gw := not_mem_of_ipChar e.gw _ (ParseIP_chars e.gw h.2.1).2 (by decide)
  unfold RouteEntry.text
  rw [Split_append _ _ _ h1, Split_not_mem _ _ h2]

theorem RouteEntry.no_semicolon (a : Allocator) (e : RouteEntry) (h : e.wellFormed a) :
    ';' ∉ e.text := by
  intro hm
  unfold RouteEntry.text at hm
  rcases List.mem_append.mp hm with hm | hm
  · rcases ParseCIDR_chars e.cidr h.1 _ hm with hq | hq
    · exact ipChar_ne _ ';' hq (by decide) rfl
    · revert hq; decide
  · rcases List.mem_cons.mp hm with hm | hm
    · revert hm; decide
    · exact not_mem_of_ipChar e.gw _ (ParseIP_chars e.gw h.2.1).2 (by decide) hm

theorem routesLoop_entries (a : Allocator) (es : List RouteEntry) :
    ∀ ret : Result, (∀ e ∈ es, e.wellFormed a) →
      routesLoop a (es.map RouteEntry.text) ret =
        ({ ret with Routes := ret.Routes ++ routesOf es }, none) := by
  induction es with
  | nil => intro ret _; simp [routesLoop, routesOf]
  | cons e es ih =>
    intro ret hw
    have he := hw e (List.mem_cons_self _ _)
    obtain ⟨h1, h2, h3⟩ := he
    cases hd : ParseCIDR e.cidr with
    | none => exact absurd hd h1
    | some dst =>
      simp only [List.map_cons, routesLoop, RouteEntry.split a e (hw e (List.mem_cons_self _ _)),
        List.headD_cons, hd, List.getElem?_cons_succ, List.getElem?_cons_zero, h2, if_false, h3,
        Bool.not_true, Bool.false_eq_true]
      rw [ih _ (fun x hx => hw x (List.mem_cons_of_mem _ hx))]
      simp [routesOf, List.filterMap_cons, hd]

/-- C15. For a routes annotation made of well-formed entries `dst_cidr,gw_ip` joined by
semicolons, every gateway lying in the subnet of the allocator, `CustomizeRoutes` appends
to the routes of the result the default route 0.0.0.0/0 through the gateway of the
allocator and then one route per entry, in the order of the annotation, and returns no
error; with no routes annotation it appends the default route only. -/
theorem CustomizeRoutes_appends (a : Allocator) (ret : Result) (es : List RouteEntry)
    (hw : ∀ e ∈ es, e.wellFormed a) (ha : a.customized.get customizeRoutesKey = routesText es) :
    CustomizeRoutes a ret =
      ({ Routes := ret.Routes ++ { Dst := net4 0 0, GW := a.gateway } ::
          routesOf es }, none) := by
  unfold CustomizeRoutes
  cases es with
  | nil =>
    have : a.customized.get customizeRoutesKey = [] := by rw [ha]; rfl
    simp [this, routesOf, defaultRoute, net4]
  | cons e es =>
    have hne : a.customized.get customizeRoutesKey ≠ [] := by
      rw [ha]
      intro h
      have : ',' ∈ routesText (e :: es) :=
        mem_Join ';' _ e.text ',' (by simp) (by simp [RouteEntry.text])
      rw [h] at this
      simp at this
    have hsplit : Split ';' (routesText (e :: es)) = (e :: es).map RouteEntry.text := by
      unfold routesText
      apply Split_Join
      · simp
      · intro t ht
        obtain ⟨x, hx, rfl⟩ := List.mem_map.mp ht
        exact RouteEntry.no_semicolon a x (hw x hx)
    rw [if_pos hne, ha, hsplit, routesLoop_entries a (e :: es) _ hw]
    simp [defaultRoute, net4]

/-- C15, witness: the annotation "10.0.5.0/24,10.0.1.7;10.0.6.0/24,10.0.1.8" with gateway
10.0.1.1 gives the default route and the two routes of the annotation. -/
theorem CustomizeRoutes_appends_witness :
    CustomizeRoutes allocRoutes { Routes := [] } =
      ({ Routes := [{ Dst := net4 0 0, GW := .v4 0x0a000101 },
                    { Dst := net4 0x0a000500 0xffffff00, GW := .v4 0x0a000107 },
                    { Dst := net4 0x0a000600 0xffffff00, GW := .v4 0x0a000108 }] },
       none) :=
  CustomizeRoutes_appends allocRoutes { Routes := [] }
    [⟨"10.0.5.0/24".toList, "10.0.1.7".toList⟩, ⟨"10.0.6.0/24".toList, "10.0.1.8".toList⟩]
    (by decide) (by decide)

/-- C16, the failing input: the routes annotation "10.0.5.0/24" has a valid destination and
no gateway; `CustomizeRoutes` returns no error for it but panics on the index expression
`strings.Split(r, ",")[1]`, after it has appended the default route. -/
theorem CustomizeRoutes_missing_gateway_panics :
    CustomizeRoutes allocRouteNoGateway { Routes := [] } =
      ({ Routes := [{ Dst := net4 0 0, GW := .v4 0x0a000101 }] },
       some .panic) := by
  decide

/-- The other malformed entries do get an error: after any well-formed entries, an entry
whose destination is no CIDR, or whose gateway text is no address or lies outside the
subnet, ends the loop with an error that is not a panic. -/
theorem routesLoop_malformed_error (a : Allocator) (good : List RouteEntry) (bad : List Char)
    (rest : List (List Char)) (ret : Result) (hw : ∀ e ∈ good, e.wellFormed a)
    (hbad : ParseCIDR ((Split ',' bad).headD []) = none ∨
      ∃ g, (Split ',' bad)[1]? = some g ∧
        (ParseIP g = .nil ∨ a.subnet.Contains (ParseIP g) = false)) :
    ∃ e ret1, routesLoop a (good.map RouteEntry.text ++ bad :: rest) ret = (ret1, some e) ∧
      e ≠ .panic := by
  induction good generalizing ret with
  | nil =>
    simp only [List.map_nil, List.nil_append, routesLoop]
    cases hd : ParseCIDR ((Split ',' bad).headD []) with
    | none => exact ⟨.invalidRoute, ret, rfl, by simp⟩
    | some dst =>
      rcases hbad with h | ⟨g, hg, h⟩
      · rw [hd] at h; cases h
      · simp only [hg]
        rcases h with h | h
        · exact ⟨.invalidRoute, ret, by simp [h], by simp⟩
        · by_cases hn : ParseIP g = .nil
          · exact ⟨.invalidRoute, ret, by simp [hn], by simp⟩
          · exact ⟨.gatewayNotInNetwork, ret, by simp [hn, h], by simp⟩
  | cons e es ih =>
    have he := hw e (List.mem_cons_self _ _)
    obtain ⟨h1, h2, h3⟩ := he
    cases hd : ParseCIDR e.cidr with
    | none => exact absurd hd h1
    | some dst =>
      simp only [List.map_cons, List.cons_append, routesLoop,
        RouteEntry.split a e (hw e (List.mem_cons_self _ _)),
        List.headD_cons, hd, List.getElem?_cons_succ, List.getElem?_cons_zero, h2, if_false, h3,
        Bool.not_true, Bool.false_eq_true]
      exact ih _ (fun x hx => hw x (List.mem_cons_of_mem _ hx))

theorem serviceLoop_none (a : Allocator) (dst : IPNet) (l : List (List Char)) (ret : Result)
    (h : ∀ m ∈ l, a.subnet.Contains (ParseIP m) = false) : serviceLoop a dst l ret = ret := by
  induction l with
  | nil => rfl
  | cons m l ih =>
    simp only [serviceLoop, h m (List.mem_cons_self _ _), Bool.false_eq_true, if_false]
    exact ih (fun x hx => h x (List.mem_cons_of_mem _ hx))

theorem serviceLoop_first (a : Allocator) (dst : IPNet) (pre : List (List Char))
    (n : List Char) (post : List (List Char)) (ret : Result)
    (hpre : ∀ m ∈ pre, a.subnet.Contains (ParseIP m) = false)
    (hn : a.subnet.Contains (ParseIP n) = true) :
    serviceLoop a dst (pre ++ n :: post) ret =
      { ret with Routes := ret.Routes ++ [{ Dst := dst, GW := ParseIP n }] } := by
  induction pre with
  | nil => simp [serviceLoop, hn]
  | cons m l ih =>
    simp only [List.cons_append, serviceLoop, hpre m (List.mem_cons_self _ _),
      Bool.false_eq_true, if_false]
    exact ih (fun x hx => hpre x (List.mem_cons_of_mem _ hx))

/-- C17. For a valid, non-empty service CIDR `AddServiceRoute` appends exactly one route,
from the service network through the first node address of the list that lies within the
subnet of the allocator, and appends nothing when no node address lies within it; it never
returns an error then. For an empty service CIDR it returns the result unchanged. -/
theorem AddServiceRoute_first_node (a : Allocator) (ret : Result) (cidr : List Char)
    (dst : IPNet) (hc : cidr ≠ []) (hd : ParseCIDR cidr = some dst) :
    (∀ (pre : List (List Char)) (n : List Char) (post : List (List Char)),
      (∀ m ∈ pre, a.subnet.Contains (ParseIP m) = false) →
      a.subnet.Contains (ParseIP n) = true →
      AddServiceRoute a ret cidr (pre ++ n :: post) =
        ({ Routes := ret.Routes ++ [{ Dst := dst, GW := ParseIP n }] }, none)) ∧
    (∀ nodeIPs : List (List Char), (∀ m ∈ nodeIPs, a.subnet.Contains (ParseIP m) = false) →
      AddServiceRoute a ret cidr nodeIPs = (ret, none)) ∧
    (∀ nodeIPs : List (List Char), AddServiceRoute a ret [] nodeIPs = (ret, none)) := by
  refine ⟨?_, ?_, ?_⟩
  · intro pre n post hpre hn
    unfold AddServiceRoute
    rw [if_neg hc, hd]
    simp only
    rw [serviceLoop_first a dst pre n post ret hpre hn]
  · intro nodeIPs hall
    unfold AddServiceRoute
    rw [if_neg hc, hd]
    simp only
    rw [serviceLoop_none a dst nodeIPs ret hall]
  · intro nodeIPs
    rfl

/-- C17, witness: with the service network 10.96.0.0/12 and the node addresses
192.168.1.1, ::ffff:10.0.1.9 (the IPv4 address 10.0.1.9 in IPv6 text) and 10.0.1.10, the
route goes through 10.0.1.9. -/
theorem AddServiceRoute_first_node_witness :
    AddServiceRoute alloc24 { Routes := [] } "10.96.0.0/12".toList
        (["192.168.1.1".toList] ++ "::ffff:10.0.1.9".toList :: ["10.0.1.10".toList]) =
      ({ Routes := [] ++ [{ Dst := net4 0x0a600000 0xfff00000,
                            GW := ParseIP "::ffff:10.0.1.9".toList }] }, none) ∧
    ParseIP "::ffff:10.0.1.9".toList = .v4 0x0a000109 :=
  ⟨(AddServiceRoute_first_node alloc24 { Routes := [] } "10.96.0.0/12".toList
      (net4 0x0a600000 0xfff00000) (by decide) (by decide)).1
      ["192.168.1.1".toList] "::ffff:10.0.1.9".toList ["10.0.1.10".toList] (by decide)
      (by decide),
    by decide⟩

/-- An IPv6 service network is a valid service CIDR as well: with fd00::/108 the route to it
goes through the first node address within the subnet. -/
theorem AddServiceRoute_ipv6_service :
    AddServiceRoute alloc24 { Routes := [] } "fd00::/108".toList
        ["192.168.1.1".toList, "10.0.1.9".toList] =
      ({ Routes := [{ Dst := { IP := 0xfd00 * 2 ^ 112,
                               Mask := { val := 2 ^ 128 - 2 ^ 20, wide := true } },
                      GW := .v4 0x0a000109 }] }, none) := by
  decide

/-- C18, counterexample: a map that carries the range key with an empty value is accepted,
`NewAllocator` succeeds; and with a malformed subnet annotation the error is the one of the
subnet, not the not-implemented error of the range. -/
theorem NewAllocator_range_key_accepted :
    NewAllocator etcdStore "web".toList "default".toList
        [(customizeSubnetKey, "10.0.1.0/24".toList), (customizeRangeKey, [])] etcdGateway =
      (.ok { pod := "web".toList, namespace_ := "default".toList,
             customized := [(customizeSubnetKey, "10.0.1.0/24".toList), (customizeRangeKey, [])],
             subnet := net24, gateway := .v4 0x0a000101 }, etcdGateway) ∧
    NewAllocator etcdStore "web".toList "default".toList
        [(customizeSubnetKey, "10.0.1.0".toList), (customizeRangeKey, "10.0.1.[2-8]".toList)]
        etcdGateway =
      (.error .invalidSubnet, etcdGateway) := by
  decide

/-- C18, amended. Whenever the customization map carries a non-empty value under the range
key, `NewAllocator` returns an error and no allocator, whatever the other entries and the
store, which it does not touch: the not-implemented error when the subnet annotation is
empty or a valid CIDR, the invalid-subnet error when it is malformed. -/
theorem NewAllocator_range_not_implemented {σ : Type} (S : Store σ) (pod ns : List Char)
    (customized : StringMap) (st : σ) (hr : customized.get customizeRangeKey ≠ []) :
    ((customized.get customizeSubnetKey = [] ∨
        ParseCIDR (customized.get customizeSubnetKey) ≠ none) →
      NewAllocator S pod ns customized st = (.error .notImplemented, st)) ∧
    ((customized.get customizeSubnetKey ≠ [] ∧
        ParseCIDR (customized.get customizeSubnetKey) = none) →
      NewAllocator S pod ns customized st = (.error .invalidSubnet, st)) := by
  constructor
  · intro h
    unfold NewAllocator
    by_cases hs : customized.get customizeSubnetKey = []
    · simp [hs, hr]
    · rcases h with h | h
      · exact absurd h hs
      · cases hc : ParseCIDR (customized.get customizeSubnetKey) with
        | none => exact absurd hc h
        | some n => simp [hs, hr]
  · rintro ⟨hs, hc⟩
    unfold NewAllocator
    simp [hs, hc]

/-- C18, witness of the amended claim: the range annotation "10.0.1.[2-8]" with the subnet
annotation 10.0.1.0/24. -/
theorem NewAllocator_range_not_implemented_witness :
    NewAllocator etcdStore "web".toList "default".toList
        [(customizeSubnetKey, "10.0.1.0/24".toList), (customizeRangeKey, "10.0.1.[2-8]".toList)]
        etcdGateway =
      (.error .notImplemented, etcdGateway) :=
  (NewAllocator_range_not_implemented etcdStore "web".toList "default".toList
    [(customizeSubnetKey, "10.0.1.0/24".toList), (customizeRangeKey, "10.0.1.[2-8]".toList)]
    etcdGateway (by decide)).1 (Or.inr (by decide))

/-- An IPv6 subnet annotation is a valid CIDR: with fd00::/64 and a range annotation the
error is the not-implemented one. -/
theorem NewAllocator_range_ipv6_subnet :
    NewAllocator etcdStore "web".toList "default".toList
        [(customizeSubnetKey, "fd00::/64".toList), (customizeRangeKey, "fd00::[2-8]".toList)]
        etcdGateway =
      (.error .notImplemented, etcdGateway) := by
  decide

/-- C20, counterexample: when the container is bound already, reserve overwrites its
binding and release deletes it: the binding set ends up empty, not as it was. -/
theorem Reserve_Release_loses_binding :
    ((etcdBound.Reserve "c1".toList (.v4 0x0a000105) "p9".toList "default".toList
        "unknown".toList).2.Release "c1".toList).2.kvs = [] ∧
    etcdBound.kvs = [("/anchor/cn/c1".toList, "10.0.1.2,p1,default,unknown".toList)] := by
  decide

theorem filter_putKV (k v : List Char) (l : List (List Char × List Char))
    (h : ∀ kv ∈ l, kv.1 ≠ k) : (putKV k v l).filter (fun kv => kv.1 ≠ k) = l := by
  induction l with
  | nil => simp [putKV]
  | cons x l ih =>
    obtain ⟨k1, v1⟩ := x
    have hk : k1 ≠ k := h (k1, v1) (List.mem_cons_self _ _)
    have hl : ∀ kv ∈ l, kv.1 ≠ k := fun kv hkv => h kv (List.mem_cons_of_mem _ hkv)
    have hfl : l.filter (fun kv => decide (kv.1 ≠ k)) = l := by
      rw [List.filter_eq_self]
      intro kv hkv
      simpa using hl kv hkv
    unfold putKV
    rw [if_neg (fun e => hk e.symm)]
    split_ifs
    · rw [List.filter_cons, if_neg (by simp), List.filter_cons, if_pos (by simpa using hk), hfl]
    · rw [List.filter_cons, if_pos (by simpa using hk), ih hl]

/-- C20, amended. For every state of the store that holds no binding for the container id,
and all record fields, reserve followed by release of the id leaves the store, and so the
binding set, as it was before the reserve. -/
theorem Reserve_Release_unchanged (e : Etcd) (id : List Char) (ip : IP)
    (pod ns ctrl : List Char) (hfresh : ∀ kv ∈ e.kvs, kv.1 ≠ ipsPrefix ++ id) :
    ((e.Reserve id ip pod ns ctrl).2.Release id).2 = e := by
  unfold Etcd.Reserve Etcd.Release Etcd.Put Etcd.Delete
  by_cases hp : e.putFails = true
  · simp [hp]
  · have hpf : e.putFails = false := by simpa using hp
    simp only [hpf, Bool.false_eq_true, if_false]
    have := filter_putKV (ipsPrefix ++ id)
      (IPString ip ++ ',' :: (pod ++ ',' :: (ns ++ ',' :: ctrl))) e.kvs hfresh
    simp only [this]
    cases e
    simp_all

/-- C20, witness of the amended claim: reserve and release of c2 in a store that binds
c1. -/
theorem Reserve_Release_unchanged_witness :
    ((etcdBound.Reserve "c2".toList (.v4 0x0a000105) "p9".toList "default".toList
        "unknown".toList).2.Release "c2".toList).2 = etcdBound :=
  Reserve_Release_unchanged etcdBound "c2".toList (.v4 0x0a000105) "p9".toList
    "default".toList "unknown".toList (by decide)

set_option maxRecDepth 100000 in
theorem uitoa_octet : ∀ n, n < 256 →
    (dtoiLoop 0 (uitoa n) = some (n, []) ∧ (uitoa n).all isDigit = true ∧ uitoa n ≠ []) := by
  decide

theorem dtoiLoop_append (ds : List Char) : ∀ (acc m : Nat) (rest : List Char),
    (∀ c ∈ ds, isDigit c = true) → dtoiLoop acc ds = some (m, []) →
    (∀ c ∈ rest.head?, isDigit c = false) →
    dtoiLoop acc (ds ++ rest) = some (m, rest) := by
  induction ds with
  | nil =>
    intro acc m rest _ h hr
    simp [dtoiLoop] at h
    subst h
    cases rest with
    | nil => rfl
    | cons c cs =>
      have : isDigit c = false := hr c (by simp)
      simp [dtoiLoop, this]
  | cons d ds ih =>
    intro acc m rest hd h hr
    have hdd : isDigit d = true := hd d (List.mem_cons_self _ _)
    simp only [List.cons_append, dtoiLoop, hdd, if_true] at h ⊢
    split_ifs at h ⊢ with ho
    exact ih _ m rest (fun c hc => hd c (List.mem_cons_of_mem _ hc)) h hr

theorem dtoi_uitoa (n : Nat) (hn : n < 256) (rest : List Char)
    (hr : ∀ c ∈ rest.head?, isDigit c = false) : dtoi (uitoa n ++ rest) = some (n, rest) := by
  obtain ⟨h1, h2, h3⟩ := uitoa_octet n hn
  have hall : ∀ c ∈ uitoa n, isDigit c = true := by
    intro c hc
    exact List.all_eq_true.mp h2 c hc
  cases hu : uitoa n with
  | nil => exact absurd hu h3
  | cons c cs =>
    have hc : isDigit c = true := hall c (by rw [hu]; simp)
    simp only [List.cons_append, dtoi, hc, if_true]
    have := dtoiLoop_append (uitoa n) 0 n rest hall h1 hr
    rw [hu] at this
    exact this

theorem parseOctet_first (n : Nat) (hn : n < 256) (rest : List Char)
    (hr : ∀ c ∈ rest.head?, isDigit c = false) :
    parseOctet true (uitoa n ++ rest) = some (n, rest) := by
  have hd := dtoi_uitoa n hn rest hr
  obtain ⟨_, _, h3⟩ := uitoa_octet n hn
  cases hu : uitoa n ++ rest with
  | nil => simp at hu; exact absurd hu.1 h3
  | cons c cs =>
    rw [hu] at hd
    simp only [parseOctet, if_true, hd]
    rw [if_neg (by omega)]

theorem parseOctet_next (n : Nat) (hn : n < 256) (rest : List Char)
    (hr : ∀ c ∈ rest.head?, isDigit c = false) :
    parseOctet false ('.' :: (uitoa n ++ rest)) = some (n, rest) := by
  have hd := dtoi_uitoa n hn rest hr
  simp only [parseOctet, Bool.false_eq_true, if_false, if_true, hd]
  rw [if_neg (by omega)]

theorem parseIPv4_dotted (a b c d : Nat) (ha : a < 256) (hb : b < 256) (hc : c < 256)
    (hd : d < 256) : parseIPv4 (dotted a b c d) = .v4 (((a * 256 + b) * 256 + c) * 256 + d) := by
  have hdot : ∀ (t : List Char), ∀ x ∈ ('.' :: t).head?, isDigit x = false := by
    intro t x hx
    simp at hx
    subst hx
    decide
  unfold parseIPv4 dotted
  rw [parseOctet_first a ha _ (hdot _)]
  simp only
  rw [parseOctet_next b hb _ (hdot _)]
  simp only
  rw [parseOctet_next c hc _ (hdot _)]
  simp only
  have h4 := parseOctet_next d hd [] (by simp)
  simp only [List.append_nil] at h4
  rw [h4]
  simp

theorem find_dotted (a : Nat) (ha : a < 256) (rest : List Char) :
    (uitoa a ++ '.' :: rest).find? (fun c => c = '.' || c = ':') = some '.' := by
  obtain ⟨_, h2, _⟩ := uitoa_octet a ha
  have hall : ∀ c ∈ uitoa a, isDigit c = true := fun c hc => List.all_eq_true.mp h2 c hc
  generalize uitoa a = l at hall
  induction l with
  | nil => simp
  | cons x xs ih =>
    have hx := hall x (List.mem_cons_self _ _)
    have h1 : x ≠ '.' := fun e => by subst e; revert hx; decide
    have h2 : x ≠ ':' := fun e => by subst e; revert hx; decide
    simp only [List.cons_append, List.find?_cons, h1, h2, decide_False, Bool.or_self]
    exact ih (fun c hc => hall c (List.mem_cons_of_mem _ hc))

theorem ParseIP_dotted (a b c d : Nat) (ha : a < 256) (hb : b < 256) (hc : c < 256)
    (hd : d < 256) : ParseIP (dotted a b c d) = .v4 (((a * 256 + b) * 256 + c) * 256 + d) := by
  unfold ParseIP
  have hf : (dotted a b c d).find? (fun c => c = '.' || c = ':') = some '.' :=
    find_dotted a ha _
  rw [hf]
  simp only [if_true]
  exact parseIPv4_dotted a b c d ha hb hc hd

theorem IPString_eq_dotted (n : Nat) :
    IPString (.v4 n) = dotted (n / 2 ^ 24) (n / 2 ^ 16 % 256) (n / 2 ^ 8 % 256) (n % 256) := rfl

theorem ParseIP_IPString (n : Nat) (hn : n < 2 ^ 32) : ParseIP (IPString (.v4 n)) = .v4 n := by
  rw [IPString_eq_dotted n, ParseIP_dotted _ _ _ _ (by omega) (by omega) (by omega) (by omega)]
  congr 1
  omega

theorem candidateLoop_sound {σ : Type} (S : Store σ) (a : Allocator) (id : List Char)
    (used : RangeSet)
    (hS : ∀ (it : IP) (st : σ),
      (S.Reserve id it a.pod a.namespace_ (controllerName a) st).1.2 = none)
    (fuel : Nat) : ∀ (iter stop : IP) (st : σ) (res : Option IPConfig) (err1 : Option Error)
      (st1 : σ),
    candidateLoop S a id used fuel iter stop none st = some (res, err1, st1) →
    err1 = none ∧
    ((res = none ∧ st1 = st) ∨
     ∃ it f, res = some (ipConfigOf a it) ∧ availLoop f it used true = some true ∧
       st1 = (S.Reserve id it a.pod a.namespace_ (controllerName a) st).2) := by
  induction fuel with
  | zero => intro iter stop st res err1 st1 h; simp [candidateLoop] at h
  | succ f ih =>
    intro iter stop st res err1 st1 h
    unfold candidateLoop at h
    by_cases h1 : Equal iter stop = true
    · rw [if_pos h1] at h
      simp at h
      obtain ⟨h2, h3, h4⟩ := h
      exact ⟨h3.symm, Or.inl ⟨h2.symm, h4.symm⟩⟩
    · rw [if_neg h1] at h
      cases hav : availLoop f iter used true with
      | none => simp [hav] at h
      | some avail =>
        simp only [hav] at h
        cases avail with
        | false =>
          simp only [Bool.false_eq_true, if_false] at h
          exact ih _ _ _ _ _ _ h
        | true =>
          simp only [if_true, ne_eq, not_true_eq_false, if_false] at h
          by_cases h2 : Equal iter a.gateway = true
          · rw [if_pos h2] at h
            exact ih _ _ _ _ _ _ h
          · rw [if_neg h2] at h
            have h3 := hS iter st
            rw [if_neg (by simp [h3])] at h
            simp at h
            obtain ⟨h4, h5, h6⟩ := h
            refine ⟨by rw [← h5]; exact h3, Or.inr ⟨iter, f, ?_, hav, h6.symm⟩⟩
            rw [← h4]; rfl

theorem poolLoop_sound {σ : Type} (S : Store σ) (a : Allocator) (id : List Char)
    (used : RangeSet)
    (hS : ∀ (it : IP) (st : σ),
      (S.Reserve id it a.pod a.namespace_ (controllerName a) st).1.2 = none)
    (fuel : Nat) (pool : RangeSet) : ∀ (st : σ) (cfg : IPConfig) (err1 : Option Error) (st1 : σ),
    poolLoop S a id used fuel pool none st = some (some cfg, err1, st1) →
    ∃ it f, cfg = ipConfigOf a it ∧ availLoop f it used true = some true ∧
      st1 = (S.Reserve id it a.pod a.namespace_ (controllerName a) st).2 := by
  induction pool with
  | nil => intro st cfg err1 st1 h; simp [poolLoop] at h
  | cons r rest ih =>
    intro st cfg err1 st1 h
    unfold poolLoop at h
    cases hc : candidateLoop S a id used fuel r.RangeStart (NextIP r.RangeEnd) none st with
    | none => simp [hc] at h
    | some p =>
      obtain ⟨res, e2, st2⟩ := p
      obtain ⟨he, hres⟩ := candidateLoop_sound S a id used hS fuel _ _ _ _ _ _ hc
      subst he
      rcases hres with ⟨h1, h2⟩ | ⟨it, f, h1, h2, h3⟩
      · subst h1 h2
        simp only [hc] at h
        exact ih _ _ _ _ h
      · subst h1
        simp only [hc] at h
        simp at h
        obtain ⟨h4, _, h6⟩ := h
        exact ⟨it, f, h4.symm, h2, by rw [← h6, h3]⟩

theorem Allocate_sound {σ : Type} (S : Store σ) (canonicalize : Range → Option Error)
    (a : Allocator) (id : List Char) (fuel : Nat) (st st' : σ) (cfg : IPConfig)
    (hS : ∀ (it : IP) (st : σ),
      (S.Reserve id it a.pod a.namespace_ (controllerName a) st).1.2 = none)
    (h : Allocate S canonicalize a id fuel st = some (.ok cfg, st')) :
    ∃ pool used st1 st2 it f,
      S.RetrieveAllocated a.namespace_ a.subnet (S.Lock st) = (.ok pool, st1) ∧
      S.RetrieveUsed a.namespace_ a.subnet st1 = (.ok used, st2) ∧
      cfg = ipConfigOf a it ∧ availLoop f it used true = some true ∧
      st' = S.Unlock (S.Reserve id it a.pod a.namespace_ (controllerName a) st2).2 := by
  unfold Allocate at h
  cases hl : allocateLocked S canonicalize a id fuel (S.Lock st) with
  | none => simp [hl] at h
  | some p =>
    obtain ⟨res, st3⟩ := p
    simp only [hl] at h
    simp at h
    obtain ⟨h1, h2⟩ := h
    subst h1 h2
    unfold allocateLocked at hl
    cases hp : S.RetrieveAllocated a.namespace_ a.subnet (S.Lock st) with
    | mk rp st1 =>
      cases rp with
      | error e => simp [hp] at hl
      | ok pool =>
        simp only [hp] at hl
        cases hcp : checkRanges canonicalize a.gateway pool with
        | some e => simp [hcp] at hl
        | none =>
          simp only [hcp] at hl
          cases hu : S.RetrieveUsed a.namespace_ a.subnet st1 with
          | mk ru st2 =>
            cases ru with
            | error e => simp [hu] at hl
            | ok used =>
              simp only [hu] at hl
              cases hcu : checkRanges canonicalize a.gateway used with
              | some e => simp [hcu] at hl
              | none =>
                simp only [hcu] at hl
                cases hpl : poolLoop S a id used fuel pool none st2 with
                | none => simp [hpl] at hl
                | some q =>
                  obtain ⟨r, e3, st4⟩ := q
                  cases r with
                  | none => simp [hpl] at hl
                  | some c =>
                    simp [hpl] at hl
                    obtain ⟨h3, h4⟩ := hl
                    subst h3 h4
                    obtain ⟨it, f, h5, h6, h7⟩ := poolLoop_sound S a id used hS fuel pool _ _ _ _ hpl
                    exact ⟨pool, used, st1, st2, it, f, rfl, hu, h5, h6, by rw [h7]⟩

theorem Split_pieces (sep : Char) (s : List Char) : ∀ p ∈ Split sep s, sep ∉ p := by
  induction s with
  | nil => intro p hp; simp [Split] at hp; subst hp; simp
  | cons c cs ih =>
    intro p hp
    unfold Split at hp
    split_ifs at hp with hc
    · rcases List.mem_cons.mp hp with h | h
      · subst h; simp
      · exact ih p h
    · cases hs : Split sep cs with
      | nil =>
        simp [hs] at hp
        subst hp
        simp [Ne.symm hc]
      | cons h t =>
        simp only [hs] at hp
        rcases List.mem_cons.mp hp with h1 | h1
        · subst h1
          have := ih h (by rw [hs]; simp)
          simp [Ne.symm hc, this]
        · exact ih p (by rw [hs]; exact List.mem_cons_of_mem _ h1)

theorem headD_Split_no_sep (sep : Char) (s : List Char) : sep ∉ (Split sep s).headD [] := by
  cases hs : Split sep s with
  | nil => simp
  | cons h t => exact Split_pieces sep s h (by rw [hs]; simp)

theorem usedAddresses_no_comma (ns : List Char) (items : List (List Char × List Char)) :
    ∀ s, usedAddresses ns items = .ok s → ∀ t ∈ s, ',' ∉ t := by
  induction items with
  | nil => intro s h t ht; simp [usedAddresses] at h; subst h; simp at ht
  | cons item rest ih =>
    intro s h t ht
    unfold usedAddresses at h
    simp only at h
    cases h2 : (Split ',' item.2)[2]? with
    | none => simp [h2] at h
    | some f2 =>
      simp only [h2] at h
      cases hr : usedAddresses ns rest with
      | error e => simp [hr] at h
      | ok s1 =>
        simp only [hr] at h
        split_ifs at h with hf
        · simp at h
          subst h
          rcases List.mem_cons.mp ht with h3 | h3
          · subst h3
            have := headD_Split_no_sep ',' item.2
            simpa using this
          · exact ih s1 hr t h3
        · simp at h
          subst h
          exact ih s1 hr t ht

theorem usedAddresses_mem (ns : List Char) (items : List (List Char × List Char)) :
    ∀ s, usedAddresses ns items = .ok s → ∀ item ∈ items, ∀ f0 f1 rest,
      Split ',' item.2 = f0 :: f1 :: ns :: rest → f0 ∈ s := by
  induction items with
  | nil => intro s _ item hi; simp at hi
  | cons x xs ih =>
    intro s h item hi f0 f1 rest hsplit
    unfold usedAddresses at h
    simp only at h
    cases h2 : (Split ',' x.2)[2]? with
    | none => simp [h2] at h
    | some f2 =>
      simp only [h2] at h
      cases hr : usedAddresses ns xs with
      | error e => simp [hr] at h
      | ok s1 =>
        simp only [hr] at h
        rcases List.mem_cons.mp hi with h3 | h3
        · subst h3
          rw [hsplit] at h2 h
          simp at h2
          subst h2
          simp at h
          subst h
          simp
        · have := ih s1 hr item h3 f0 f1 rest hsplit
          split_ifs at h
          · simp at h; subst h; exact List.mem_cons_of_mem _ this
          · simp at h; subst h; exact this

theorem mem_putKV (k v : List Char) (l : List (List Char × List Char)) :
    (k, v) ∈ putKV k v l := by
  induction l with
  | nil => simp [putKV]
  | cons x l ih =>
    obtain ⟨k1, v1⟩ := x
    unfold putKV
    split_ifs
    · simp
    · simp
    · exact List.mem_cons_of_mem _ ih

theorem concatTokens_mem (subnet : IPNet) (toks : List (List Char)) (t : List Char)
    (r : Range) (ht : ∀ rs, concatToken subnet rs t = .ok (rs ++ [r])) :
    ∀ rs out, concatTokens subnet rs toks = .ok out → t ∈ toks → r ∈ out := by
  induction toks with
  | nil => intro rs out _ hm; simp at hm
  | cons x xs ih =>
    intro rs out h hm
    unfold concatTokens at h
    cases hx : concatToken subnet rs x with
    | error e => simp [hx] at h
    | ok rs1 =>
      simp only [hx] at h
      rcases List.mem_cons.mp hm with h1 | h1
      · subst h1
        rw [ht rs] at hx
        cases hx
        obtain ⟨added, e, _⟩ := concatTokens_adds subnet xs _ out h
        rw [e]
        simp
      · exact ih rs1 out h h1

theorem coalesce_start_mem (rest : List Range) : ∀ c, ∀ x ∈ coalesce c rest,
    ∃ y ∈ c :: rest, x.RangeStart = y.RangeStart := by
  induction rest with
  | nil => intro c x hx; simp [coalesce] at hx; subst hx; exact ⟨x, by simp, rfl⟩
  | cons r rest ih =>
    intro c x hx
    unfold coalesce at hx
    split_ifs at hx
    · rcases List.mem_cons.mp hx with h | h
      · subst h; exact ⟨x, by simp, rfl⟩
      · obtain ⟨y, hy, e⟩ := ih r x h
        exact ⟨y, List.mem_cons_of_mem _ hy, e⟩
    · obtain ⟨y, hy, e⟩ := ih (absorb c r) x hx
      rcases List.mem_cons.mp hy with h | h
      · subst h
        exact ⟨c, by simp, by rw [e, absorb_start]⟩
      · exact ⟨y, by simp [h], e⟩

theorem canon_start_mem (l : RangeSet) : ∀ x ∈ canon l, ∃ y ∈ l, x.RangeStart = y.RangeStart := by
  unfold canon
  split
  · intro x hx; simp at hx
  · rename_i c rest h
    intro x hx
    obtain ⟨y, hy, e⟩ := coalesce_start_mem rest c x hx
    exact ⟨y, (sortRanges_perm l).mem_iff.mp (h ▸ hy), e⟩

theorem Contains_lt (subnet : IPNet) (x : Nat) (h : subnet.Contains (.v4 x) = true) :
    x < 2 ^ 32 := by
  unfold IPNet.Contains at h
  split at h
  · rename_i heq
    simp only [IP.v4.injEq] at heq
    simp only [Bool.and_eq_true, decide_eq_true_eq] at h
    omega
  · rename_i heq
    cases heq
  · cases h

theorem Contains_v4 (subnet : IPNet) (a : IP) (hv : (networkNumberAndMask subnet).1 = true)
    (h : subnet.Contains a = true) : ∃ x, a = .v4 x ∧ x < 2 ^ 32 := by
  unfold IPNet.Contains at h
  split at h
  · rename_i x heq
    simp only [Bool.and_eq_true, decide_eq_true_eq] at h
    exact ⟨_, rfl, h.1⟩
  · rename_i heq
    rw [heq] at hv
    cases hv
  · cases h

theorem concatToken_address (subnet : IPNet) (x : Nat)
    (hx : subnet.Contains (.v4 x) = true) (rs : RangeSet) :
    concatToken subnet rs (IPString (.v4 x)) =
      .ok (rs ++ [{ RangeStart := .v4 x, RangeEnd := .v4 x, Subnet := subnet,
                    Gateway := .nil }]) := by
  have hp := ParseIP_IPString x (Contains_lt subnet x hx)
  have hw : (Entry.mk [] (.single (IPString (.v4 x))) []).wellFormed := by
    refine ⟨by simp, by simp, ?_, ?_⟩ <;> simp [Token.start, Token.stop, hp]
  have := concatToken_token subnet rs ⟨[], .single (IPString (.v4 x)), []⟩ hw
  simpa [Entry.text, Token.text, Token.start, Token.stop, Entry.range, hp, hx] using this

theorem Concat_used_covers (subnet : IPNet) (s : List (List Char)) (used : RangeSet) (x : Nat)
    (hx : subnet.Contains (.v4 x) = true) (hs : ∀ t ∈ s, ',' ∉ t)
    (hm : IPString (.v4 x) ∈ s) (h : Concat [] (Join ',' s) subnet = .ok used) :
    covered used x ∧ ∀ u ∈ used, subnet.Contains u.RangeStart = true := by
  have hp := ParseIP_IPString x (Contains_lt subnet x hx)
  obtain ⟨hne, hq⟩ := ParseIP_chars (IPString (.v4 x)) (by rw [hp]; simp)
  -- the text is not blank
  have hnb : ¬ (Join ',' s = [] ∨ TrimSpace (Join ',' s) = []) := by
    cases hi : IPString (.v4 x) with
    | nil => exact absurd hi hne
    | cons c cs =>
      have hc : c ∈ IPString (.v4 x) := by rw [hi]; simp
      have hcj : c ∈ Join ',' s := mem_Join ',' s _ c hm hc
      have hsp := ipChar_not_space c (hq c hc)
      rintro (h1 | h1)
      · rw [h1] at hcj; simp at hcj
      · have := TrimSpace_eq_nil _ h1 c hcj
        rw [hsp] at this
        cases this
  have hsplit : Split ',' (Join ',' s) = s :=
    Split_Join ',' s (List.ne_nil_of_mem hm) hs
  rw [Concat_eq, if_neg hnb, hsplit] at h
  cases hp2 : concatTokens subnet [] s with
  | error e => rw [hp2] at h; cases h
  | ok parsed =>
    rw [hp2] at h
    simp only [Except.map] at h
    cases h
    have hr := concatTokens_mem subnet s (IPString (.v4 x)) _
      (concatToken_address subnet x hx) [] parsed hp2 hm
    obtain ⟨added, e, ha⟩ := concatTokens_adds subnet s [] parsed hp2
    simp only [List.nil_append] at e
    subst e
    constructor
    · rw [canon_covered]
      exact ⟨_, hr, by simp [Range.covers, ipToInt]⟩
    · intro u hu
      obtain ⟨y, hy, e⟩ := canon_start_mem parsed u hu
      rw [e]
      exact (ha y hy).1

theorem RetrieveUsed_covers (e : Etcd) (ns : List Char) (subnet : IPNet) (used : RangeSet)
    (key pod ctrl : List Char) (x : Nat)
    (hk : ipsPrefix.isPrefixOf key = true)
    (hmem : (key, IPString (.v4 x) ++ ',' :: (pod ++ ',' :: (ns ++ ',' :: ctrl))) ∈ e.kvs)
    (hx : subnet.Contains (.v4 x) = true) (hpod : ',' ∉ pod) (hns : ',' ∉ ns)
    (h : e.RetrieveUsed ns subnet = .ok used) :
    covered used x ∧ ∀ u ∈ used, subnet.Contains u.RangeStart = true := by
  have hp := ParseIP_IPString x (Contains_lt subnet x hx)
  have hq := (ParseIP_chars (IPString (.v4 x)) (by rw [hp]; simp)).2
  have hic : ',' ∉ IPString (.v4 x) := not_mem_of_ipChar _ _ hq (by decide)
  unfold Etcd.RetrieveUsed at h
  cases hg : e.GetWithPrefix ipsPrefix with
  | error err => simp [hg] at h
  | ok items =>
    simp only [hg] at h
    cases hu : usedAddresses ns items with
    | error err => simp [hu] at h
    | ok s =>
      simp only [hu] at h
      cases hc : Concat [] (Join ',' s) subnet with
      | error err => simp [hc] at h
      | ok rs =>
        simp only [hc] at h
        cases h
        have hitem : (key, IPString (.v4 x) ++ ',' :: (pod ++ ',' :: (ns ++ ',' :: ctrl))) ∈
            items := by
          unfold Etcd.GetWithPrefix at hg
          split_ifs at hg
          cases hg
          exact List.mem_filter.mpr ⟨hmem, by simpa using hk⟩
        have hsplit : Split ',' (IPString (.v4 x) ++ ',' :: (pod ++ ',' :: (ns ++ ',' :: ctrl)))
            = IPString (.v4 x) :: pod :: ns :: Split ',' ctrl := by
          rw [Split_append _ _ _ hic, Split_append _ _ _ hpod, Split_append _ _ _ hns]
        have hin := usedAddresses_mem ns items s hu _ hitem _ _ _ hsplit
        exact Concat_used_covers subnet s _ x hx (usedAddresses_no_comma ns items s hu) hin hc

theorem NextIP_ofBig_v4 (m : Nat) :
    (NextIP (ofBig m) = ofBig (m + 1) ∧ (m < 2 ^ 32 → ofBig m = .v4 m)) ∨
      NextIP (ofBig m) = ofBig 1 := by
  unfold NextIP
  by_cases h1 : 2 ^ 24 ≤ m ∧ m < 2 ^ 32
  · left
    rw [ofBig_v4 m h1.1 h1.2]
    exact ⟨rfl, fun _ => rfl⟩
  · by_cases h2 : 2 ^ 120 ≤ m ∧ m < 2 ^ 128
    · left
      have h32 : (2 : Nat) ^ 32 ≤ 2 ^ 120 := by norm_num
      have e : ofBig m = .v6 m := by
        unfold ofBig
        rw [if_neg h1, if_pos h2]
      rw [e]
      exact ⟨rfl, fun h => by omega⟩
    · right
      have e : ofBig m = .big m := by
        unfold ofBig
        rw [if_neg h1, if_neg h2]
      rw [e]
      rfl

theorem usedScan_meets (fuel : Nat) : ∀ (m e x : Nat) (avail : Bool),
    m ≤ x → x ≤ e → 1 ≤ x → x < 2 ^ 32 →
    usedScan fuel (.v4 x) (ofBig m) (ofBig (e + 1)) avail ≠ some true := by
  induction fuel with
  | zero => intro m e x avail _ _ _ _; simp [usedScan]
  | succ f ih =>
    intro m e x avail h1 h2 h3 h4
    unfold usedScan
    rw [if_neg (by rw [Equal_ofBig_ofBig]; omega)]
    by_cases hq : Equal (.v4 x) (ofBig m) = true
    · rw [if_pos hq]; simp
    · rw [if_neg hq]
      rcases NextIP_ofBig_v4 m with ⟨hn, hv⟩ | hn
      · rw [hn]
        have hne : m ≠ x := by
          intro e1
          apply hq
          rw [hv (by omega), e1]
          simp [Equal]
        exact ih (m + 1) e x avail (by omega) h2 h3 h4
      · rw [hn]
        exact ih 1 e x avail h3 h2 h3 h4

theorem usedScan_true (fuel : Nat) (s x : Nat) (stop : IP) (e : Nat) (avail : Bool)
    (hstop : stop = ofBig (e + 1)) (hx : x < 2 ^ 32)
    (h : usedScan fuel (.v4 x) (.v4 s) stop avail = some true) :
    avail = true ∧ ¬ (s ≤ x ∧ x ≤ e) := by
  subst hstop
  cases fuel with
  | zero => simp [usedScan] at h
  | succ f =>
    constructor
    · -- the loop never sets the flag
      have key : ∀ (n : Nat) (u : IP), usedScan n (.v4 x) u (ofBig (e + 1)) avail = some true →
          avail = true := by
        intro n
        induction n with
        | zero => intro u hu; simp [usedScan] at hu
        | succ n ih =>
          intro u hu
          unfold usedScan at hu
          split_ifs at hu
          · simpa using hu
          · cases hu
          · exact ih _ hu
      exact key _ _ h
    · rintro ⟨h1, h2⟩
      unfold usedScan at h
      have hne : ¬ (Equal (.v4 s) (ofBig (e + 1)) = true) := by
        unfold ofBig
        split_ifs <;> simp [Equal]
        omega
      rw [if_neg hne] at h
      by_cases hxs : x = s
      · subst hxs
        rw [if_pos (by simp [Equal])] at h
        cases h
      · rw [if_neg (by simp [Equal, hxs])] at h
        have hn : NextIP (.v4 s) = ofBig (s + 1) := rfl
        rw [hn] at h
        exact usedScan_meets f (s + 1) e x avail (by omega) h2 (by omega) hx h

theorem availLoop_true (fuel x : Nat) (used : RangeSet) (hx : x < 2 ^ 32) : ∀ (avail : Bool),
    (∀ u ∈ used, ∃ s, u.RangeStart = .v4 s) →
    availLoop fuel (.v4 x) used avail = some true → avail = true ∧ ¬ covered used x := by
  induction used with
  | nil =>
    intro avail _ h
    simp [availLoop] at h
    exact ⟨h, by simp [covered]⟩
  | cons u rest ih =>
    intro avail hs h
    unfold availLoop at h
    cases hu : usedScan fuel (.v4 x) u.RangeStart (NextIP u.RangeEnd) avail with
    | none => simp [hu] at h
    | some b =>
      simp only [hu] at h
      obtain ⟨hb, hrest⟩ := ih b (fun y hy => hs y (List.mem_cons_of_mem _ hy)) h
      subst hb
      obtain ⟨s, hstart⟩ := hs u (List.mem_cons_self _ _)
      rw [hstart] at hu
      obtain ⟨ha, hc⟩ := usedScan_true fuel s x (NextIP u.RangeEnd) (ipToInt u.RangeEnd) avail
        rfl hx hu
      refine ⟨ha, ?_⟩
      rw [covered_cons]
      rintro (h1 | h1)
      · apply hc
        unfold Range.covers at h1
        rw [hstart] at h1
        exact h1
      · exact hrest h1

theorem etcd_Reserve_no_error (id : List Char) (it : IP) (pod ns ctrl : List Char) (e : Etcd) :
    (etcdStore.Reserve id it pod ns ctrl e).1.2 = none := by
  simp only [etcdStore, Etcd.Reserve]
  cases e.Put (ipsPrefix ++ id) (IPString it ++ ',' :: (pod ++ ',' :: (ns ++ ',' :: ctrl))) <;> rfl

theorem etcd_Allocate_sound (canonicalize : Range → Option Error) (a : Allocator)
    (id : List Char) (fuel : Nat) (e e1 : Etcd) (cfg : IPConfig)
    (h : Allocate etcdStore canonicalize a id fuel e = some (.ok cfg, e1)) :
    ∃ used f, e.Lock.RetrieveUsed a.namespace_ a.subnet = .ok used ∧
      availLoop f cfg.AddressIP used true = some true ∧
      e1 = (e.Lock.Reserve id cfg.AddressIP a.pod a.namespace_ (controllerName a)).2.Unlock := by
  obtain ⟨pool, used, st1, st2, it, f, h1, h2, h3, h4, h5⟩ :=
    Allocate_sound etcdStore canonicalize a id fuel e e1 cfg
      (fun it st => etcd_Reserve_no_error id it _ _ _ st) h
  simp only [etcdStore, Prod.mk.injEq] at h1 h2
  obtain ⟨_, h1b⟩ := h1
  obtain ⟨h2a, h2b⟩ := h2
  subst h1b h2b h3
  exact ⟨used, f, h2a, h4, h5⟩

/-- C13, counterexample: against the etcd store with writes succeeding, two successive
`Allocate` calls with different container ids in the same namespace and subnet both succeed
with the same address. With the pod name "we,b" and the pool of the single address 10.0.1.2
the record of the first call is "10.0.1.2,we,b,default,unknown", whose third field is not
the namespace, so the second call does not count it as used. With the pool text
10.0.1.[126-130] in 10.0.1.0/25 and 10.0.1.126 and 10.0.1.127 bound, the first call returns
10.0.1.128, outside the subnet, and the second call drops its record from the used set as
out of subnet. -/
theorem Allocate_twice_same_address :
    allocateTwice allocComma "A".toList "B".toList etcdSingle =
      some (.ok (ipConfigOf allocComma (.v4 0x0a000102)),
            .ok (ipConfigOf allocComma (.v4 0x0a000102))) ∧
    allocateTwice alloc25 "A".toList "B".toList etcdPool25 =
      some (.ok (ipConfigOf alloc25 (.v4 0x0a000180)),
            .ok (ipConfigOf alloc25 (.v4 0x0a000180))) := by
  constructor <;> decide

/-- C13, amended. Against the etcd store with writes succeeding, so that reserve persists
the binding, two successive `Allocate` calls in the same namespace and IPv4 subnet never
both succeed with the same address, provided the pod name and the namespace of the first
call hold no comma and the address of the first call lies in the subnet: the second call
then finds the binding of the first in its used set. -/
theorem Allocate_twice_distinct (canon1 canon2 : Range → Option Error) (a1 a2 : Allocator)
    (id1 id2 : List Char) (fuel1 fuel2 : Nat) (e e1 e2 : Etcd) (c1 c2 : IPConfig)
    (hns : a1.namespace_ = a2.namespace_) (hsub : a1.subnet = a2.subnet)
    (hput : e.putFails = false)
    (hpod : ',' ∉ a1.pod) (hnsc : ',' ∉ a1.namespace_)
    (hv4 : (networkNumberAndMask a1.subnet).1 = true)
    (hin : a1.subnet.Contains c1.AddressIP = true)
    (h1 : Allocate etcdStore canon1 a1 id1 fuel1 e = some (.ok c1, e1))
    (h2 : Allocate etcdStore canon2 a2 id2 fuel2 e1 = some (.ok c2, e2)) :
    c1.AddressIP ≠ c2.AddressIP := by
  obtain ⟨_, _, _, _, he1⟩ := etcd_Allocate_sound canon1 a1 id1 fuel1 e e1 c1 h1
  obtain ⟨used2, f2, hu2, hav2, _⟩ := etcd_Allocate_sound canon2 a2 id2 fuel2 e1 e2 c2 h2
  obtain ⟨x, hx, hlt⟩ := Contains_v4 a1.subnet c1.AddressIP hv4 hin
  rw [hx] at hin he1
  intro heq
  rw [← heq, hx] at hav2
  have hkvs : e1.kvs = putKV (ipsPrefix ++ id1)
      (IPString (.v4 x) ++ ',' :: (a1.pod ++ ',' :: (a1.namespace_ ++ ',' ::
        controllerName a1))) e.kvs := by
    rw [he1]
    simp [Etcd.Reserve, Etcd.Put, Etcd.Lock, Etcd.Unlock, hput]
  have hmem : (ipsPrefix ++ id1, IPString (.v4 x) ++ ',' :: (a1.pod ++ ',' ::
      (a2.namespace_ ++ ',' :: controllerName a1))) ∈ e1.Lock.kvs := by
    rw [← hns]
    simp only [Etcd.Lock]
    rw [hkvs]
    exact mem_putKV _ _ _
  have hk : ipsPrefix.isPrefixOf (ipsPrefix ++ id1) = true := by
    rw [List.isPrefixOf_iff_prefix]
    exact List.prefix_append _ _
  obtain ⟨hcov, hstart⟩ := RetrieveUsed_covers e1.Lock a2.namespace_ a2.subnet used2
    (ipsPrefix ++ id1) a1.pod (controllerName a1) x hk hmem (by rw [← hsub]; exact hin)
    hpod (by rw [← hns]; exact hnsc) hu2
  have hst : ∀ u ∈ used2, ∃ s, u.RangeStart = .v4 s := by
    intro u hu
    obtain ⟨s, hs, _⟩ := Contains_v4 a2.subnet u.RangeStart (by rw [← hsub]; exact hv4)
      (hstart u hu)
    exact ⟨s, hs⟩
  exact (availLoop_true f2 x used2 hlt true hst hav2).2 hcov

/-- C13, witness: in the first-fit scenario the calls for c3 and c4 get 10.0.1.4 and
10.0.1.5; and with the pool of the single address 10.0.1.2 the call for A succeeds, the
call for B fails with the exhaustion error, and the store holds the binding of A only. -/
theorem Allocate_twice_distinct_witness :
    (ipConfig alloc24 0x0a000104).AddressIP ≠ (ipConfig alloc24 0x0a000105).AddressIP ∧
    Allocate etcdStore (fun _ => none) alloc24 "A".toList 20 etcdSingle =
      some (.ok (ipConfig alloc24 0x0a000102),
        { etcdSingle with kvs := [("/anchor/cn/A".toList, "10.0.1.2,web,default,unknown".toList),
                                  ("/anchor/ns/default".toList, "10.0.1.2".toList)] }) ∧
    Allocate etcdStore (fun _ => none) alloc24 "B".toList 20
        { etcdSingle with kvs := [("/anchor/cn/A".toList, "10.0.1.2,web,default,unknown".toList),
                                  ("/anchor/ns/default".toList, "10.0.1.2".toList)] } =
      some (.error (.exhausted "web".toList),
        { etcdSingle with kvs := [("/anchor/cn/A".toList, "10.0.1.2,web,default,unknown".toList),
                                  ("/anchor/ns/default".toList, "10.0.1.2".toList)] }) :=
  ⟨Allocate_twice_distinct (fun _ => none) (fun _ => none) alloc24 alloc24 "c3".toList
      "c4".toList 20 20 etcdFirstFit etcdAfterC3 etcdAfterC4 (ipConfig alloc24 0x0a000104)
      (ipConfig alloc24 0x0a000105) rfl rfl (by decide) (by decide) (by decide) (by decide)
      (by decide) (by decide) (by decide),
    by decide, by decide⟩

theorem find_putKV (k v : List Char) (l : List (List Char × List Char)) :
    (putKV k v l).find? (fun kv => kv.1 = k) = some (k, v) := by
  induction l with
  | nil => simp [putKV]
  | cons p l ih =>
    obtain ⟨k1, v1⟩ := p
    unfold putKV
    by_cases h1 : k = k1
    · rw [if_pos h1]; simp
    · rw [if_neg h1]
      by_cases h2 : k < k1
      · rw [if_pos h2]; simp
      · rw [if_neg h2, List.find?_cons_of_neg _ (by simpa using fun h => h1 h.symm)]
        exact ih

/-- When the write of the etcd store succeeds, a successful `Allocate` leaves under the key
`/anchor/cn/` + id the record of the returned address, the pod, the namespace and the
controller name, the latter `unknown` when the annotation is absent or empty. -/
theorem Allocate_stores_record (canonicalize : Range → Option Error) (a : Allocator)
    (id : List Char) (fuel : Nat) (e e1 : Etcd) (cfg : IPConfig)
    (hput : e.putFails = false)
    (h : Allocate etcdStore canonicalize a id fuel e = some (.ok cfg, e1)) :
    e1.kvs.find? (fun kv => kv.1 = "/anchor/cn/".toList ++ id) =
      some ("/anchor/cn/".toList ++ id,
        IPString cfg.AddressIP ++ ',' :: (a.pod ++ ',' :: (a.namespace_ ++ ',' ::
          (if a.customized.get "cni.anchor.org/controller".toList = [] then "unknown".toList
           else a.customized.get "cni.anchor.org/controller".toList)))) := by
  obtain ⟨_, _, _, _, he1⟩ := etcd_Allocate_sound canonicalize a id fuel e e1 cfg h
  have hkvs : e1.kvs = putKV (ipsPrefix ++ id)
      (IPString cfg.AddressIP ++ ',' :: (a.pod ++ ',' :: (a.namespace_ ++ ',' ::
        controllerName a))) e.kvs := by
    rw [he1]
    simp [Etcd.Reserve, Etcd.Put, Etcd.Lock, Etcd.Unlock, hput]
  rw [hkvs]
  exact find_putKV _ _ _

/-- C19, the failing input: with the etcd store whose write fails, `Allocate` for the
container c3 succeeds with the address 10.0.1.4, and the store holds no record under the
key `/anchor/cn/c3`. -/
theorem Allocate_success_without_record :
    (Allocate etcdStore (fun _ => none) alloc24 "c3".toList 20 etcdReadOnly).map
        (fun r => (r.1, r.2.Get "/anchor/cn/c3".toList)) =
      some (.ok (ipConfigOf alloc24 (.v4 0x0a000104)), .ok []) := by
  decide

theorem quadPrefix_append (n : Nat) (d : Nat) :
    quadPrefix n ++ uitoa d = dotted (n / 2 ^ 24) (n / 2 ^ 16 % 256) (n / 2 ^ 8 % 256) d := by
  simp [quadPrefix, dotted, List.append_assoc]

theorem Range.token_ends (r : Range) (s e : Nat) (hs : r.RangeStart = .v4 s)
    (he : r.RangeEnd = .v4 e) (hs32 : s < 2 ^ 32) (he32 : e < 2 ^ 32) :
    r.token.start = .v4 s ∧ r.token.stop = .v4 e := by
  unfold Range.token
  rw [hs, he]
  by_cases h : s = e
  · subst h
    simp only [if_true, Token.start, Token.stop, ParseIP_IPString s hs32, and_self]
  · rw [if_neg (by simpa using h)]
    simp only
    by_cases hb : s / 256 = e / 256
    · rw [if_pos hb]
      simp only [Token.start, Token.stop, quadPrefix_append]
      rw [ParseIP_dotted _ _ _ _ (by omega) (by omega) (by omega) (by omega),
        ParseIP_dotted _ _ _ _ (by omega) (by omega) (by omega) (by omega)]
      constructor
      · congr 1; omega
      · congr 1; omega
    · rw [if_neg hb]
      simp only [Token.start, Token.stop, List.nil_append, ParseIP_IPString s hs32,
        ParseIP_IPString e he32, and_self]

theorem Concat_poolText (subnet : IPNet) (rs : RangeSet) (es : List Entry)
    (hne : es ≠ []) (hw : ∀ e ∈ es, e.wellFormed) :
    Concat rs (poolText es) subnet = .ok (canon (rs ++ kept subnet es)) := by
  have hsplit : Split ',' (poolText es) = es.map Entry.text := by
    unfold poolText
    apply Split_Join
    · simpa using hne
    · intro t ht
      obtain ⟨e, he, rfl⟩ := List.mem_map.mp ht
      exact Entry.text_no_comma e (hw e he)
  unfold Concat
  rw [if_neg (poolText_not_blank es hne hw), hsplit, concatTokens_entries subnet es rs hw]
  exact sortMerge_eq _

theorem insertRange_head (a : Range) (l : RangeSet) (ha : a.wf)
    (h : ∀ b ∈ l, gapBefore a b) : insertRange a l = a :: l := by
  cases l with
  | nil => rfl
  | cons b l =>
    have hg := h b (List.mem_cons_self _ _)
    unfold gapBefore at hg
    unfold Range.wf at ha
    unfold insertRange
    rw [if_neg]
    rw [Less_iff]
    omega

theorem sortRanges_gapped (rs : RangeSet) (hc : rs.Pairwise gapBefore) (hw : ∀ r ∈ rs, r.wf) :
    sortRanges rs = rs := by
  induction rs with
  | nil => rfl
  | cons a l ih =>
    rw [List.pairwise_cons] at hc
    unfold sortRanges
    rw [ih hc.2 (fun r hr => hw r (List.mem_cons_of_mem _ hr))]
    exact insertRange_head a l (hw a (List.mem_cons_self _ _)) hc.1

theorem coalesce_gapped (rest : List Range) : ∀ c, (c :: rest).Chain' gapBefore →
    coalesce c rest = c :: rest := by
  induction rest with
  | nil => intro c _; rfl
  | cons r rest ih =>
    intro c h
    rw [List.chain'_cons] at h
    rw [coalesce_gap c r rest (isGap_of_gapBefore c r h.1), ih r h.2]

theorem canon_canonical (rs : RangeSet) (hc : rs.Pairwise gapBefore) (hw : ∀ r ∈ rs, r.wf) :
    canon rs = rs := by
  rw [canon_eq, sortRanges_gapped rs hc hw]
  cases rs with
  | nil => rfl
  | cons c rest => exact coalesce_gapped rest c (List.Pairwise.chain' hc)

theorem String_poolText (rs : RangeSet) :
    RangeSet.String rs = poolText (rs.map Range.entry) := by
  unfold RangeSet.String poolText
  congr 1
  rw [List.map_map]
  apply List.map_congr_left
  intro r _
  simp [Range.String, Range.entry, Entry.text]

theorem kept_entries (subnet : IPNet) (rs : RangeSet)
    (h : ∀ r ∈ rs, subnet.Contains r.RangeStart = true ∧ r.token.start = r.RangeStart ∧
      r.token.stop = r.RangeEnd ∧ r.Subnet = subnet ∧ r.Gateway = .nil) :
    kept subnet (rs.map Range.entry) = rs := by
  induction rs with
  | nil => rfl
  | cons r rs ih =>
    obtain ⟨h1, h2, h3, h4, h5⟩ := h r (List.mem_cons_self _ _)
    have ht := ih (fun x hx => h x (List.mem_cons_of_mem _ hx))
    unfold kept at ht ⊢
    rw [List.map_cons, List.filter_cons, if_pos (by simpa [Range.entry, h2] using h1),
      List.map_cons, ht]
    congr 1
    cases r
    simp only [Entry.range, Range.entry] at *
    subst h4 h5
    simp [h2, h3]

theorem coalesce_gateway (rest : List Range) : ∀ c, (∀ r ∈ c :: rest, r.Gateway = .nil) →
    ∀ x ∈ coalesce c rest, x.Gateway = .nil := by
  induction rest with
  | nil => intro c h x hx; simp [coalesce] at hx; subst hx; exact h x (by simp)
  | cons r rest ih =>
    intro c h x hx
    unfold coalesce at hx
    split_ifs at hx
    · rcases List.mem_cons.mp hx with e | e
      · subst e; exact h x (by simp)
      · exact ih r (fun y hy => h y (List.mem_cons_of_mem _ hy)) x e
    · apply ih (absorb c r) _ x hx
      intro y hy
      rcases List.mem_cons.mp hy with e | e
      · subst e
        rw [absorb_gateway]
        exact h c (by simp)
      · exact h y (by simp [e])

theorem canon_gateway (l : RangeSet) (h : ∀ r ∈ l, r.Gateway = .nil) :
    ∀ x ∈ canon l, x.Gateway = .nil := by
  unfold canon
  split
  · intro x hx; simp at hx
  · rename_i c rest hs
    exact coalesce_gateway rest c (fun r hr => h r ((sortRanges_perm l).mem_iff.mp (hs ▸ hr)))

theorem Concat_gateway (subnet : IPNet) (text : List Char) (out : RangeSet)
    (h : Concat [] text subnet = .ok out) : ∀ x ∈ out, x.Gateway = .nil := by
  rw [Concat_eq] at h
  split_ifs at h
  · cases h
    intro x hx
    simp at hx
  · cases hp : concatTokens subnet [] (Split ',' text) with
    | error e => rw [hp] at h; cases h
    | ok rs1 =>
      rw [hp] at h
      obtain ⟨added, e, p⟩ := concatTokens_adds subnet _ [] rs1 hp
      subst e
      simp only [Except.map, Except.ok.injEq] at h
      subst h
      exact canon_gateway _ (fun r hr => (p r (by simpa using hr)).2.2.2)

/-- C11, counterexample: the set of the single address 10.0.1.2 of 10.0.1.0/24 with the
gateway 10.0.1.1 is canonical and lies in the subnet; its text is `10.0.1.2`, which `Concat`
reads back as the range without the gateway, and no text at all is read back as the set. -/
theorem Concat_String_drops_gateway :
    [gatewayRange].Pairwise gapBefore ∧ RangeInvariant net24 gatewayRange ∧
    RangeSet.String [gatewayRange] = "10.0.1.2".toList ∧
    Concat [] (RangeSet.String [gatewayRange]) net24 =
      .ok [{ RangeStart := .v4 0x0a000102, RangeEnd := .v4 0x0a000102, Subnet := net24,
             Gateway := .nil }] ∧
    Concat [] (RangeSet.String [gatewayRange]) net24 ≠ .ok [gatewayRange] ∧
    ¬ ∃ text, Concat [] text net24 = .ok [gatewayRange] := by
  refine ⟨by decide, by decide, by decide, by decide, by decide, ?_⟩
  rintro ⟨text, h⟩
  have := Concat_gateway net24 text _ h gatewayRange (by simp)
  simp [gatewayRange] at this

/-- A range that crosses a block has a token too: the text of 10.0.1.250 to 10.0.2.5 in
10.0.0.0/16 is the span of the two whole addresses with an empty prefix, which `Concat`
reads back as the range. -/
theorem String_cross_block :
    RangeSet.String
      [{ RangeStart := .v4 0x0a0001fa, RangeEnd := .v4 0x0a000205, Subnet := net16,
         Gateway := .nil }] = "[10.0.1.250-10.0.2.5]".toList ∧
    Concat [] "[10.0.1.250-10.0.2.5]".toList net16 =
      .ok [{ RangeStart := .v4 0x0a0001fa, RangeEnd := .v4 0x0a000205, Subnet := net16,
             Gateway := .nil }] := by
  decide

/-- C11, amended. For every canonical range set (sorted, with a gap between any two ranges,
start not after end) of an IPv4 subnet whose ranges have both ends in the subnet, carry that
subnet and a nil gateway, `Concat` on the empty set reads the text of `RangeSet.String` back
as the set itself. -/
theorem Concat_String_roundtrip (subnet : IPNet) (rs : RangeSet)
    (hv4 : (networkNumberAndMask subnet).1 = true)
    (hcanon : rs.Pairwise gapBefore)
    (hinv : ∀ r ∈ rs, RangeInvariant subnet r)
    (hfields : ∀ r ∈ rs, r.Subnet = subnet ∧ r.Gateway = .nil) :
    Concat [] (RangeSet.String rs) subnet = .ok rs := by
  have hr : ∀ r ∈ rs, r.token.start = r.RangeStart ∧ r.token.stop = r.RangeEnd ∧
      r.RangeStart ≠ .nil ∧ r.RangeEnd ≠ .nil := by
    intro r hm
    obtain ⟨_, h2, h3⟩ := hinv r hm
    obtain ⟨s, hs, hs32⟩ := Contains_v4 subnet _ hv4 h2
    obtain ⟨e, he, he32⟩ := Contains_v4 subnet _ hv4 h3
    obtain ⟨t1, t2⟩ := r.token_ends s e hs he hs32 he32
    rw [hs, he]
    exact ⟨t1, t2, by simp, by simp⟩
  cases hrs : rs with
  | nil => simp [RangeSet.String, Join, Concat]
  | cons r0 rest =>
    rw [← hrs, String_poolText, Concat_poolText subnet [] _ (by simp [hrs])]
    · rw [kept_entries subnet rs (fun r hm => ⟨(hinv r hm).2.1, (hr r hm).1, (hr r hm).2.1,
        hfields r hm⟩), List.nil_append]
      congr 1
      exact canon_canonical rs hcanon (fun r hm => (hinv r hm).1)
    · intro e he
      obtain ⟨r, hm, rfl⟩ := List.mem_map.mp he
      refine ⟨by simp [Range.entry], by simp [Range.entry], ?_⟩
      unfold Token.wellFormed
      simp only [Range.entry]
      rw [(hr r hm).1, (hr r hm).2.1]
      exact ⟨(hr r hm).2.2.1, (hr r hm).2.2.2⟩

/-- C11, witness of the amended claim: the set of 10.0.1.2 to 10.0.1.4, 10.0.1.9 and
10.0.1.250 to 10.0.2.5 in 10.0.0.0/16 has the text
`10.0.1.[2-4],10.0.1.9,[10.0.1.250-10.0.2.5]`, which is read back as the set. -/
theorem Concat_String_roundtrip_witness :
    RangeSet.String roundtripSet = "10.0.1.[2-4],10.0.1.9,[10.0.1.250-10.0.2.5]".toList ∧
    Concat [] (RangeSet.String roundtripSet) net16 = .ok roundtripSet :=
  ⟨by decide,
    Concat_String_roundtrip net16 roundtripSet (by decide) (by decide) (by decide)
      (by decide)⟩

theorem coalesce_length (rest : List Range) : ∀ c, (coalesce c rest).length ≤ rest.length + 1 := by
  induction rest with
  | nil => intro c; simp [coalesce]
  | cons r rest ih =>
    intro c
    unfold coalesce
    split_ifs
    · simpa using ih r
    · exact le_trans (ih (absorb c r)) (by simp)

theorem canon_length (l : RangeSet) : (canon l).length ≤ l.length := by
  rw [← (sortRanges_perm l).length_eq]
  unfold canon
  split
  · exact Nat.zero_le _
  · rename_i c rest h
    rw [h]
    simpa using coalesce_length rest c

/-- C24. The sort and merge of `Concat` preserves the covered address set: when `Concat`
succeeds, an address lies in some range of the result if and only if it lies in some range
of the receiver or in some range the token loop made of a token of the text, each of which
has its start in the subnet; and the result has no more ranges than the receiver and the
tokens together. For a blank text there are no tokens and the result is the receiver. -/
theorem Concat_preserves_covered (subnet : IPNet) (rs out : RangeSet) (s : List Char)
    (h : Concat rs s subnet = .ok out) :
    ∃ added : RangeSet,
      (if s = [] ∨ TrimSpace s = [] then added = [] ∧ out = rs
        else concatTokens subnet [] (Split ',' s) = .ok added ∧ out = canon (rs ++ added)) ∧
      (∀ r ∈ added, subnet.Contains r.RangeStart = true) ∧
      (∀ x, covered out x ↔ covered rs x ∨ covered added x) ∧
      out.length ≤ rs.length + added.length := by
  rw [Concat_eq] at h
  by_cases hb : s = [] ∨ TrimSpace s = []
  · rw [if_pos hb] at h
    cases h
    refine ⟨[], by rw [if_pos hb]; exact ⟨rfl, rfl⟩, by simp, ?_, by simp⟩
    intro x
    simp [covered]
  · rw [if_neg hb] at h
    rw [concatTokens_append subnet (Split ',' s) rs] at h
    cases hp : concatTokens subnet [] (Split ',' s) with
    | error e => rw [hp] at h; cases h
    | ok added =>
      rw [hp] at h
      simp only [Except.map, Except.ok.injEq] at h
      subst h
      obtain ⟨added1, e1, p⟩ := concatTokens_adds subnet _ [] added hp
      simp only [List.nil_append] at e1
      subst e1
      refine ⟨added, by rw [if_neg hb]; exact ⟨rfl, rfl⟩, fun r hr => (p r hr).1, ?_, ?_⟩
      · intro x
        rw [canon_covered, covered_append]
      · exact le_trans (canon_length _) (by simp)

/-- C24, witness: the receiver [10.0.1.2, 10.0.1.4] and the text "10.0.1.5,10.0.2.3, 10.0.1.9"
in 10.0.1.0/24: the tokens 10.0.1.5 and 10.0.1.9 are kept, the result is [10.0.1.2,
10.0.1.5] and [10.0.1.9, 10.0.1.9]. -/
theorem Concat_preserves_covered_witness :
    Concat mergeReceiver mergeText net24 = .ok mergeResult ∧
    ∃ added : RangeSet,
      (if mergeText = [] ∨ TrimSpace mergeText = [] then added = [] ∧ mergeResult = mergeReceiver
        else concatTokens net24 [] (Split ',' mergeText) = .ok added ∧
          mergeResult = canon (mergeReceiver ++ added)) ∧
      (∀ r ∈ added, net24.Contains r.RangeStart = true) ∧
      (∀ x, covered mergeResult x ↔ covered mergeReceiver x ∨ covered added x) ∧
      mergeResult.length ≤ mergeReceiver.length + added.length :=
  ⟨by decide, Concat_preserves_covered net24 mergeReceiver mergeResult mergeText (by decide)⟩

theorem extendsInner_refl (tr : List Call) : extendsInner tr tr :=
  ⟨[], by simp, by simp, by simp⟩

theorem extendsInner_trans (a b c : List Call) (h1 : extendsInner a b)
    (h2 : extendsInner b c) : extendsInner a c := by
  obtain ⟨m1, e1, p1, q1⟩ := h1
  obtain ⟨m2, e2, p2, q2⟩ := h2
  refine ⟨m1 ++ m2, by rw [e2, e1, List.append_assoc], ?_, ?_⟩
  · simp [p1, p2]
  · simp [q1, q2]

theorem extendsInner_one (tr : List Call) (c : Call) (h1 : c ≠ Call.lock)
    (h2 : c ≠ Call.unlock) : extendsInner tr (tr ++ [c]) :=
  ⟨[c], rfl, by simpa using h1.symm, by simpa using h2.symm⟩

theorem candidateLoop_trace {σ : Type} (S : Store σ) (a : Allocator) (id : List Char)
    (used : RangeSet) (fuel : Nat) : ∀ (iter stop : IP) (err : Option Error) (st : σ)
    (tr : List Call) (res : Option IPConfig × Option Error × σ × List Call),
    candidateLoop (traced S) a id used fuel iter stop err (st, tr) = some res →
    extendsInner tr res.2.2.2 := by
  induction fuel with
  | zero => intro iter stop err st tr res h; simp [candidateLoop] at h
  | succ f ih =>
    intro iter stop err st tr res h
    unfold candidateLoop at h
    by_cases h1 : Equal iter stop = true
    · rw [if_pos h1] at h
      cases h
      exact extendsInner_refl tr
    · rw [if_neg h1] at h
      cases hav : availLoop f iter used true with
      | none => rw [hav] at h; cases h
      | some avail =>
        rw [hav] at h
        simp only at h
        cases avail with
        | false => exact ih _ _ _ _ _ _ (by simpa using h)
        | true =>
          simp only [if_true] at h
          by_cases h2 : err ≠ none
          · rw [if_pos h2] at h
            exact ih _ _ _ _ _ _ h
          · rw [if_neg h2] at h
            by_cases h3 : Equal iter a.gateway = true
            · rw [if_pos h3] at h
              exact ih _ _ _ _ _ _ h
            · rw [if_neg h3] at h
              have hone : extendsInner tr (tr ++ [Call.reserve id iter]) :=
                extendsInner_one tr _ (by simp) (by simp)
              by_cases h4 : (S.Reserve id iter a.pod a.namespace_ (controllerName a) st).1.2
                  ≠ none
              · simp only [traced] at h
                rw [if_pos h4] at h
                exact extendsInner_trans _ _ _ hone (ih _ _ _ _ _ _ h)
              · simp only [traced] at h
                rw [if_neg h4] at h
                cases h
                exact hone

theorem poolLoop_trace {σ : Type} (S : Store σ) (a : Allocator) (id : List Char)
    (used : RangeSet) (fuel : Nat) (pool : RangeSet) : ∀ (err : Option Error) (st : σ)
    (tr : List Call) (res : Option IPConfig × Option Error × σ × List Call),
    poolLoop (traced S) a id used fuel pool err (st, tr) = some res →
    extendsInner tr res.2.2.2 := by
  induction pool with
  | nil =>
    intro err st tr res h
    simp only [poolLoop, Option.some.injEq] at h
    subst h
    exact extendsInner_refl tr
  | cons r rest ih =>
    intro err st tr res h
    unfold poolLoop at h
    cases hc : candidateLoop (traced S) a id used fuel r.RangeStart (NextIP r.RangeEnd) err
        (st, tr) with
    | none => rw [hc] at h; cases h
    | some res1 =>
      have h1 := candidateLoop_trace S a id used fuel _ _ _ _ _ _ hc
      rw [hc] at h
      obtain ⟨cfg, err1, st1, tr1⟩ := res1
      cases cfg with
      | some c =>
        simp only [Option.some.injEq] at h
        subst h
        exact h1
      | none =>
        simp only at h
        exact extendsInner_trans _ _ _ h1 (ih _ _ _ _ h)

theorem traced_RetrieveAllocated {σ : Type} (S : Store σ) (ns : List Char) (subnet : IPNet)
    (st : σ) (tr : List Call) :
    (traced S).RetrieveAllocated ns subnet (st, tr) =
      ((S.RetrieveAllocated ns subnet st).1, ((S.RetrieveAllocated ns subnet st).2,
        tr ++ [Call.retrieveAllocated])) := rfl

theorem traced_RetrieveUsed {σ : Type} (S : Store σ) (ns : List Char) (subnet : IPNet)
    (st : σ) (tr : List Call) :
    (traced S).RetrieveUsed ns subnet (st, tr) =
      ((S.RetrieveUsed ns subnet st).1, ((S.RetrieveUsed ns subnet st).2,
        tr ++ [Call.retrieveUsed])) := rfl

theorem allocateLocked_trace {σ : Type} (S : Store σ) (canonicalize : Range → Option Error)
    (a : Allocator) (id : List Char) (fuel : Nat) (st : σ) (tr : List Call)
    (res : Except Error IPConfig × σ × List Call)
    (h : allocateLocked (traced S) canonicalize a id fuel (st, tr) = some res) :
    extendsInner tr res.2.2 := by
  have e1 : extendsInner tr (tr ++ [Call.retrieveAllocated]) :=
    extendsInner_one tr _ (by simp) (by simp)
  have e2 : extendsInner tr (tr ++ [Call.retrieveAllocated] ++ [Call.retrieveUsed]) :=
    extendsInner_trans _ _ _ e1 (extendsInner_one _ _ (by simp) (by simp))
  unfold allocateLocked at h
  rw [traced_RetrieveAllocated] at h
  cases hp : (S.RetrieveAllocated a.namespace_ a.subnet st).1 with
  | error e =>
    simp only [hp, Option.some.injEq] at h
    subst h
    exact e1
  | ok ips =>
    simp only [hp] at h
    cases hc : checkRanges canonicalize a.gateway ips with
    | some e =>
      simp only [hc, Option.some.injEq] at h
      subst h
      exact e1
    | none =>
      simp only [hc] at h
      rw [traced_RetrieveUsed] at h
      cases hu : (S.RetrieveUsed a.namespace_ a.subnet
          (S.RetrieveAllocated a.namespace_ a.subnet st).2).1 with
      | error e =>
        simp only [hu, Option.some.injEq] at h
        subst h
        exact e2
      | ok used =>
        simp only [hu] at h
        cases hcu : checkRanges canonicalize a.gateway used with
        | some e =>
          simp only [hcu, Option.some.injEq] at h
          subst h
          exact e2
        | none =>
          simp only [hcu] at h
          generalize hl : poolLoop (traced S) a id used fuel ips none _ = pl at h
          cases pl with
          | none => cases h
          | some r =>
            have ht := poolLoop_trace S a id used fuel ips _ _ _ _ hl
            obtain ⟨cfg, err1, st3, tr3⟩ := r
            cases cfg with
            | some c =>
              simp only [Option.some.injEq] at h
              subst h
              exact extendsInner_trans _ _ _ e2 ht
            | none =>
              simp only [Option.some.injEq] at h
              subst h
              exact extendsInner_trans _ _ _ e2 ht

theorem candidateLoop_erase {σ : Type} (S : Store σ) (a : Allocator) (id : List Char)
    (used : RangeSet) (fuel : Nat) : ∀ (iter stop : IP) (err : Option Error) (st : σ)
    (tr : List Call),
    (candidateLoop (traced S) a id used fuel iter stop err (st, tr)).map
        (fun r => (r.1, r.2.1, r.2.2.1)) =
      candidateLoop S a id used fuel iter stop err st := by
  induction fuel with
  | zero => intro iter stop err st tr; rfl
  | succ f ih =>
    intro iter stop err st tr
    unfold candidateLoop
    by_cases h1 : Equal iter stop = true
    · rw [if_pos h1, if_pos h1]; rfl
    · rw [if_neg h1, if_neg h1]
      cases availLoop f iter used true with
      | none => rfl
      | some avail =>
        simp only
        cases avail with
        | false => simpa using ih _ _ _ _ _
        | true =>
          simp only [if_true]
          by_cases h2 : err ≠ none
          · rw [if_pos h2, if_pos h2]; exact ih _ _ _ _ _
          · rw [if_neg h2, if_neg h2]
            by_cases h3 : Equal iter a.gateway = true
            · rw [if_pos h3, if_pos h3]; exact ih _ _ _ _ _
            · rw [if_neg h3, if_neg h3]
              by_cases h4 : (S.Reserve id iter a.pod a.namespace_ (controllerName a) st).1.2
                  ≠ none
              · simp only [traced]
                rw [if_pos h4, if_pos h4]
                exact ih _ _ _ _ _
              · simp only [traced]
                rw [if_neg h4, if_neg h4]
                rfl

theorem poolLoop_erase {σ : Type} (S : Store σ) (a : Allocator) (id : List Char)
    (used : RangeSet) (fuel : Nat) (pool : RangeSet) : ∀ (err : Option Error) (st : σ)
    (tr : List Call),
    (poolLoop (traced S) a id used fuel pool err (st, tr)).map
        (fun r => (r.1, r.2.1, r.2.2.1)) =
      poolLoop S a id used fuel pool err st := by
  induction pool with
  | nil => intro err st tr; rfl
  | cons r rest ih =>
    intro err st tr
    unfold poolLoop
    rw [← candidateLoop_erase S a id used fuel r.RangeStart (NextIP r.RangeEnd) err st tr]
    cases candidateLoop (traced S) a id used fuel r.RangeStart (NextIP r.RangeEnd) err
        (st, tr) with
    | none => rfl
    | some res =>
      obtain ⟨cfg, err1, st1, tr1⟩ := res
      cases cfg with
      | some c => rfl
      | none => exact ih err1 st1 tr1

theorem allocateLocked_erase {σ : Type} (S : Store σ) (canonicalize : Range → Option Error)
    (a : Allocator) (id : List Char) (fuel : Nat) (st : σ) (tr : List Call) :
    (allocateLocked (traced S) canonicalize a id fuel (st, tr)).map (fun r => (r.1, r.2.1)) =
      allocateLocked S canonicalize a id fuel st := by
  unfold allocateLocked
  rw [traced_RetrieveAllocated]
  rcases hp : S.RetrieveAllocated a.namespace_ a.subnet st with ⟨rp, st1⟩
  cases rp with
  | error e => rfl
  | ok ips =>
    simp only
    cases checkRanges canonicalize a.gateway ips with
    | some e => rfl
    | none =>
      simp only
      rw [traced_RetrieveUsed]
      rcases hu : S.RetrieveUsed a.namespace_ a.subnet st1 with ⟨ru, st2⟩
      cases ru with
      | error e => rfl
      | ok used =>
        simp only
        cases checkRanges canonicalize a.gateway used with
        | some e => rfl
        | none =>
          simp only
          rw [← poolLoop_erase S a id used fuel ips none st2
            (tr ++ [Call.retrieveAllocated] ++ [Call.retrieveUsed])]
          cases poolLoop (traced S) a id used fuel ips none
              (st2, tr ++ [Call.retrieveAllocated] ++ [Call.retrieveUsed]) with
          | none => rfl
          | some r =>
            obtain ⟨cfg, err1, st3, tr3⟩ := r
            cases cfg <;> rfl

theorem Allocate_erase {σ : Type} (S : Store σ) (canonicalize : Range → Option Error)
    (a : Allocator) (id : List Char) (fuel : Nat) (st : σ) (tr : List Call) :
    (Allocate (traced S) canonicalize a id fuel (st, tr)).map (fun r => (r.1, r.2.1)) =
      Allocate S canonicalize a id fuel st := by
  unfold Allocate
  have hl : (traced S).Lock (st, tr) = (S.Lock st, tr ++ [Call.lock]) := rfl
  rw [hl, ← allocateLocked_erase S canonicalize a id fuel (S.Lock st) (tr ++ [Call.lock])]
  cases allocateLocked (traced S) canonicalize a id fuel (S.Lock st, tr ++ [Call.lock]) with
  | none => rfl
  | some r => rfl

/-- C23. Every execution of `Allocate` and of `Clean`, followed on a store that records its
calls, calls `Lock` first and `Unlock` last and neither of them in between, so every read
and write of the store lies between the two, whatever the store answers: on the success
path and on every error path. The record changes nothing of the run: the result and the
store are those of the run on the plain store, which returns as soon as the loops of
`Allocate` have the fuel to end. `Clean` makes the three calls lock, release, unlock. -/
theorem Allocate_Clean_scoped_lock {σ : Type} (S : Store σ)
    (canonicalize : Range → Option Error) (a : Allocator) (id : List Char) (fuel : Nat)
    (st : σ) :
    (∀ (res : Except Error IPConfig) (st1 : σ) (tr : List Call),
      Allocate (traced S) canonicalize a id fuel (st, []) = some (res, (st1, tr)) →
      lockScoped tr) ∧
    (Allocate (traced S) canonicalize a id fuel (st, [])).map (fun r => (r.1, r.2.1)) =
      Allocate S canonicalize a id fuel st ∧
    Clean (traced S) id (st, []) =
      ((Clean S id st).1, ((Clean S id st).2, [Call.lock, Call.release id, Call.unlock])) ∧
    lockScoped (Clean (traced S) id (st, [])).2.2 := by
  refine ⟨?_, Allocate_erase S canonicalize a id fuel st [], rfl,
    ⟨[Call.release id], rfl, by simp, by simp⟩⟩
  intro res st1 tr h
  unfold Allocate at h
  have hl : (traced S).Lock (st, []) = (S.Lock st, [] ++ [Call.lock]) := rfl
  rw [hl] at h
  cases hb : allocateLocked (traced S) canonicalize a id fuel (S.Lock st, [] ++ [Call.lock]) with
  | none => rw [hb] at h; cases h
  | some r =>
    obtain ⟨mid, e, p, q⟩ := allocateLocked_trace S canonicalize a id fuel _ _ r hb
    rw [hb] at h
    obtain ⟨res2, st2, tr2⟩ := r
    simp only [traced, Option.some.injEq, Prod.mk.injEq] at h
    obtain ⟨_, _, h3⟩ := h
    simp only at e
    subst h3 e
    exact ⟨mid, by simp, p, q⟩

/-- C23, witness: the successful call of the first-fit scenario makes the calls lock,
retrieve the pool, retrieve the used set, reserve 10.0.1.4 and unlock. -/
theorem Allocate_Clean_scoped_lock_witness :
    Allocate (traced etcdStore) (fun _ => none) alloc24 "c3".toList 20 (etcdFirstFit, []) =
      some (.ok (ipConfig alloc24 0x0a000104),
        (etcdAfterC3, [Call.lock, Call.retrieveAllocated, Call.retrieveUsed,
          Call.reserve "c3".toList (.v4 0x0a000104), Call.unlock])) ∧
    lockScoped [Call.lock, Call.retrieveAllocated, Call.retrieveUsed,
      Call.reserve "c3".toList (.v4 0x0a000104), Call.unlock] :=
  ⟨by decide,
    (Allocate_Clean_scoped_lock etcdStore (fun _ => none) alloc24 "c3".toList 20
      etcdFirstFit).1 (.ok (ipConfig alloc24 0x0a000104)) etcdAfterC3
      [Call.lock, Call.retrieveAllocated, Call.retrieveUsed,
        Call.reserve "c3".toList (.v4 0x0a000104), Call.unlock] (by decide)⟩

/-- The error paths of `Allocate` and `Clean` on the etcd store, each with its record of
calls: no pool for the namespace, a used set that cannot be read, a range that
`Canonicalize` rejects, an exhausted pool, and a release that fails. -/
theorem Allocate_error_paths_scoped :
    Allocate (traced etcdStore) (fun _ => none) alloc24 "c3".toList 20 (etcdBound, []) =
      some (.error (.noPool "default".toList),
        (etcdBound, [Call.lock, Call.retrieveAllocated, Call.unlock])) ∧
    Allocate (traced etcdStore) (fun _ => none) alloc24 "c3".toList 20 (etcdShortRecord, []) =
      some (.error .panic,
        (etcdShortRecord, [Call.lock, Call.retrieveAllocated, Call.retrieveUsed,
          Call.unlock])) ∧
    Allocate (traced etcdStore) (fun _ => some .canonicalize) alloc24 "c3".toList 20
        (etcdFirstFit, []) =
      some (.error .canonicalize,
        (etcdFirstFit, [Call.lock, Call.retrieveAllocated, Call.unlock])) ∧
    Allocate (traced etcdStore) (fun _ => none) alloc24 "c3".toList 20 (etcdFull, []) =
      some (.error (.exhausted "web".toList),
        (etcdFull, [Call.lock, Call.retrieveAllocated, Call.retrieveUsed, Call.unlock])) ∧
    Clean (traced etcdStore) "c1".toList (etcdReadOnly, []) =
      (some .transport,
        (etcdReadOnly, [Call.lock, Call.release "c1".toList, Call.unlock])) :=
  ⟨by decide, by decide, by decide, by decide, by decide⟩

theorem inUseRows_panics (rows : List (List Char)) :
    (∃ r ∈ rows, (Split ',' r).length ≤ 4) → inUseRows rows = .error .panic := by
  induction rows with
  | nil => rintro ⟨r, hr, _⟩; simp at hr
  | cons r0 rest ih =>
    rintro ⟨r, hr, hlen⟩
    unfold inUseRows
    cases h4 : (Split ',' r0)[4]? with
    | none =>
      cases (Split ',' r0)[0]? <;> cases (Split ',' r0)[1]? <;> cases (Split ',' r0)[2]? <;> rfl
    | some p4 =>
      have hr0 : ¬ (Split ',' r0).length ≤ 4 := by
        intro hle
        rw [List.getElem?_eq_none (by omega)] at h4
        cases h4
      have hmem : r ∈ rest := by
        rcases List.mem_cons.mp hr with e | e
        · subst e; exact absurd hlen hr0
        · exact e
      rw [ih ⟨r, hmem, hlen⟩]
      cases (Split ',' r0)[0]? <;> cases (Split ',' r0)[1]? <;> cases (Split ',' r0)[2]? <;> rfl

/-- Whatever else the store holds, one binding record of the four fields that `Reserve`
writes, none of them with a comma, makes the handler of the binding endpoint panic: the
record has no part 4. -/
theorem InUseHandler_panics_on_record (e : Etcd) (key f0 f1 f2 f3 : List Char)
    (hk : ipsPrefix.isPrefixOf key = true)
    (hmem : (key, f0 ++ ',' :: (f1 ++ ',' :: (f2 ++ ',' :: f3))) ∈ e.kvs)
    (h0 : ',' ∉ f0) (h1 : ',' ∉ f1) (h2 : ',' ∉ f2) (h3 : ',' ∉ f3) :
    (InUseHandler.ServeHTTP e).2 = some .panic := by
  unfold InUseHandler.ServeHTTP Etcd.RetrieveUsedbyNamespace Etcd.GetWithPrefix
  by_cases hg : e.getFails = true
  · simp [hg]
  · simp only [hg, Bool.false_eq_true, if_false, if_true]
    rw [inUseRows_panics]
    refine ⟨f0 ++ ',' :: (f1 ++ ',' :: (f2 ++ ',' :: f3)), ?_, ?_⟩
    · apply List.mem_map.mpr
      exact ⟨_, List.mem_filter.mpr ⟨hmem, by simpa using hk⟩, rfl⟩
    · rw [Split_append _ _ _ h0, Split_append _ _ _ h1, Split_append _ _ _ h2,
        Split_not_mem _ _ h3]
      simp

/-- C21, the failing input: after `Reserve` has written the record
`10.0.1.2,web,default,unknown` for the container A, the handler of the binding endpoint
returns no element for it: it panics on the index expression `parts[4]`, the record having
the parts 0 to 3 only. -/
theorem InUseHandler_panics_after_Reserve :
    etcdReserved.Get "/anchor/cn/A".toList =
      .ok [("/anchor/cn/A".toList, "10.0.1.2,web,default,unknown".toList)] ∧
    Split ',' "10.0.1.2,web,default,unknown".toList =
      ["10.0.1.2".toList, "web".toList, "default".toList, "unknown".toList] ∧
    InUseHandler.ServeHTTP etcdReserved = ([], some .panic) := by
  decide

/-- C22, the failing input: a POST to the allocate endpoint with the body `not json`, for
which the JSON decoder returns an error. The handler answers with the status 405, where the
DELETE and PATCH branches of the same handler, and the specification, answer 505. -/
theorem AllocateHandler_POST_invalid_405 :
    (AllocateHandler.ServeHTTP (decodeFails { Allocate := [], Namespace := [] })
      (decodeFails []) etcdFirstFit
      { Method := "POST".toList, Body := "not json".toList }).1 =
      { status := 405, body := .text "Invalid parameter.".toList } := by
  decide

/-- The status of every body-carrying branch when the JSON decoder returns an error for the
body: the gateway endpoint answers 405 for POST, DELETE and PATCH, and the allocate endpoint
answers 405 for POST and 505 for DELETE and PATCH, whatever the store holds. -/
theorem invalid_JSON_status (g1 : List Char → Decoded GatewayMap)
    (gm : List Char → Decoded (List GatewayMap)) (a1 : List Char → Decoded AllocateMap)
    (am : List Char → Decoded (List AllocateMap)) (e : Etcd) (body : List Char)
    (hg1 : (g1 body).failed = true) (hgm : (gm body).failed = true)
    (ha1 : (a1 body).failed = true) (ham : (am body).failed = true) :
    (GatewayHandler.ServeHTTP g1 gm e { Method := "POST".toList, Body := body }).1.status = 405 ∧
    (GatewayHandler.ServeHTTP g1 gm e { Method := "DELETE".toList, Body := body }).1.status
      = 405 ∧
    (GatewayHandler.ServeHTTP g1 gm e { Method := "PATCH".toList, Body := body }).1.status
      = 405 ∧
    (AllocateHandler.ServeHTTP a1 am e { Method := "POST".toList, Body := body }).1.status
      = 405 ∧
    (AllocateHandler.ServeHTTP a1 am e { Method := "DELETE".toList, Body := body }).1.status
      = 505 ∧
    (AllocateHandler.ServeHTTP a1 am e { Method := "PATCH".toList, Body := body }).1.status
      = 505 := by
  refine ⟨?_, ?_, ?_, ?_, ?_, ?_⟩ <;>
    simp [GatewayHandler.ServeHTTP, AllocateHandler.ServeHTTP, httpError, hg1, hgm, ha1, ham]

/-- The body `not json` with decoders that return an error for it: DELETE gets 405 from the
gateway endpoint and 505 from the allocate endpoint. -/
theorem invalid_JSON_status_witness :
    (GatewayHandler.ServeHTTP (decodeFails { Subnet := [], Gateway := [] }) (decodeFails [])
      etcdFirstFit { Method := "DELETE".toList, Body := "not json".toList }).1.status = 405 ∧
    (AllocateHandler.ServeHTTP (decodeFails { Allocate := [], Namespace := [] })
      (decodeFails []) etcdFirstFit
      { Method := "DELETE".toList, Body := "not json".toList }).1.status = 505 :=
  ⟨(invalid_JSON_status (decodeFails { Subnet := [], Gateway := [] }) (decodeFails [])
      (decodeFails { Allocate := [], Namespace := [] }) (decodeFails []) etcdFirstFit
      "not json".toList rfl rfl rfl rfl).2.1,
   (invalid_JSON_status (decodeFails { Subnet := [], Gateway := [] }) (decodeFails [])
      (decodeFails { Allocate := [], Namespace := [] }) (decodeFails []) etcdFirstFit
      "not json".toList rfl rfl rfl rfl).2.2.2.2.1⟩

end Anchor
